import Mathlib

/-!
# Verification of the rust-ndfa pattern-matching and annotated-stream core

This file gives a shallow embedding of the matcher loop (`src/matches.rs`), the
tokenizer surface (`src/tokenizer.rs`) and the annotated stream
(`src/annotated_stream.rs`) of the rust-ndfa crate, together with models of the
crate modules that are referenced but whose sources are not available
(`symbol_range_dfa.rs`, `pattern_matcher.rs`, `ndfa.rs`, `regular_pattern.rs`,
`dfa_compiler.rs`, `overlapping_symbols.rs` and the streaming tokenizer used by
`AnnotatedStream::from_tokenizer`); those are modelled from the specification
and are marked as such in their doc comments.  Theorems at the end settle the
behavioural claims about this code.
-/

namespace RustNdfa

/--
Modelled from the spec: `symbol_range_dfa.rs` and `pattern_matcher.rs` are not in
`src/`.  §4.G describes the execution of a prepared deterministic matcher as a
machine with a start state, a deterministic transition choice per symbol (at most
one range of the current state contains the symbol, found by binary search), and
an optional output per state (a state with an output is accepting).  We abstract
the prepared matcher as such a deterministic machine over a state type `Q`:
`step q c` is the unique transition out of `q` on symbol `c` (none when no range
of `q` contains `c`), and `out q` is the optional output of `q`.
-/
structure Machine (Q S O : Type) where
  start : Q
  step : Q → S → Option Q
  out : Q → Option O

variable {Q S O : Type}

/--
Embedding of the loop of `matches_symbol_range` (`src/matches.rs` lines 37–57)
over the §4.G matcher state.  Per §4.G the running state `More` carries the
current state id, the number of consumed symbols and the best accept seen so
far; on each turn the matcher first records an accept if the current state has
an output, then pulls a symbol (finishing with `Accept(last_accept)` or `Reject`
at end of input or when no transition contains the symbol), otherwise advances.
-/
def runFrom (m : Machine Q S O) : Q → Nat → Option (Nat × O) → List S → Option (Nat × O)
  | q, consumed, lastAccept, input =>
    let lastAccept' := match m.out q with
      | some o => some (consumed, o)
      | none => lastAccept
    match input with
    | [] => lastAccept'
    | c :: rest =>
      match m.step q c with
      | none => lastAccept'
      | some q' => runFrom m q' (consumed + 1) lastAccept' rest

/-- The full matcher run from the start state: the final `Accept` data, if any. -/
def runMatcher (m : Machine Q S O) (input : List S) : Option (Nat × O) :=
  runFrom m m.start 0 none input

/--
Embedding of `matches_symbol_range` / `matches` (`src/matches.rs` lines 37–57
and 62–72): `matches` prepares the pattern into a matcher and returns
`Some(count)` exactly when the run ends in `Accept(count, _)`.
-/
def matchesM (m : Machine Q S O) (input : List S) : Option Nat :=
  (runMatcher m input).map Prod.fst

/-- The state reached from `q` by consuming a word, `none` when the machine gets
stuck (some symbol has no transition). -/
def stateAfter (m : Machine Q S O) : Q → List S → Option Q
  | q, [] => some q
  | q, c :: rest =>
    match m.step q c with
    | none => none
    | some q' => stateAfter m q' rest

/-- The output of the state reached from `q` on a word (`none` if stuck or the
reached state has no output). -/
def outFrom (m : Machine Q S O) (q : Q) (w : List S) : Option O :=
  match stateAfter m q w with
  | some q' => m.out q'
  | none => none

/-- A word is accepted when the machine reaches an accepting state on it from
the start state. -/
def outAt (m : Machine Q S O) (w : List S) : Option O :=
  outFrom m m.start w

/-- `acceptsLen m input n`: the length-`n` front part of `input` is a prefix
accepted by the machine. -/
def acceptsLen (m : Machine Q S O) (input : List S) (n : Nat) : Prop :=
  n ≤ input.length ∧ (outAt m (input.take n)).isSome

instance (m : Machine Q S O) (input : List S) (n : Nat) :
    Decidable (acceptsLen m input n) := by
  unfold acceptsLen; infer_instance

/-- The longest accepted stretch starting at state `q`: length together with the
output of the state reached.  Longer matches take precedence over shorter ones. -/
def greatestFrom (m : Machine Q S O) : Q → List S → Option (Nat × O)
  | q, input =>
    let tail : Option (Nat × O) :=
      match input with
      | [] => none
      | c :: rest =>
        match m.step q c with
        | none => none
        | some q' =>
          match greatestFrom m q' rest with
          | some (n, o) => some (n + 1, o)
          | none => none
    match tail with
    | some r => some r
    | none =>
      match m.out q with
      | some o => some (0, o)
      | none => none

theorem runFrom_eq_greatestFrom (m : Machine Q S O) :
    ∀ (input : List S) (q : Q) (k : Nat) (a : Option (Nat × O)),
      runFrom m q k a input =
        match greatestFrom m q input with
        | some (n, o) => some (k + n, o)
        | none => a := by
  intro input
  induction input with
  | nil =>
    intro q k a
    simp only [runFrom, greatestFrom]
    cases h : m.out q <;> simp [h]
  | cons c rest ih =>
    intro q k a
    simp only [runFrom, greatestFrom]
    cases hstep : m.step q c with
    | none =>
      cases h : m.out q <;> simp [h]
    | some q' =>
      simp only [ih]
      cases hg : greatestFrom m q' rest with
      | none =>
        cases h : m.out q <;> simp [h]
      | some r =>
        obtain ⟨n, o⟩ := r
        cases h : m.out q <;> simp [h, Nat.add_assoc, Nat.add_comm 1 n]

/-- Soundness of `greatestFrom`: the reported length is within the input and the
word of that length is accepted from `q` with the reported output. -/
theorem greatestFrom_sound (m : Machine Q S O) :
    ∀ (input : List S) (q : Q) (n : Nat) (o : O),
      greatestFrom m q input = some (n, o) →
        n ≤ input.length ∧ outFrom m q (input.take n) = some o := by
  intro input
  induction input with
  | nil =>
    intro q n o h
    simp only [greatestFrom] at h
    cases hout : m.out q with
    | none => simp [hout] at h
    | some o' =>
      simp [hout] at h
      obtain ⟨hn, ho⟩ := h
      subst hn; subst ho
      simp [outFrom, stateAfter, hout]
  | cons c rest ih =>
    intro q n o h
    simp only [greatestFrom] at h
    cases hstep : m.step q c with
    | none =>
      simp only [hstep] at h
      cases hout : m.out q with
      | none => simp [hout] at h
      | some o' =>
        simp [hout] at h
        obtain ⟨hn, ho⟩ := h
        subst hn; subst ho
        simp [outFrom, stateAfter, hout]
    | some q' =>
      simp only [hstep] at h
      cases hg : greatestFrom m q' rest with
      | none =>
        simp only [hg] at h
        cases hout : m.out q with
        | none => simp [hout] at h
        | some o' =>
          simp [hout] at h
          obtain ⟨hn, ho⟩ := h
          subst hn; subst ho
          simp [outFrom, stateAfter, hout]
      | some r =>
        obtain ⟨n', o'⟩ := r
        simp [hg] at h
        obtain ⟨hn, ho⟩ := h
        subst hn; subst ho
        obtain ⟨hle, hacc⟩ := ih q' n' o' hg
        constructor
        · simpa using Nat.succ_le_succ hle
        · simpa [outFrom, stateAfter, hstep] using hacc

/-- Maximality of `greatestFrom`: no strictly longer stretch within the input is
accepted from `q`. -/
theorem greatestFrom_maximal (m : Machine Q S O) :
    ∀ (input : List S) (q : Q),
      (∀ n o, greatestFrom m q input = some (n, o) →
        ∀ j, j ≤ input.length → n < j → outFrom m q (input.take j) = none) ∧
      (greatestFrom m q input = none →
        ∀ j, outFrom m q (input.take j) = none) := by
  intro input
  induction input with
  | nil =>
    intro q
    constructor
    · intro n o h j hj hlt
      simp at hj
      omega
    · intro h j
      simp only [greatestFrom] at h
      cases hout : m.out q with
      | none => simp [outFrom, stateAfter, hout]
      | some o' => simp [hout] at h
  | cons c rest ih =>
    intro q
    have step_none_out : ∀ j, 0 < j → m.step q c = none →
        outFrom m q ((c :: rest).take j) = none := by
      intro j hj hstep
      obtain ⟨j', rfl⟩ : ∃ j', j = j' + 1 := ⟨j - 1, by omega⟩
      simp [outFrom, stateAfter, hstep]
    have step_some_out : ∀ j q', 0 < j → m.step q c = some q' →
        outFrom m q ((c :: rest).take j) = outFrom m q' (rest.take (j - 1)) := by
      intro j q' hj hstep
      obtain ⟨j', rfl⟩ : ∃ j', j = j' + 1 := ⟨j - 1, by omega⟩
      simp [outFrom, stateAfter, hstep]
    constructor
    · intro n o h j hj hlt
      simp only [greatestFrom] at h
      cases hstep : m.step q c with
      | none =>
        exact step_none_out j (by omega) hstep
      | some q' =>
        simp only [hstep] at h
        rw [step_some_out j q' (by omega) hstep]
        cases hg : greatestFrom m q' rest with
        | none =>
          exact (ih q').2 hg (j - 1)
        | some r =>
          obtain ⟨n', o'⟩ := r
          simp [hg] at h
          obtain ⟨hn, _⟩ := h
          subst hn
          exact (ih q').1 n' o' hg (j - 1) (by simp only [List.length_cons] at hj; omega) (by omega)
    · intro h j
      simp only [greatestFrom] at h
      rcases Nat.eq_zero_or_pos j with hj | hj
      · subst hj
        cases hstep : m.step q c with
        | none =>
          simp only [hstep] at h
          cases hout : m.out q with
          | none => simp [outFrom, stateAfter, hout]
          | some o' => simp [hout] at h
        | some q' =>
          simp only [hstep] at h
          cases hg : greatestFrom m q' rest with
          | none =>
            simp only [hg] at h
            cases hout : m.out q with
            | none => simp [outFrom, stateAfter, hout]
            | some o' => simp [hout] at h
          | some r =>
            obtain ⟨n', o'⟩ := r
            simp [hg] at h
      · cases hstep : m.step q c with
        | none => exact step_none_out j hj hstep
        | some q' =>
          simp only [hstep] at h
          rw [step_some_out j q' hj hstep]
          cases hg : greatestFrom m q' rest with
          | none => exact (ih q').2 hg (j - 1)
          | some r =>
            obtain ⟨n', o'⟩ := r
            simp [hg] at h

theorem runMatcher_eq_greatestFrom (m : Machine Q S O) (input : List S) :
    runMatcher m input =
      match greatestFrom m m.start input with
      | some (n, o) => some (n, o)
      | none => none := by
  unfold runMatcher
  rw [runFrom_eq_greatestFrom]
  cases h : greatestFrom m m.start input with
  | none => rfl
  | some r => obtain ⟨n, o⟩ := r; simp

theorem runMatcher_eq_greatestFrom' (m : Machine Q S O) (input : List S) :
    runMatcher m input = greatestFrom m m.start input := by
  rw [runMatcher_eq_greatestFrom]
  cases h : greatestFrom m m.start input with
  | none => rfl
  | some r => obtain ⟨n, o⟩ := r; rfl

/--
**C1.** For every symbol source and pattern, `matches(source, pattern)` returns
`Some(n)` where `n` is the length of the longest prefix of the source accepted
by the DFA compiled from the pattern, whenever at least one prefix (possibly the
empty prefix) is accepted, and returns `None` when no prefix is accepted.
(`prepare_to_match` deterministically produces one matcher per pattern, so the
statement is over an arbitrary prepared matcher `m` and an arbitrary input.)
-/
theorem matches_longest_accepted (m : Machine Q S O) (input : List S) :
    (∀ n, matchesM m input = some n ↔
        (acceptsLen m input n ∧ ∀ j, acceptsLen m input j → j ≤ n)) ∧
    (matchesM m input = none ↔ ∀ j, ¬ acceptsLen m input j) := by
  have hrm : matchesM m input = (greatestFrom m m.start input).map Prod.fst := by
    unfold matchesM
    rw [runMatcher_eq_greatestFrom']
  cases hg : greatestFrom m m.start input with
  | none =>
    have hnone := (greatestFrom_maximal m input m.start).2 hg
    have hnacc : ∀ j, ¬ acceptsLen m input j := by
      intro j ⟨hj, hsome⟩
      unfold outAt at hsome
      rw [hnone j] at hsome
      simp at hsome
    constructor
    · intro n
      constructor
      · intro h
        rw [hrm, hg] at h
        simp at h
      · intro ⟨hacc, _⟩
        exact absurd hacc (hnacc n)
    · constructor
      · intro _
        exact hnacc
      · intro _
        rw [hrm, hg]
        rfl
  | some r =>
    obtain ⟨n₀, o₀⟩ := r
    obtain ⟨hle, hout⟩ := greatestFrom_sound m input m.start n₀ o₀ hg
    have hacc₀ : acceptsLen m input n₀ := by
      refine ⟨hle, ?_⟩
      unfold outAt
      rw [hout]
      rfl
    have hmax : ∀ j, acceptsLen m input j → j ≤ n₀ := by
      intro j ⟨hj, hsome⟩
      by_contra hgt
      have := (greatestFrom_maximal m input m.start).1 n₀ o₀ hg j hj (by omega)
      unfold outAt at hsome
      rw [this] at hsome
      simp at hsome
    constructor
    · intro n
      constructor
      · intro h
        rw [hrm, hg] at h
        simp at h
        subst h
        exact ⟨hacc₀, hmax⟩
      · intro ⟨hacc, hmx⟩
        rw [hrm, hg]
        simp
        exact Nat.le_antisymm (hmx n₀ hacc₀) (hmax n hacc)
    · constructor
      · intro h
        rw [hrm, hg] at h
        simp at h
      · intro h
        exact absurd hacc₀ (h n₀)

/--
**C8.** For every pattern `p` and strings `u` and `v` where `u` is a prefix of
`v` (expressed as `u = v.take u.length`), if `matches(u, p)` and `matches(v, p)`
both return `Some`, then the length returned for `v` is at least the length
returned for `u`.  (The pattern enters only through its prepared matcher `m`,
which is the same fixed machine in both calls.)
-/
theorem matches_longer_input_longer_match (m : Machine Q S O) (u v : List S)
    (nu nv : Nat) (hpre : u = v.take u.length)
    (hu : matchesM m u = some nu) (hv : matchesM m v = some nv) : nu ≤ nv := by
  obtain ⟨⟨hunu, husome⟩, _⟩ := ((matches_longest_accepted m u).1 nu).mp hu
  obtain ⟨_, hvmax⟩ := ((matches_longest_accepted m v).1 nv).mp hv
  have hlen : u.length ≤ v.length := by
    conv_lhs => rw [hpre]
    simp
  apply hvmax
  refine ⟨by omega, ?_⟩
  have htake : v.take nu = u.take nu := by
    rw [hpre, List.take_take, Nat.min_eq_left hunu]
  rw [htake]
  exact husome

/-- A concrete prepared matcher used by witnesses: it loops on the symbol `0`
and accepts everywhere. -/
def zerosMachine : Machine Nat Nat Nat :=
  { start := 0
    step := fun q c => if c = 0 then some q else none
    out := fun _ => some 0 }

/-- Witness for `matches_longer_input_longer_match` at `u = [0]`, `v = [0, 0]`. -/
theorem matches_longer_input_longer_match_witness :
    matchesM zerosMachine [0] = some 1 ∧ matchesM zerosMachine [0, 0] = some 2 ∧ (1 : Nat) ≤ 2 :=
  ⟨rfl, rfl, matches_longer_input_longer_match zerosMachine [0] [0, 0] 1 2 rfl rfl rfl⟩

/-- Half-open range `start..stop` of positions, embedding Rust's `Range<usize>`
(`location.start .. location.end`); the Rust field `end` is a Lean keyword and
is named `stop` here. -/
structure SRange where
  start : Nat
  stop : Nat
deriving Repr, DecidableEq

/-- Embedding of `AnnotatedStream` (`src/annotated_stream.rs` lines 145–152):
the original input plus the tokenized ranges, in order. -/
structure AnnotatedStream (I O : Type) where
  original : List I
  tokenized : List (O × SRange)

/-- Embedding of `Token` (`src/annotated_stream.rs` lines 348–355). -/
structure Token (O : Type) where
  location : SRange
  output : O
deriving Repr, DecidableEq

/-- Rust's `Result<usize, usize>` as returned by `slice::binary_search_by` and
`find_token_index`: `found i` is `Ok(i)`, `notFound i` is `Err(i)`. -/
inductive SearchResult where
  | found (i : Nat)
  | notFound (i : Nat)
deriving Repr, DecidableEq

/--
Embedding of the loop of Rust's `slice::binary_search_by` as called by
`find_token_index`: maintains `left`/`right`, probes
`mid = left + (right - left) / 2`, narrows on `Less`/`Greater` and returns
`Ok(mid)` on `Equal`, `Err(left)` when the window is empty.  Structured on a
fuel argument; `right - left ≤ fuel` makes the fuel inexhaustible, and the
top-level wrapper supplies `xs.length + 1`.
-/
def bsearchAux {α : Type} (f : α → Ordering) (xs : List α) :
    Nat → Nat → Nat → SearchResult
  | 0, left, _ => .notFound left
  | fuel + 1, left, right =>
    if left < right then
      let mid := left + (right - left) / 2
      match xs.get? mid with
      | none => .notFound left
      | some x =>
        match f x with
        | .lt => bsearchAux f xs fuel (mid + 1) right
        | .gt => bsearchAux f xs fuel left mid
        | .eq => .found mid
    else
      .notFound left

/-- Rust `xs.binary_search_by(f)`. -/
def binarySearchBy {α : Type} (f : α → Ordering) (xs : List α) : SearchResult :=
  bsearchAux f xs (xs.length + 1) 0 xs.length

/--
Embedding of `AnnotatedStream::find_token_index`
(`src/annotated_stream.rs` lines 269–289): binary-search `tokenized` on the
range start; on `Err(index)`, return the predecessor `index - 1` when its range
ends after `position`, else `Err`.
-/
def findTokenIndex {I O : Type} (s : AnnotatedStream I O) (position : Nat) :
    SearchResult :=
  match binarySearchBy (fun t => compare t.2.start position) s.tokenized with
  | .found index => .found index
  | .notFound index =>
    if index = 0 then .notFound 0
    else
      match s.tokenized.get? (index - 1) with
      | some t => if position < t.2.stop then .found (index - 1) else .notFound index
      | none => .notFound index

/-- Embedding of `AnnotatedStream::find_token`
(`src/annotated_stream.rs` lines 294–306). -/
def findToken {I O : Type} (s : AnnotatedStream I O) (position : Nat) :
    Option (Token O) :=
  match findTokenIndex s position with
  | .found index => (s.tokenized.get? index).map (fun t => ⟨t.2, t.1⟩)
  | .notFound _ => none

/--
The §3 data-model invariants of an annotated stream: token ranges are sorted by
start, pairwise non-overlapping, contained within the original input, and each
non-empty.
-/
structure StreamInv {I O : Type} (s : AnnotatedStream I O) : Prop where
  sorted : s.tokenized.Chain' (fun a b => a.2.start ≤ b.2.start)
  disjoint : s.tokenized.Chain' (fun a b => a.2.stop ≤ b.2.start)
  bounded : ∀ t ∈ s.tokenized, t.2.stop ≤ s.original.length
  nonempty : ∀ t ∈ s.tokenized, t.2.start < t.2.stop

/-- Correctness of the binary-search loop on a strictly increasing key,
relative to window bounds that already separate the outside elements. -/
theorem bsearchAux_spec {α : Type} (key : α → Nat) (p : Nat) (xs : List α)
    (hmono : ∀ (i j : Nat) (hi : i < xs.length) (hj : j < xs.length), i < j →
      key (xs.get ⟨i, hi⟩) < key (xs.get ⟨j, hj⟩)) :
    ∀ (fuel left right : Nat), right ≤ xs.length → left ≤ right →
      right - left ≤ fuel →
      (∀ (i : Nat) (hi : i < xs.length), i < left → key (xs.get ⟨i, hi⟩) < p) →
      (∀ (i : Nat) (hi : i < xs.length), right ≤ i → p < key (xs.get ⟨i, hi⟩)) →
      match bsearchAux (fun x => compare (key x) p) xs fuel left right with
      | .found i => ∃ h : i < xs.length, key (xs.get ⟨i, h⟩) = p
      | .notFound i => left ≤ i ∧ i ≤ right ∧
          (∀ (j : Nat) (hj : j < xs.length), j < i → key (xs.get ⟨j, hj⟩) < p) ∧
          (∀ (j : Nat) (hj : j < xs.length), i ≤ j → p < key (xs.get ⟨j, hj⟩)) := by
  intro fuel
  induction fuel with
  | zero =>
    intro left right hr hlr hfuel hlo hhi
    have : right = left := by omega
    subst this
    simp only [bsearchAux]
    exact ⟨Nat.le_refl _, Nat.le_refl _, hlo, hhi⟩
  | succ fuel ih =>
    intro left right hr hlr hfuel hlo hhi
    simp only [bsearchAux]
    by_cases hcmp : left < right
    · simp only [if_pos hcmp]
      have hmidlt : left + (right - left) / 2 < xs.length := by omega
      have hget : xs.get? (left + (right - left) / 2) = some (xs.get ⟨left + (right - left) / 2, hmidlt⟩) := by
        rw [List.get?_eq_get hmidlt]
      rw [hget]
      have hmlb : left ≤ left + (right - left) / 2 := by omega
      have hmub : left + (right - left) / 2 < right := by omega
      rcases lt_trichotomy (key (xs.get ⟨left + (right - left) / 2, hmidlt⟩)) p with hk | hk | hk
      · have hcmp2 : compare (key (xs.get ⟨left + (right - left) / 2, hmidlt⟩)) p = .lt := by
          rw [compare_lt_iff_lt]; exact hk
        simp only [hcmp2]
        have hlo' : ∀ (i : Nat) (hi : i < xs.length), i < left + (right - left) / 2 + 1 →
            key (xs.get ⟨i, hi⟩) < p := by
          intro i hi hilt
          rcases Nat.lt_or_ge i left with hcase | hcase
          · exact hlo i hi hcase
          · rcases Nat.lt_or_ge i (left + (right - left) / 2) with hc2 | hc2
            · exact Nat.lt_trans (hmono i (left + (right - left) / 2) hi hmidlt hc2) hk
            · have heq : i = left + (right - left) / 2 := by omega
              subst heq
              exact hk
        have hrec := ih (left + (right - left) / 2 + 1) right hr (by omega) (by omega) hlo' hhi
        cases hres : bsearchAux (fun x => compare (key x) p) xs fuel (left + (right - left) / 2 + 1) right with
        | found i =>
          rw [hres] at hrec
          exact hrec
        | notFound i =>
          rw [hres] at hrec
          exact ⟨by omega, hrec.2.1, hrec.2.2.1, hrec.2.2.2⟩
      · have hcmp2 : compare (key (xs.get ⟨left + (right - left) / 2, hmidlt⟩)) p = .eq := by
          rw [compare_eq_iff_eq]; exact hk
        simp only [hcmp2]
        exact ⟨hmidlt, hk⟩
      · have hcmp2 : compare (key (xs.get ⟨left + (right - left) / 2, hmidlt⟩)) p = .gt := by
          rw [compare_gt_iff_gt]; exact hk
        simp only [hcmp2]
        have hhi' : ∀ (i : Nat) (hi : i < xs.length), left + (right - left) / 2 ≤ i →
            p < key (xs.get ⟨i, hi⟩) := by
          intro i hi hile
          rcases Nat.eq_or_lt_of_le hile with hc3 | hc3
          · subst hc3
            exact hk
          · exact Nat.lt_trans hk (hmono (left + (right - left) / 2) i hmidlt hi hc3)
        have hrec := ih left (left + (right - left) / 2) (by omega) (by omega) (by omega) hlo hhi'
        cases hres : bsearchAux (fun x => compare (key x) p) xs fuel left (left + (right - left) / 2) with
        | found i =>
          rw [hres] at hrec
          exact hrec
        | notFound i =>
          rw [hres] at hrec
          exact ⟨hrec.1, by omega, hrec.2.2.1, hrec.2.2.2⟩
    · simp only [if_neg hcmp]
      have : right = left := by omega
      subst this
      exact ⟨Nat.le_refl _, Nat.le_refl _, hlo, hhi⟩

/-- Correctness of `binarySearchBy` on a strictly increasing key. -/
theorem binarySearchBy_spec {α : Type} (key : α → Nat) (p : Nat) (xs : List α)
    (hmono : ∀ (i j : Nat) (hi : i < xs.length) (hj : j < xs.length), i < j →
      key (xs.get ⟨i, hi⟩) < key (xs.get ⟨j, hj⟩)) :
    match binarySearchBy (fun x => compare (key x) p) xs with
    | .found i => ∃ h : i < xs.length, key (xs.get ⟨i, h⟩) = p
    | .notFound i => i ≤ xs.length ∧
        (∀ (j : Nat) (hj : j < xs.length), j < i → key (xs.get ⟨j, hj⟩) < p) ∧
        (∀ (j : Nat) (hj : j < xs.length), i ≤ j → p < key (xs.get ⟨j, hj⟩)) := by
  have h := bsearchAux_spec key p xs hmono (xs.length + 1) 0 xs.length
    (Nat.le_refl _) (Nat.zero_le _) (by omega)
    (by intro i hi hlt; omega)
    (by intro i hi hle; omega)
  unfold binarySearchBy
  cases hres : bsearchAux (fun x => compare (key x) p) xs (xs.length + 1) 0 xs.length with
  | found i =>
    rw [hres] at h
    exact h
  | notFound i =>
    rw [hres] at h
    exact ⟨h.2.1, h.2.2.1, h.2.2.2⟩

/-- Non-overlapping non-empty sorted ranges are pairwise separated: any earlier
token ends no later than a later one starts, and starts strictly increase. -/
theorem chainsPairwise {O : Type} :
    ∀ l : List (O × SRange),
      l.Chain' (fun a b => a.2.stop ≤ b.2.start) →
      (∀ t ∈ l, t.2.start < t.2.stop) →
      l.Pairwise (fun a b => a.2.stop ≤ b.2.start ∧ a.2.start < b.2.start) := by
  intro l
  induction l with
  | nil =>
    intro _ _
    exact List.Pairwise.nil
  | cons a l ih =>
    intro hc hne
    rw [List.chain'_cons'] at hc
    obtain ⟨hhead, htail⟩ := hc
    have hp := ih htail (fun t ht => hne t (List.mem_cons_of_mem a ht))
    refine List.Pairwise.cons ?_ hp
    intro b hb
    cases l with
    | nil => simp at hb
    | cons c l' =>
      have hac : a.2.stop ≤ c.2.start := hhead c rfl
      have has : a.2.start < a.2.stop := hne a (List.mem_cons_self a _)
      rcases List.mem_cons.mp hb with rfl | hb'
      · exact ⟨hac, by omega⟩
      · have hcb := (List.pairwise_cons.mp hp).1 b hb'
        have hcs : c.2.start < c.2.stop := hne c (by simp)
        exact ⟨by omega, by omega⟩

/--
**C3.** For every `AnnotatedStream` whose tokenized ranges satisfy the
data-model invariants and every position `p` in `[0, original.len())`: if some
stored token `t` satisfies `t.location.start ≤ p < t.location.end` then
`find_token(p)` returns that token, and otherwise it returns none.
-/
theorem find_token_correct {I O : Type} (s : AnnotatedStream I O) (hinv : StreamInv s)
    (p : Nat) (hp : p < s.original.length) :
    (∀ t ∈ s.tokenized, t.2.start ≤ p → p < t.2.stop →
        findToken s p = some ⟨t.2, t.1⟩) ∧
    ((∀ t ∈ s.tokenized, ¬ (t.2.start ≤ p ∧ p < t.2.stop)) →
        findToken s p = none) := by
  have hpw := chainsPairwise s.tokenized hinv.disjoint hinv.nonempty
  have hpwg := List.pairwise_iff_get.mp hpw
  have hmono : ∀ (i j : Nat) (hi : i < s.tokenized.length) (hj : j < s.tokenized.length),
      i < j → (s.tokenized.get ⟨i, hi⟩).2.start < (s.tokenized.get ⟨j, hj⟩).2.start :=
    fun i j hi hj hij => (hpwg ⟨i, hi⟩ ⟨j, hj⟩ hij).2
  have hdisj : ∀ (i j : Nat) (hi : i < s.tokenized.length) (hj : j < s.tokenized.length),
      i < j → (s.tokenized.get ⟨i, hi⟩).2.stop ≤ (s.tokenized.get ⟨j, hj⟩).2.start :=
    fun i j hi hj hij => (hpwg ⟨i, hi⟩ ⟨j, hj⟩ hij).1
  have hbs := binarySearchBy_spec (fun t => t.2.start) p s.tokenized hmono
  constructor
  · intro t ht hstart hstop
    obtain ⟨⟨it, hit⟩, hgt⟩ := List.mem_iff_get.mp ht
    cases hfound : binarySearchBy (fun t => compare t.2.start p) s.tokenized with
    | found i =>
      rw [hfound] at hbs
      obtain ⟨hi, hkey⟩ := hbs
      have hkey' : (s.tokenized.get ⟨i, hi⟩).2.start = p := hkey
      have hiti : it = i := by
        by_contra hne
        rcases Nat.lt_or_ge it i with hc | hc
        · have h1 := hdisj it i hit hi hc
          rw [hgt, hkey'] at h1
          omega
        · have hc2 : i < it := by omega
          have h2 := hmono i it hi hit hc2
          rw [hgt, hkey'] at h2
          omega
      subst hiti
      simp only [findToken, findTokenIndex, hfound]
      rw [List.get?_eq_get hit, hgt]
      rfl
    | notFound i =>
      rw [hfound] at hbs
      obtain ⟨hilen, hlo, hhi⟩ := hbs
      have hitlt : it < i := by
        by_contra hc
        have h3 : p < (s.tokenized.get ⟨it, hit⟩).2.start := hhi it hit (by omega)
        rw [hgt] at h3
        omega
      have hiti : it = i - 1 := by
        by_contra hne
        have hit2 : it < i - 1 := by omega
        have him1 : i - 1 < s.tokenized.length := by omega
        have h1 : (s.tokenized.get ⟨i - 1, him1⟩).2.start < p := hlo (i - 1) him1 (by omega)
        have h2 := hdisj it (i - 1) hit him1 hit2
        rw [hgt] at h2
        omega
      have hine : ¬ (i = 0) := by omega
      have him1 : i - 1 < s.tokenized.length := by omega
      have hgeq : s.tokenized.get ⟨i - 1, him1⟩ = t := by
        have hfin : (⟨i - 1, him1⟩ : Fin s.tokenized.length) = ⟨it, hit⟩ := by
          apply Fin.ext
          simp only []
          omega
        rw [hfin, hgt]
      have hfti : findTokenIndex s p = .found (i - 1) := by
        simp only [findTokenIndex, hfound, if_neg hine, List.get?_eq_get him1]
        rw [hgeq, if_pos hstop]
      simp only [findToken, hfti]
      rw [List.get?_eq_get him1, hgeq]
      rfl
  · intro hnone
    cases hfound : binarySearchBy (fun t => compare t.2.start p) s.tokenized with
    | found i =>
      rw [hfound] at hbs
      obtain ⟨hi, hkey⟩ := hbs
      have hkey' : (s.tokenized.get ⟨i, hi⟩).2.start = p := hkey
      have hmem := List.get_mem s.tokenized i hi
      have hcontain := hnone _ hmem
      have hne := hinv.nonempty _ hmem
      rw [hkey'] at hne
      exact absurd ⟨Nat.le_of_eq hkey', hne⟩ hcontain
    | notFound i =>
      rw [hfound] at hbs
      obtain ⟨hilen, hlo, hhi⟩ := hbs
      simp only [findToken, findTokenIndex, hfound]
      by_cases hi0 : i = 0
      · rw [if_pos hi0]
      · rw [if_neg hi0]
        have him1 : i - 1 < s.tokenized.length := by omega
        rw [List.get?_eq_get him1]
        have hstartlt : (s.tokenized.get ⟨i - 1, him1⟩).2.start < p := hlo (i - 1) him1 (by omega)
        have hmem := List.get_mem s.tokenized (i - 1) him1
        have hcontain := hnone _ hmem
        have hstople : ¬ (p < (s.tokenized.get ⟨i - 1, him1⟩).2.stop) := by
          intro hc
          exact hcontain ⟨by omega, hc⟩
        simp only [if_neg hstople]

/-- A concrete annotated stream used by witnesses (the §8 S1 scenario: digits
and spaces of `"12 42 13"`). -/
def sampleStream : AnnotatedStream Nat Nat :=
  { original := [1, 2, 9, 4, 2, 9, 1, 3]
    tokenized := [(0, ⟨0, 2⟩), (1, ⟨2, 3⟩), (0, ⟨3, 5⟩), (1, ⟨5, 6⟩), (0, ⟨6, 8⟩)] }

/-- The sample stream satisfies the data-model invariants. -/
theorem sampleStream_inv : StreamInv sampleStream := by
  refine ⟨?_, ?_, by decide, by decide⟩ <;>
    simp [sampleStream, List.chain'_cons]

/-- Witness for `find_token_correct`: on the S1 stream, position 4 lies inside
the token `(Digit, 3..5)` and `find_token(4)` returns it. -/
theorem find_token_correct_witness :
    findToken sampleStream 4 = some ⟨⟨3, 5⟩, 0⟩ :=
  (find_token_correct sampleStream sampleStream_inv 4 (by decide)).1
    (0, ⟨3, 5⟩) (by decide) (by decide) (by decide)

/-- The start index used by `read_tokens_in_range`
(`src/annotated_stream.rs` line 313): the `find_token_index` result with the
`Ok`/`Err` payload taken either way. -/
def tokenStartIndex {I O : Type} (s : AnnotatedStream I O) (pos : Nat) : Nat :=
  match findTokenIndex s pos with
  | .found index => index
  | .notFound index => index

/-- The linear scan of `read_tokens_in_range`
(`src/annotated_stream.rs` lines 316–330) computing `end_index`: starting at
`i`, advance while the current token starts before `rstop`, stopping at the end
of the list.  Fuel-structured; `tokenized.length + 1` is always enough fuel. -/
def scanEndAux {O : Type} (tokenized : List (O × SRange)) (rstop : Nat) :
    Nat → Nat → Nat
  | 0, i => i
  | fuel + 1, i =>
    match tokenized.get? i with
    | none => i
    | some t => if rstop ≤ t.2.start then i else scanEndAux tokenized rstop fuel (i + 1)

/-- Embedding of `AnnotatedStream::read_tokens_in_range`
(`src/annotated_stream.rs` lines 311–342): the slice
`tokenized[start_index..end_index]` read as `Token`s. -/
def readTokensInRange {I O : Type} (s : AnnotatedStream I O) (r : SRange) :
    List (Token O) :=
  let startIndex := tokenStartIndex s r.start
  let endIndex := scanEndAux s.tokenized r.stop (s.tokenized.length + 1) startIndex
  ((s.tokenized.drop startIndex).take (endIndex - startIndex)).map (fun t => ⟨t.2, t.1⟩)

/-- The index of the first stored token whose start is at least `x` (the list
length when there is none): the claim-side end marker for `read_tokens_in_range`. -/
def firstStartGE {O : Type} (l : List (O × SRange)) (x : Nat) : Nat :=
  match l with
  | [] => 0
  | t :: rest => if x ≤ t.2.start then 0 else firstStartGE rest x + 1

theorem firstStartGE_spec {O : Type} :
    ∀ (l : List (O × SRange)) (x : Nat),
      firstStartGE l x ≤ l.length ∧
      (∀ j t, j < firstStartGE l x → l.get? j = some t → t.2.start < x) ∧
      (∀ t, l.get? (firstStartGE l x) = some t → x ≤ t.2.start) := by
  intro l
  induction l with
  | nil =>
    intro x
    refine ⟨Nat.le_refl _, ?_, ?_⟩
    · intro j t hj ht
      simp [firstStartGE] at hj
    · intro t ht
      simp at ht
  | cons a rest ih =>
    intro x
    by_cases hx : x ≤ a.2.start
    · refine ⟨by simp [firstStartGE, hx], ?_, ?_⟩
      · intro j t hj ht
        simp [firstStartGE, hx] at hj
      · intro t ht
        simp [firstStartGE, hx] at ht
        subst ht
        exact hx
    · obtain ⟨ihlen, ihlt, ihge⟩ := ih x
      refine ⟨?_, ?_, ?_⟩
      · simp only [firstStartGE, if_neg hx, List.length_cons]
        omega
      · intro j t hj ht
        simp only [firstStartGE, if_neg hx] at hj
        cases j with
        | zero =>
          simp at ht
          subst ht
          omega
        | succ j' =>
          simp only [List.get?_cons_succ] at ht
          exact ihlt j' t (by omega) ht
      · intro t ht
        simp only [firstStartGE, if_neg hx, List.get?_cons_succ] at ht
        exact ihge t ht

theorem scanEndAux_eq_max {O : Type} (l : List (O × SRange)) (x : Nat)
    (hmono : ∀ (i j : Nat) (hi : i < l.length) (hj : j < l.length), i < j →
      (l.get ⟨i, hi⟩).2.start < (l.get ⟨j, hj⟩).2.start) :
    ∀ (fuel i : Nat), l.length - i < fuel →
      scanEndAux l x fuel i = max i (firstStartGE l x) := by
  obtain ⟨hflen, hflt, hfge⟩ := firstStartGE_spec l x
  intro fuel
  induction fuel with
  | zero =>
    intro i hfuel
    omega
  | succ fuel ihf =>
    intro i hfuel
    simp only [scanEndAux]
    cases hget : l.get? i with
    | none =>
      show i = max i (firstStartGE l x)
      have hilen : l.length ≤ i := by
        by_contra hc
        rw [List.get?_eq_get (by omega)] at hget
        simp at hget
      have : firstStartGE l x ≤ i := by omega
      omega
    | some t =>
      show (if x ≤ t.2.start then i else scanEndAux l x fuel (i + 1))
          = max i (firstStartGE l x)
      have hilen : i < l.length := by
        by_contra hc
        rw [List.get?_eq_none.mpr (by omega)] at hget
        simp at hget
      by_cases hstop : x ≤ t.2.start
      · rw [if_pos hstop]
        have hfle : firstStartGE l x ≤ i := by
          by_contra hc
          have := hflt i t (by omega) hget
          omega
        omega
      · rw [if_neg hstop]
        have hilt : i < firstStartGE l x := by
          by_contra hc
          rcases Nat.eq_or_lt_of_le (Nat.le_of_not_lt hc) with hef | hlt2
          · have := hfge t (by rw [← hef] at hget; exact hget)
            omega
          · have hflen2 : firstStartGE l x < l.length := by omega
            have := hfge (l.get ⟨firstStartGE l x, hflen2⟩)
              (List.get?_eq_get hflen2)
            have hm := hmono (firstStartGE l x) i hflen2 hilen hlt2
            rw [List.get?_eq_get hilen] at hget
            injection hget with hget
            rw [hget] at hm
            omega
        rw [ihf (i + 1) (by omega)]
        omega

/--
**C6.** For every `AnnotatedStream` whose tokenized ranges satisfy the
data-model invariants and every half-open range `r`, `read_tokens_in_range(r)`
returns exactly the contiguous slice of stored tokens starting at the index
produced by the `find_token` index procedure applied to `r.start` (with
predecessor fallback) and ending just before the first token whose start is
greater than or equal to `r.end`.
-/
theorem read_tokens_in_range_spec {I O : Type} (s : AnnotatedStream I O)
    (hinv : StreamInv s) (r : SRange) :
    readTokensInRange s r =
      ((s.tokenized.drop (tokenStartIndex s r.start)).take
        (firstStartGE s.tokenized r.stop - tokenStartIndex s r.start)).map
        (fun t => ⟨t.2, t.1⟩) := by
  have hpw := chainsPairwise s.tokenized hinv.disjoint hinv.nonempty
  have hpwg := List.pairwise_iff_get.mp hpw
  have hmono : ∀ (i j : Nat) (hi : i < s.tokenized.length) (hj : j < s.tokenized.length),
      i < j → (s.tokenized.get ⟨i, hi⟩).2.start < (s.tokenized.get ⟨j, hj⟩).2.start :=
    fun i j hi hj hij => (hpwg ⟨i, hi⟩ ⟨j, hj⟩ hij).2
  simp only [readTokensInRange]
  rw [scanEndAux_eq_max s.tokenized r.stop hmono (s.tokenized.length + 1)
    (tokenStartIndex s r.start) (by omega)]
  have harith : max (tokenStartIndex s r.start) (firstStartGE s.tokenized r.stop)
      - tokenStartIndex s r.start
      = firstStartGE s.tokenized r.stop - tokenStartIndex s r.start := by
    rcases Nat.le_total (tokenStartIndex s r.start) (firstStartGE s.tokenized r.stop) with h | h
    · rw [Nat.max_eq_right h]
    · rw [Nat.max_eq_left h]
      omega
  rw [harith]

/-- Witness for `read_tokens_in_range_spec`: the S3 scenario, `r = 4..7` on the
S1 stream. -/
theorem read_tokens_in_range_spec_witness :
    readTokensInRange sampleStream ⟨4, 7⟩ =
      ((sampleStream.tokenized.drop (tokenStartIndex sampleStream 4)).take
        (firstStartGE sampleStream.tokenized 7 - tokenStartIndex sampleStream 4)).map
        (fun t => ⟨t.2, t.1⟩) :=
  read_tokens_in_range_spec sampleStream sampleStream_inv ⟨4, 7⟩

/-- Embedding of `Annotator` (`src/annotated_stream.rs` lines 369–375). -/
structure Annotator (I O : Type) where
  stream : AnnotatedStream I O
  startPos : Nat

/-- Embedding of `Annotator::new` (`src/annotated_stream.rs` lines 381–383). -/
def Annotator.new (I O : Type) : Annotator I O :=
  { stream := { original := [], tokenized := [] }, startPos := 0 }

/-- Embedding of `Annotator::push_input` (`src/annotated_stream.rs` lines 388–390). -/
def Annotator.pushInput {I O : Type} (a : Annotator I O) (symbol : I) : Annotator I O :=
  { a with stream := { a.stream with original := a.stream.original ++ [symbol] } }

/-- Embedding of `Annotator::append_input` (`src/annotated_stream.rs` lines 395–397). -/
def Annotator.appendInput {I O : Type} (a : Annotator I O) (input : List I) : Annotator I O :=
  { a with stream := { a.stream with original := a.stream.original ++ input } }

/-- Embedding of `Annotator::token` (`src/annotated_stream.rs` lines 402–407):
records `(token, start_pos..original.len())` and resets `start_pos`. -/
def Annotator.token {I O : Type} (a : Annotator I O) (tok : O) : Annotator I O :=
  let pos := a.stream.original.length
  { stream := { original := a.stream.original
                tokenized := a.stream.tokenized ++ [(tok, ⟨a.startPos, pos⟩)] }
    startPos := pos }

/-- Embedding of `Annotator::skip` (`src/annotated_stream.rs` lines 412–414). -/
def Annotator.skip {I O : Type} (a : Annotator I O) : Annotator I O :=
  { a with startPos := a.stream.original.length }

/-- Embedding of `Annotator::finish` (`src/annotated_stream.rs` lines 419–421). -/
def Annotator.finish {I O : Type} (a : Annotator I O) : AnnotatedStream I O :=
  a.stream

/--
**C7, counterexample.** The claim says `token(o)` closes the open range *only
when that range is non-empty*.  On a fresh annotator the open range
`[0, 0)` is empty, yet `token(7)` still records it: the tokenized list changes
from `[]` to `[(7, 0..0)]`.
-/
theorem annotator_token_on_empty_range_records :
    (Annotator.new Nat Nat).startPos = (Annotator.new Nat Nat).stream.original.length ∧
    ((Annotator.new Nat Nat).token 7).stream.tokenized ≠
      (Annotator.new Nat Nat).stream.tokenized :=
  ⟨rfl, by decide⟩

/--
**C7, amended.** For every `Annotator`, calling `token(o)` closes the open
range `[start_pos, original.len())` with output `o` unconditionally — also when
that range is empty — and resets `start_pos` to `original.len()`; calling
`skip()` advances `start_pos` to `original.len()` without recording any token.
-/
theorem annotator_token_skip_spec {I O : Type} (a : Annotator I O) (o : O) :
    (a.token o).stream.original = a.stream.original ∧
    (a.token o).stream.tokenized
      = a.stream.tokenized ++ [(o, ⟨a.startPos, a.stream.original.length⟩)] ∧
    (a.token o).startPos = a.stream.original.length ∧
    a.skip.stream = a.stream ∧
    a.skip.startPos = a.stream.original.length :=
  ⟨rfl, rfl, rfl, rfl, rfl⟩

/--
**C5, counterexample.** A stream built through an `Annotator` can store an
empty range, refuting the claimed invariant that each stored range is
non-empty: `token` on a fresh annotator stores `(7, 0..0)`.
-/
theorem annotator_stream_has_empty_range :
    ((Annotator.new Nat Nat).token 7).finish.tokenized = [(7, ⟨0, 0⟩)] ∧
    ¬ ((0 : Nat) < (0 : Nat)) :=
  ⟨rfl, by omega⟩

/--
Embedding of the tokenizing loop of `AnnotatedStream::from_tokenizer`
(`src/annotated_stream.rs` lines 158–200).  The streaming tokenizer driving it
(`Tokenizer::new_prepared` / `next_symbol` / `get_source_position` /
`at_end_of_reader` / `skip_input`) is not under `src/` and is modelled from the
spec (§4.H): its state is the current position `pos` over the captured input;
`next_symbol` runs the matcher at `pos` and on a match advances by the matched
length and returns the output, otherwise leaves `pos` unchanged and returns
none; `at_end_of_reader` holds when `pos` has reached the input length;
`skip_input` drops one symbol.  The loop itself follows the source: on a token,
push `(output, pos..final_pos)` and continue at `final_pos`; on no token not at
the end, `pos += 1` and skip; at the end, stop.  The source loop has no fuel;
the fuel argument makes the recursion total, with `none` meaning the loop is
still running when the fuel runs out.
-/
def tokenizeLoop {Q S O : Type} (m : Machine Q S O) (original : List S) :
    Nat → Nat → List (O × SRange) → Option (List (O × SRange))
  | 0, _, _ => none
  | fuel + 1, pos, tokens =>
    match runMatcher m (original.drop pos) with
    | some (n, o) =>
      tokenizeLoop m original fuel (pos + n) (tokens ++ [(o, ⟨pos, pos + n⟩)])
    | none =>
      if pos < original.length then tokenizeLoop m original fuel (pos + 1) tokens
      else some tokens

/-- Embedding of `AnnotatedStream::from_tokenizer`
(`src/annotated_stream.rs` lines 158–200): capture the reader's symbols as
`original` and run the tokenizing loop from position 0. -/
def fromTokenizer {Q S O : Type} (m : Machine Q S O) (input : List S) (fuel : Nat) :
    Option (AnnotatedStream S O) :=
  (tokenizeLoop m input fuel 0 []).map (fun tokens => ⟨input, tokens⟩)

/-- The iteration of the `from_tokenizer` loop, as described by the claim: on a
match with output `o` ending at `end`, append `(o, pos..end)` and move to
`end`; on no match before end-of-input, advance `pos` by one symbol without
appending. -/
inductive TokStep {Q S O : Type} (m : Machine Q S O) (original : List S) :
    Nat × List (O × SRange) → Nat × List (O × SRange) → Prop
  | matched {pos ts n o} :
      runMatcher m (original.drop pos) = some (n, o) →
      TokStep m original (pos, ts) (pos + n, ts ++ [(o, ⟨pos, pos + n⟩)])
  | skip {pos ts} :
      runMatcher m (original.drop pos) = none →
      pos < original.length →
      TokStep m original (pos, ts) (pos + 1, ts)

theorem tokenizeLoop_sound {Q S O : Type} (m : Machine Q S O) (input : List S) :
    ∀ (fuel pos : Nat) (ts res : List (O × SRange)),
      tokenizeLoop m input fuel pos ts = some res →
      ∃ p, Relation.ReflTransGen (TokStep m input) (pos, ts) (p, res) ∧
        runMatcher m (input.drop p) = none ∧ input.length ≤ p := by
  intro fuel
  induction fuel with
  | zero =>
    intro pos ts res h
    simp [tokenizeLoop] at h
  | succ fuel ih =>
    intro pos ts res h
    simp only [tokenizeLoop] at h
    cases hm : runMatcher m (input.drop pos) with
    | some r =>
      obtain ⟨n, o⟩ := r
      rw [hm] at h
      obtain ⟨p, hsteps, hnone, hlen⟩ := ih (pos + n) (ts ++ [(o, ⟨pos, pos + n⟩)]) res h
      exact ⟨p, Relation.ReflTransGen.head (TokStep.matched hm) hsteps, hnone, hlen⟩
    | none =>
      rw [hm] at h
      by_cases hpos : pos < input.length
      · rw [if_pos hpos] at h
        obtain ⟨p, hsteps, hnone, hlen⟩ := ih (pos + 1) ts res h
        exact ⟨p, Relation.ReflTransGen.head (TokStep.skip hm hpos) hsteps, hnone, hlen⟩
      · rw [if_neg hpos] at h
        injection h with h
        subst h
        exact ⟨pos, Relation.ReflTransGen.refl, hm, by omega⟩

/--
**C4.** For every DFA and finite reader, `AnnotatedStream::from_tokenizer`
builds `tokenized` by repeatedly running the matcher at the current position
`pos`: on a match with output `o` ending at `end` it appends `(o, pos..end)`
and sets `pos` to `end`; on no match before end-of-input it advances `pos` by
exactly one symbol without appending a token; on no match at end-of-input it
stops.  (Soundness of the embedded loop against the claimed step relation,
for every terminating run.)
-/
theorem from_tokenizer_steps {Q S O : Type} (m : Machine Q S O) (input : List S)
    (fuel : Nat) (res : AnnotatedStream S O)
    (h : fromTokenizer m input fuel = some res) :
    res.original = input ∧
    ∃ p, Relation.ReflTransGen (TokStep m input) (0, []) (p, res.tokenized) ∧
      runMatcher m (input.drop p) = none ∧ input.length ≤ p := by
  unfold fromTokenizer at h
  cases hloop : tokenizeLoop m input fuel 0 [] with
  | none => rw [hloop] at h; simp at h
  | some tokens =>
    rw [hloop] at h
    simp at h
    subst h
    exact ⟨rfl, tokenizeLoop_sound m input fuel 0 [] tokens hloop⟩

/-- A concrete machine for witnesses: accepts exactly the non-empty runs of the
symbol `0`, with output `9`; its start state is not accepting. -/
def zeroRun : Machine Nat Nat Nat :=
  { start := 0
    step := fun _ c => if c = 0 then some 1 else none
    out := fun q => if q = 1 then some 9 else none }

/-- Witness for `from_tokenizer_steps`: tokenizing `[0, 5]` with `zeroRun`
terminates within fuel 4 and its token list is reachable by claim steps. -/
theorem from_tokenizer_steps_witness :
    fromTokenizer zeroRun [0, 5] 4 = some ⟨[0, 5], [(9, ⟨0, 1⟩)]⟩ ∧
    (⟨[0, 5], [(9, ⟨0, 1⟩)]⟩ : AnnotatedStream Nat Nat).original = [0, 5] ∧
    ∃ p, Relation.ReflTransGen (TokStep zeroRun [0, 5]) (0, [])
        (p, (⟨[0, 5], [(9, ⟨0, 1⟩)]⟩ : AnnotatedStream Nat Nat).tokenized) ∧
      runMatcher zeroRun ([0, 5].drop p) = none ∧ [0, 5].length ≤ p :=
  ⟨rfl, from_tokenizer_steps zeroRun [0, 5] 4 ⟨[0, 5], [(9, ⟨0, 1⟩)]⟩ rfl⟩

/-- A machine that accepts exactly the empty string (start state accepting, no
transitions), such as results from a pattern with a minimum of zero
repetitions over a symbol the input does not contain. -/
def epsMachine : Machine Nat Nat Nat :=
  { start := 0
    step := fun _ _ => none
    out := fun _ => some 5 }

/--
**C10, counterexample.** With a DFA that accepts the empty string and the input
`[1]` (whose symbol has no transition), the `from_tokenizer` loop takes an
iteration that appends the zero-length token `(5, 0..0)` and leaves the
position at 0: the iteration neither strictly advances the position nor exits
the loop, and the loop never terminates (fuel 5 shown).
-/
theorem from_tokenizer_iteration_no_advance :
    TokStep epsMachine [1] (0, []) (0, [(5, ⟨0, 0⟩)]) ∧
    ¬ ((0 : Nat) < (0 : Nat)) ∧
    fromTokenizer epsMachine [1] 5 = none :=
  ⟨TokStep.matched (by rfl), by omega, rfl⟩

/-- If the matcher reports a match, that match is an accepted stretch of the
input: its length is within the input and the machine accepts it from the
start state. -/
theorem runMatcher_some_facts {Q S O : Type} (m : Machine Q S O) (w : List S)
    (n : Nat) (o : O) (h : runMatcher m w = some (n, o)) :
    n ≤ w.length ∧ outFrom m m.start (w.take n) = some o := by
  rw [runMatcher_eq_greatestFrom'] at h
  exact greatestFrom_sound m w m.start n o h

/--
**C10, amended.** The `from_tokenizer` loop can fail to make progress exactly
when the matcher reports a zero-length match, which requires the DFA to accept
the empty string.  When the DFA's start state is not accepting, every iteration
strictly advances the position or exits, and the loop terminates within fuel
`input.length + 1`.
-/
theorem from_tokenizer_advances {Q S O : Type} (m : Machine Q S O) (input : List S)
    (hstart : m.out m.start = none) :
    (∀ st st' : Nat × List (O × SRange), TokStep m input st st' → st.1 < st'.1) ∧
    (fromTokenizer m input (input.length + 1)).isSome := by
  have hpos : ∀ (pos n : Nat) (o : O),
      runMatcher m (input.drop pos) = some (n, o) → 1 ≤ n ∧ n ≤ input.length - pos := by
    intro pos n o hm
    obtain ⟨hlen, hout⟩ := runMatcher_some_facts m (input.drop pos) n o hm
    rw [List.length_drop] at hlen
    refine ⟨?_, hlen⟩
    by_contra hc
    have hn0 : n = 0 := by omega
    subst hn0
    rw [List.take_zero] at hout
    have hout' : m.out m.start = some o := hout
    rw [hstart] at hout'
    exact Option.noConfusion hout'
  constructor
  · intro st st' hstep
    cases hstep with
    | matched hm =>
      have := hpos _ _ _ hm
      simp only []
      omega
    | skip hm hlt =>
      simp only []
      omega
  · have main : ∀ (fuel pos : Nat) (ts : List (O × SRange)),
        input.length - pos < fuel →
        (tokenizeLoop m input fuel pos ts).isSome := by
      intro fuel
      induction fuel with
      | zero => intro pos ts h; omega
      | succ fuel ih =>
        intro pos ts h
        simp only [tokenizeLoop]
        cases hm : runMatcher m (input.drop pos) with
        | some r =>
          obtain ⟨n, o⟩ := r
          have hn := hpos pos n o hm
          exact ih (pos + n) (ts ++ [(o, ⟨pos, pos + n⟩)]) (by omega)
        | none =>
          by_cases hlt : pos < input.length
          · rw [if_pos hlt]
            exact ih (pos + 1) ts (by omega)
          · rw [if_neg hlt]
            rfl
    unfold fromTokenizer
    have := main (input.length + 1) 0 [] (by omega)
    cases hl : tokenizeLoop m input (input.length + 1) 0 [] with
    | none => rw [hl] at this; simp at this
    | some tokens => rfl

/-- Witness for `from_tokenizer_advances`: the `zeroRun` machine rejects the
empty string and tokenizing `[0, 5]` with fuel `3` succeeds. -/
theorem from_tokenizer_advances_witness :
    zeroRun.out zeroRun.start = none ∧
    (fromTokenizer zeroRun [0, 5] ([0, 5].length + 1)).isSome :=
  ⟨rfl, (from_tokenizer_advances zeroRun [0, 5] rfl).2⟩

/-- A zero-length match pins the loop to its position: the loop never exits. -/
theorem tokenizeLoop_zero_none {Q S O : Type} (m : Machine Q S O) (input : List S)
    (pos : Nat) (o : O) (hm : runMatcher m (input.drop pos) = some (0, o)) :
    ∀ (fuel : Nat) (ts : List (O × SRange)),
      tokenizeLoop m input fuel pos ts = none := by
  intro fuel
  induction fuel with
  | zero => intro ts; rfl
  | succ fuel ih =>
    intro ts
    simp only [tokenizeLoop, hm, Nat.add_zero]
    exact ih _

/-- Invariant of the tokenizing loop on terminating runs: the produced token
list stays non-overlapping, is bounded by the current position, and every
produced range is non-empty. -/
theorem tokenizeLoop_inv {Q S O : Type} (m : Machine Q S O) (input : List S) :
    ∀ (fuel pos : Nat) (ts res : List (O × SRange)),
      tokenizeLoop m input fuel pos ts = some res →
      ts.Chain' (fun x y => x.2.stop ≤ y.2.start) →
      (∀ t ∈ ts, t.2.stop ≤ pos) →
      (∀ t ∈ ts, t.2.start < t.2.stop) →
      pos ≤ input.length →
      res.Chain' (fun x y => x.2.stop ≤ y.2.start) ∧
      (∀ t ∈ res, t.2.stop ≤ input.length) ∧
      (∀ t ∈ res, t.2.start < t.2.stop) := by
  intro fuel
  induction fuel with
  | zero =>
    intro pos ts res h
    simp [tokenizeLoop] at h
  | succ fuel ih =>
    intro pos ts res h hchain hstop hne hpos
    simp only [tokenizeLoop] at h
    cases hm : runMatcher m (input.drop pos) with
    | some r =>
      obtain ⟨n, o⟩ := r
      rw [hm] at h
      have h2 : tokenizeLoop m input fuel (pos + n) (ts ++ [(o, ⟨pos, pos + n⟩)]) = some res := h
      by_cases hn0 : n = 0
      · subst hn0
        have h3 : tokenizeLoop m input fuel pos (ts ++ [(o, ⟨pos, pos⟩)]) = some res := h2
        rw [tokenizeLoop_zero_none m input pos o hm fuel _] at h3
        exact Option.noConfusion h3
      · have hlen := (runMatcher_some_facts m (input.drop pos) n o hm).1
        rw [List.length_drop] at hlen
        refine ih (pos + n) (ts ++ [(o, ⟨pos, pos + n⟩)]) res h2 ?_ ?_ ?_ (by omega)
        · rw [List.chain'_append]
          refine ⟨hchain, List.chain'_singleton _, ?_⟩
          intro x hx y hy
          simp at hy
          subst hy
          obtain ⟨hne2, hxl⟩ := List.mem_getLast?_eq_getLast hx
          have hmem : x ∈ ts := by rw [hxl]; exact List.getLast_mem _
          exact hstop x hmem
        · intro t ht
          rcases List.mem_append.mp ht with h1 | h1
          · have := hstop t h1
            omega
          · simp at h1
            subst h1
            simp
        · intro t ht
          rcases List.mem_append.mp ht with h1 | h1
          · exact hne t h1
          · simp at h1
            subst h1
            simp
            omega
    | none =>
      rw [hm] at h
      by_cases hlt : pos < input.length
      · rw [if_pos hlt] at h
        refine ih (pos + 1) ts res h hchain ?_ hne (by omega)
        intro t ht
        have := hstop t ht
        omega
      · rw [if_neg hlt] at h
        injection h with h
        subst h
        refine ⟨hchain, ?_, hne⟩
        intro t ht
        have := hstop t ht
        omega

/-- Non-overlapping ranges with starts no later than stops are sorted by
start. -/
theorem chain_disjoint_sorted {O : Type} :
    ∀ l : List (O × SRange),
      l.Chain' (fun x y => x.2.stop ≤ y.2.start) →
      (∀ t ∈ l, t.2.start ≤ t.2.stop) →
      l.Chain' (fun x y => x.2.start ≤ y.2.start) := by
  intro l
  induction l with
  | nil => intro _ _; exact List.chain'_nil
  | cons a l ih =>
    intro hc hne
    rw [List.chain'_cons'] at hc ⊢
    obtain ⟨hhead, htail⟩ := hc
    refine ⟨?_, ih htail (fun t ht => hne t (List.mem_cons_of_mem a ht))⟩
    intro y hy
    have h1 := hhead y hy
    have h2 := hne a (List.mem_cons_self a _)
    omega

/-- The possible operations on a manual `Annotator`. -/
inductive AnnOp (I O : Type) where
  | push (symbol : I)
  | append (input : List I)
  | tok (output : O)
  | skip

/-- Apply one annotator operation. -/
def applyOp {I O : Type} (a : Annotator I O) : AnnOp I O → Annotator I O
  | .push s => a.pushInput s
  | .append l => a.appendInput l
  | .tok o => a.token o
  | .skip => a.skip

/-- Run a sequence of operations on a fresh annotator. -/
def runAnnotator {I O : Type} (ops : List (AnnOp I O)) : Annotator I O :=
  ops.foldl applyOp (Annotator.new I O)

/-- The invariant maintained by the annotator: recorded ranges are
non-overlapping, all end by `start_pos`, have starts no later than stops, and
`start_pos` never exceeds the input length. -/
def AnnotatorInv {I O : Type} (a : Annotator I O) : Prop :=
  a.stream.tokenized.Chain' (fun x y => x.2.stop ≤ y.2.start) ∧
  (∀ t ∈ a.stream.tokenized, t.2.stop ≤ a.startPos) ∧
  (∀ t ∈ a.stream.tokenized, t.2.start ≤ t.2.stop) ∧
  a.startPos ≤ a.stream.original.length

theorem applyOp_inv {I O : Type} (a : Annotator I O) (op : AnnOp I O)
    (h : AnnotatorInv a) : AnnotatorInv (applyOp a op) := by
  obtain ⟨hchain, hstop, hne, hsp⟩ := h
  cases op with
  | push s =>
    refine ⟨hchain, hstop, hne, ?_⟩
    simp [applyOp, Annotator.pushInput]
    omega
  | append l =>
    refine ⟨hchain, hstop, hne, ?_⟩
    simp [applyOp, Annotator.appendInput]
    omega
  | tok o =>
    refine ⟨?_, ?_, ?_, ?_⟩
    · show List.Chain' _ (a.stream.tokenized ++ [(o, ⟨a.startPos, a.stream.original.length⟩)])
      rw [List.chain'_append]
      refine ⟨hchain, List.chain'_singleton _, ?_⟩
      intro x hx y hy
      simp at hy
      subst hy
      obtain ⟨hne2, hxl⟩ := List.mem_getLast?_eq_getLast hx
      have hmem : x ∈ a.stream.tokenized := by rw [hxl]; exact List.getLast_mem _
      exact hstop x hmem
    · intro t ht
      rcases List.mem_append.mp ht with h1 | h1
      · have := hstop t h1
        show t.2.stop ≤ a.stream.original.length
        omega
      · simp at h1
        subst h1
        simp [applyOp, Annotator.token]
    · intro t ht
      rcases List.mem_append.mp ht with h1 | h1
      · exact hne t h1
      · simp at h1
        subst h1
        simpa [applyOp, Annotator.token] using hsp
    · simp [applyOp, Annotator.token]
  | skip =>
    refine ⟨hchain, ?_, hne, ?_⟩
    · intro t ht
      have := hstop t ht
      show t.2.stop ≤ a.stream.original.length
      omega
    · simp [applyOp, Annotator.skip]

theorem runAnnotator_inv {I O : Type} (ops : List (AnnOp I O)) :
    AnnotatorInv (runAnnotator ops) := by
  have main : ∀ (l : List (AnnOp I O)) (a : Annotator I O),
      AnnotatorInv a → AnnotatorInv (l.foldl applyOp a) := by
    intro l
    induction l with
    | nil => intro a h; exact h
    | cons op l ih =>
      intro a h
      exact ih (applyOp a op) (applyOp_inv a op h)
  refine main ops (Annotator.new I O) ?_
  refine ⟨List.chain'_nil, ?_, ?_, Nat.le_refl _⟩ <;> intro t ht <;> simp [Annotator.new] at ht

/--
**C5, amended.** In every `AnnotatedStream`, the stored ranges are sorted by
start, pairwise non-overlapping, and contained within `[0, original.len())`.
Streams produced by a terminating `from_tokenizer` run additionally have every
range non-empty; streams built through an `Annotator` (`push_input`,
`append_input`, `token`, `skip`, `finish`) can record empty ranges (when
`token` is called with no new input), so for them only `start ≤ stop` holds for
each range.
-/
theorem stream_invariants_amended :
    (∀ (I O : Type) (ops : List (AnnOp I O)),
      (runAnnotator ops).finish.tokenized.Chain' (fun x y => x.2.start ≤ y.2.start) ∧
      (runAnnotator ops).finish.tokenized.Chain' (fun x y => x.2.stop ≤ y.2.start) ∧
      (∀ t ∈ (runAnnotator ops).finish.tokenized,
        t.2.stop ≤ (runAnnotator ops).finish.original.length) ∧
      (∀ t ∈ (runAnnotator ops).finish.tokenized, t.2.start ≤ t.2.stop)) ∧
    (∀ (Q S O : Type) (m : Machine Q S O) (input : List S) (fuel : Nat)
        (res : AnnotatedStream S O),
      fromTokenizer m input fuel = some res → StreamInv res) := by
  constructor
  · intro I O ops
    obtain ⟨hchain, hstop, hne, hsp⟩ := runAnnotator_inv ops
    refine ⟨chain_disjoint_sorted _ hchain hne, hchain, ?_, hne⟩
    intro t ht
    have := hstop t ht
    show t.2.stop ≤ (runAnnotator ops).stream.original.length
    omega
  · intro Q S O m input fuel res h
    unfold fromTokenizer at h
    cases hloop : tokenizeLoop m input fuel 0 [] with
    | none => rw [hloop] at h; simp at h
    | some tokens =>
      rw [hloop] at h
      simp at h
      subst h
      obtain ⟨hchain, hbound, hne⟩ := tokenizeLoop_inv m input fuel 0 [] tokens hloop
        List.chain'_nil (by intro t ht; simp at ht) (by intro t ht; simp at ht)
        (Nat.zero_le _)
      exact ⟨chain_disjoint_sorted _ hchain (fun t ht => Nat.le_of_lt (hne t ht)),
        hchain, hbound, hne⟩

/-- Witness for `stream_invariants_amended`: the `zeroRun` tokenization of
`[0, 5]` terminates and its stream satisfies all four invariants. -/
theorem stream_invariants_amended_witness :
    fromTokenizer zeroRun [0, 5] 4 = some ⟨[0, 5], [(9, ⟨0, 1⟩)]⟩ ∧
    StreamInv (⟨[0, 5], [(9, ⟨0, 1⟩)]⟩ : AnnotatedStream Nat Nat) :=
  ⟨rfl, stream_invariants_amended.2 Nat Nat Nat zeroRun [0, 5] 4 _ rfl⟩

/-- Modelled from the spec (§3; `symbol_range.rs` is not under `src/`): an
inclusive pair `(low, high)` of symbols denoting a contiguous set. -/
structure SymbolRange (S : Type) where
  low : S
  high : S
deriving Repr, DecidableEq

/-- A symbol lies in an inclusive range when it is between the bounds. -/
def SymbolRange.containsSym {S : Type} [LinearOrder S] (r : SymbolRange S) (c : S) : Prop :=
  r.low ≤ c ∧ c ≤ r.high

instance {S : Type} [LinearOrder S] (r : SymbolRange S) (c : S) :
    Decidable (r.containsSym c) := by
  unfold SymbolRange.containsSym; infer_instance

/-- Modelled from the spec (§3; `regular_pattern.rs` is not under `src/`): the
recursive sum of regular-pattern combinators.  `rep p mn mx` is `Repeat` with
at least `mn` and (when `mx = some k`) at most `k` occurrences. -/
inductive Pattern (S : Type) where
  | matchRange (low high : S)
  | epsilon
  | concat (p q : Pattern S)
  | alt (p q : Pattern S)
  | rep (p : Pattern S) (mn : Nat) (mx : Option Nat)
  | literal (syms : List S)

/-- Modelled from the spec (§3, §4.D; `ndfa.rs` is not under `src/`): a bag of
states carrying range-labelled transitions and ε-transitions (kept as a
separate kind, one of the two encodings §9 allows), an optional output per
state, and `count_states` equal to one plus the highest allocated id.  A fresh
automaton has the single start state `0`. -/
structure Ndfa (S O : Type) where
  transitions : List (Nat × SymbolRange S × Nat)
  epsilons : List (Nat × Nat)
  outputs : List (Nat × O)
  numStates : Nat

/-- `Ndfa::new`: only the start state 0. -/
def Ndfa.new (S O : Type) : Ndfa S O :=
  { transitions := [], epsilons := [], outputs := [], numStates := 1 }

/-- Allocate a fresh state and return its id. -/
def Ndfa.addState {S O : Type} (n : Ndfa S O) : Ndfa S O × Nat :=
  ({ n with numStates := n.numStates + 1 }, n.numStates)

/-- `add_transition` on a symbol range. -/
def Ndfa.addTransition {S O : Type} (n : Ndfa S O) (a : Nat) (r : SymbolRange S)
    (b : Nat) : Ndfa S O :=
  { n with transitions := n.transitions ++ [(a, r, b)] }

/-- `add_epsilon`: an ε-transition. -/
def Ndfa.addEpsilon {S O : Type} (n : Ndfa S O) (a b : Nat) : Ndfa S O :=
  { n with epsilons := n.epsilons ++ [(a, b)] }

/-- `set_output_symbol`. -/
def Ndfa.setOutput {S O : Type} (n : Ndfa S O) (s : Nat) (o : O) : Ndfa S O :=
  { n with outputs := n.outputs ++ [(s, o)] }

/-- `output_symbol_for_state`: the last `set_output_symbol` for a state wins. -/
def Ndfa.outputFor {S O : Type} (n : Ndfa S O) (s : Nat) : Option O :=
  (n.outputs.reverse.find? (fun x => x.1 == s)).map (fun x => x.2)

/-- Iterate a state-passing compilation step. -/
def iterCompile {α : Type} (f : α → α) : Nat → α → α
  | 0, a => a
  | k + 1, a => iterCompile f k (f a)

/-- Modelled from the spec (§4.C; `regular_pattern.rs` is not under `src/`):
`compile(pattern, ndfa, from_state) → accept_state` allocates fresh states as
needed, emits ε-transitions to glue branches (`alt` forks two ε-edges into the
branches and joins their accepts by two more, `concat` threads the accept of
the first into the start of the second), and returns the final state reached by
the pattern, which is always freshly allocated.  `rep p mn none` chains `mn`
mandatory copies into a fresh loop-entry state and loops one more copy with an
ε back-edge into that state;
`rep p mn (some k)` chains the mandatory copies and then `k - mn` optional
copies, each glued as an ε-fork between the body and the empty branch.
`literal` unfolds into a chain of single-symbol ranges (the empty literal is
glued like `epsilon`). -/
def Pattern.compile {S O : Type} : Pattern S → Ndfa S O → Nat → Ndfa S O × Nat
  | .matchRange lo hi, n, st =>
    let p1 := n.addState
    (p1.1.addTransition st ⟨lo, hi⟩ p1.2, p1.2)
  | .epsilon, n, st =>
    let p1 := n.addState
    (p1.1.addEpsilon st p1.2, p1.2)
  | .concat p q, n, st =>
    let p1 := p.compile n st
    q.compile p1.1 p1.2
  | .alt p q, n, st =>
    let s1 := n.addState
    let pa := p.compile (s1.1.addEpsilon st s1.2) s1.2
    let s2 := pa.1.addState
    let pb := q.compile (s2.1.addEpsilon st s2.2) s2.2
    let f := pb.1.addState
    ((f.1.addEpsilon pa.2 f.2).addEpsilon pb.2 f.2, f.2)
  | .rep p mn mx, n, st =>
    let body := iterCompile (fun acc => p.compile acc.1 acc.2) mn (n, st)
    match mx with
    | none =>
      let hub := body.1.addState
      let g0 := hub.1.addEpsilon body.2 hub.2
      let loop := p.compile g0 hub.2
      let g1 := loop.1.addEpsilon loop.2 hub.2
      let f := g1.addState
      (f.1.addEpsilon hub.2 f.2, f.2)
    | some k =>
      let opt := iterCompile (fun acc =>
        let s1 := acc.1.addState
        let pa := p.compile (s1.1.addEpsilon acc.2 s1.2) s1.2
        let s2 := pa.1.addState
        let g2 := s2.1.addEpsilon acc.2 s2.2
        let pb := g2.addState
        let g3 := pb.1.addEpsilon s2.2 pb.2
        let f := g3.addState
        ((f.1.addEpsilon pa.2 f.2).addEpsilon pb.2 f.2, f.2)) (k - mn) body
      let f := opt.1.addState
      (f.1.addEpsilon opt.2 f.2, f.2)
  | .literal syms, n, st =>
    match syms with
    | [] =>
      let p1 := n.addState
      (p1.1.addEpsilon st p1.2, p1.2)
    | _ =>
      syms.foldl (fun acc c =>
        let p1 := acc.1.addState
        (p1.1.addTransition acc.2 ⟨c, c⟩ p1.2, p1.2)) (n, st)

/-- Modelled from the spec (§3, §4.A; `countable.rs` is not under `src/`): a
countable ordered alphabet with immediate successor and predecessor, undefined
at the boundaries. -/
class CountableSym (S : Type) [LinearOrder S] where
  succOf : S → Option S
  predOf : S → Option S
  succOf_spec : ∀ a b : S, succOf a = some b → ∀ c, a < c ↔ b ≤ c
  predOf_spec : ∀ a b : S, predOf a = some b → ∀ c, c < a ↔ c ≤ b
  predOf_none : ∀ a : S, predOf a = none → ∀ c, ¬ c < a

/-- Insert into a sorted duplicate-free list, keeping it sorted and
duplicate-free. -/
def insertSorted {α : Type} [LinearOrder α] (x : α) : List α → List α
  | [] => [x]
  | y :: ys =>
    if x < y then x :: y :: ys
    else if x = y then y :: ys
    else y :: insertSorted x ys

/-- Sort a list and drop duplicates (the canonical form of a finite set). -/
def sortedDedup {α : Type} [LinearOrder α] (l : List α) : List α :=
  l.foldr insertSorted []

/-- The breakpoints of a state (§4.E step 2): the low bounds and the successors
of the high bounds of all its outgoing ranges. -/
def breakpointsFor {S O : Type} [LinearOrder S] [CountableSym S] (n : Ndfa S O)
    (q : Nat) : List S :=
  sortedDedup
    ((n.transitions.filterMap (fun t => if t.1 == q then some t.2.1.low else none)) ++
     (n.transitions.filterMap (fun t =>
        if t.1 == q then CountableSym.succOf t.2.1.high else none)))

/-- Split one range at the given cut points (§4.E step 3): pieces run from one
cut to just before the next.  The unreachable `predOf = none` fallback keeps
the whole remaining range. -/
def splitPieces {S : Type} [LinearOrder S] [CountableSym S] (lo hi : S) :
    List S → List (SymbolRange S)
  | [] => [⟨lo, hi⟩]
  | c :: rest =>
    match CountableSym.predOf c with
    | some c' => ⟨lo, c'⟩ :: splitPieces c hi rest
    | none => splitPieces c hi rest

/-- The atomic sub-ranges of `r` with respect to breakpoints `bs`. -/
def splitRange {S : Type} [LinearOrder S] [CountableSym S] (r : SymbolRange S)
    (bs : List S) : List (SymbolRange S) :=
  splitPieces r.low r.high (bs.filter (fun b => decide (r.low < b) && decide (b ≤ r.high)))

/-- Modelled from the spec (§4.E; `overlapping_symbols.rs` is not under
`src/`): rewrite every transition into transitions labelled by the atomic
sub-ranges of its label with the same target, so that per state no two
outgoing ranges overlap, without changing the set of symbols leading to each
target. -/
def Ndfa.fixOverlappingRanges {S O : Type} [LinearOrder S] [CountableSym S]
    (n : Ndfa S O) : Ndfa S O :=
  { n with transitions := n.transitions.flatMap (fun t =>
      (splitRange t.2.1 (breakpointsFor n t.1)).map (fun r => (t.1, r, t.2.2))) }

/-- The ε-targets of a set of states. -/
def epsTargetsFrom {S O : Type} (n : Ndfa S O) (L : List Nat) : List Nat :=
  n.epsilons.filterMap (fun e => if L.contains e.1 then some e.2 else none)

/-- One saturation step of the ε-closure. -/
def closureStep {S O : Type} (n : Ndfa S O) (L : List Nat) : List Nat :=
  sortedDedup (L ++ epsTargetsFrom n L)

/-- Fuel-driven saturation; `epsilons.length + 1` fuel always reaches the
fixpoint from a canonical set. -/
def closureAux {S O : Type} (n : Ndfa S O) : Nat → List Nat → List Nat
  | 0, L => L
  | fuel + 1, L =>
    let L' := closureStep n L
    if L' = L then L else closureAux n fuel L'

/-- The ε-closure (§4.D) of a set of states, as a canonical sorted list. -/
def Ndfa.closure {S O : Type} (n : Ndfa S O) (A : List Nat) : List Nat :=
  closureAux n (n.epsilons.length + 1) (sortedDedup A)

/-- The targets of all non-ε transitions out of `A` whose range contains `c`. -/
def symTargets {S O : Type} [LinearOrder S] (n : Ndfa S O) (A : List Nat) (c : S) :
    List Nat :=
  n.transitions.filterMap (fun t =>
    if A.contains t.1 && decide (t.2.1.low ≤ c) && decide (c ≤ t.2.1.high)
    then some t.2.2 else none)

/-- Modelled from the spec (§4.F, §3 *Priority*; `dfa_compiler.rs` and
`symbol_range_dfa.rs` are not under `src/`): the deterministic machine produced
by subset construction, represented at design level: its states are the
ε-closed canonical sets of NDFA states, the start state is the ε-closure of
`{0}`, a symbol `c` moves from `S` to the ε-closure of the targets of all
members' transitions whose range contains `c` (no transition when there are
none), and a state's output is the minimum of its members' outputs under the
total order of `O` (none when no member has an output). -/
def Ndfa.toMachine {S O : Type} [LinearOrder S] [LinearOrder O] (n : Ndfa S O) :
    Machine (List Nat) S O :=
  { start := n.closure [0]
    step := fun A c =>
      let T := symTargets n A c
      if T.isEmpty then none else some (n.closure T)
    out := fun A => (A.filterMap n.outputFor).min? }

/-- Embedding of `Tokenizer` (`src/tokenizer.rs` lines 35–37). -/
structure Tokenizer (S O : Type) where
  patterns : List (Pattern S × O)

/-- Embedding of `Tokenizer::new` (`src/tokenizer.rs` lines 43–45). -/
def Tokenizer.new (S O : Type) : Tokenizer S O :=
  { patterns := [] }

/-- Embedding of `Tokenizer::add_pattern` (`src/tokenizer.rs` lines 50–52). -/
def Tokenizer.addPattern {S O : Type} (tk : Tokenizer S O) (p : Pattern S) (o : O) :
    Tokenizer S O :=
  { patterns := tk.patterns ++ [(p, o)] }

/-- Embedding of `Tokenizer::to_ndfa` (`src/tokenizer.rs` lines 57–72): compile
every pattern from the shared start state 0, set each accept state's output,
then clear overlapping ranges. -/
def Tokenizer.toNdfa {S O : Type} [LinearOrder S] [CountableSym S] (tk : Tokenizer S O) :
    Ndfa S O :=
  (tk.patterns.foldl (fun n po =>
      let pr := (po.1.compile n 0 : Ndfa S O × Nat)
      pr.1.setOutput pr.2 po.2) (Ndfa.new S O)).fixOverlappingRanges

/-- Embedding of `PrepareToMatch for &Tokenizer` (`src/tokenizer.rs` lines
75–83): build the NDFA and subset-construct the deterministic matcher. -/
def Tokenizer.prepare {S O : Type} [LinearOrder S] [CountableSym S] [LinearOrder O]
    (tk : Tokenizer S O) : Machine (List Nat) S O :=
  tk.toNdfa.toMachine

/--
**C9.** Preparing a `Tokenizer` to which no patterns have been added succeeds
(in the model `prepare` is total and yields the one-state machine with no
transitions and no output), and `matches` run with the resulting DFA returns
`None` for every input, including the empty input.
-/
theorem empty_tokenizer_rejects_all (S O : Type) [LinearOrder S] [CountableSym S]
    [LinearOrder O] :
    ((Tokenizer.new S O).prepare).start = [0] ∧
    (∀ input : List S, matchesM ((Tokenizer.new S O).prepare) input = none) := by
  constructor
  · rfl
  · intro input
    cases input with
    | nil => rfl
    | cons c rest => rfl

theorem mem_insertSorted {α : Type} [LinearOrder α] (x a : α) :
    ∀ l : List α, a ∈ insertSorted x l ↔ a = x ∨ a ∈ l := by
  intro l
  induction l with
  | nil => simp [insertSorted]
  | cons y ys ih =>
    simp only [insertSorted]
    by_cases h1 : x < y
    · rw [if_pos h1]
      simp only [List.mem_cons]
      try tauto
    · by_cases h2 : x = y
      · subst h2
        rw [if_neg h1, if_pos rfl]
        simp only [List.mem_cons]
        try tauto
      · rw [if_neg h1, if_neg h2]
        simp only [List.mem_cons, ih]
        try tauto

theorem pairwise_insertSorted {α : Type} [LinearOrder α] (x : α) :
    ∀ l : List α, l.Pairwise (· < ·) → (insertSorted x l).Pairwise (· < ·) := by
  intro l
  induction l with
  | nil =>
    intro _
    simp [insertSorted]
  | cons y ys ih =>
    intro h
    rw [List.pairwise_cons] at h
    obtain ⟨hy, hys⟩ := h
    simp only [insertSorted]
    by_cases h1 : x < y
    · rw [if_pos h1]
      refine List.Pairwise.cons ?_ (List.Pairwise.cons hy hys)
      intro z hz
      rcases List.mem_cons.mp hz with rfl | hz'
      · exact h1
      · exact lt_trans h1 (hy z hz')
    · by_cases h2 : x = y
      · subst h2
        simp only [if_neg h1, if_pos rfl]
        exact List.Pairwise.cons hy hys
      · have hyx : y < x := by
          rcases lt_trichotomy x y with h | h | h
          · exact absurd h h1
          · exact absurd h h2
          · exact h
        simp only [if_neg h1, if_neg h2]
        refine List.Pairwise.cons ?_ (ih hys)
        intro z hz
        rcases (mem_insertSorted x z ys).mp hz with rfl | hz'
        · exact hyx
        · exact hy z hz'

theorem mem_sortedDedup {α : Type} [LinearOrder α] (a : α) :
    ∀ l : List α, a ∈ sortedDedup l ↔ a ∈ l := by
  intro l
  induction l with
  | nil => simp [sortedDedup]
  | cons y ys ih =>
    show a ∈ insertSorted y (sortedDedup ys) ↔ _
    rw [mem_insertSorted, ih, List.mem_cons]

theorem pairwise_sortedDedup {α : Type} [LinearOrder α] :
    ∀ l : List α, (sortedDedup l).Pairwise (· < ·) := by
  intro l
  induction l with
  | nil => simp [sortedDedup]
  | cons y ys ih => exact pairwise_insertSorted y _ ih

theorem sorted_nodup_ext {α : Type} [LinearOrder α] :
    ∀ l₁ l₂ : List α, l₁.Pairwise (· < ·) → l₂.Pairwise (· < ·) →
      (∀ x, x ∈ l₁ ↔ x ∈ l₂) → l₁ = l₂ := by
  intro l₁
  induction l₁ with
  | nil =>
    intro l₂ _ _ h
    cases l₂ with
    | nil => rfl
    | cons b l₂' =>
      have := (h b).mpr (List.mem_cons_self b _)
      simp at this
  | cons a l₁' ih =>
    intro l₂ h₁ h₂ h
    cases l₂ with
    | nil =>
      have := (h a).mp (List.mem_cons_self a _)
      simp at this
    | cons b l₂' =>
      rw [List.pairwise_cons] at h₁ h₂
      have hab : a = b := by
        rcases List.mem_cons.mp ((h a).mp (List.mem_cons_self a _)) with h3 | h3
        · exact h3
        · rcases List.mem_cons.mp ((h b).mpr (List.mem_cons_self b _)) with h4 | h4
          · subst h4
            exact absurd (h₂.1 b h3) (lt_irrefl b)
          · have hba := h₂.1 a h3
            have hab2 := h₁.1 b h4
            exact absurd (lt_trans hba hab2) (lt_irrefl b)
      subst hab
      have htails : l₁' = l₂' := by
        refine ih l₂' h₁.2 h₂.2 ?_
        intro x
        constructor
        · intro hx
          rcases List.mem_cons.mp ((h x).mp (List.mem_cons_of_mem a hx)) with h3 | h3
          · subst h3
            exact absurd (h₁.1 x hx) (lt_irrefl x)
          · exact h3
        · intro hx
          rcases List.mem_cons.mp ((h x).mpr (List.mem_cons_of_mem a hx)) with h3 | h3
          · subst h3
            exact absurd (h₂.1 x hx) (lt_irrefl x)
          · exact h3
      rw [htails]

/-- ε-reachability in an NDFA: any number of ε-transitions. -/
inductive EpsReach {S O : Type} (n : Ndfa S O) : Nat → Nat → Prop where
  | refl (a : Nat) : EpsReach n a a
  | head {a b c : Nat} : (a, b) ∈ n.epsilons → EpsReach n b c → EpsReach n a c

theorem EpsReach.trans {S O : Type} {n : Ndfa S O} {a b c : Nat}
    (h1 : EpsReach n a b) (h2 : EpsReach n b c) : EpsReach n a c := by
  induction h1 with
  | refl => exact h2
  | head hedge _ ih => exact EpsReach.head hedge (ih h2)

theorem mem_epsTargetsFrom {S O : Type} (n : Ndfa S O) (L : List Nat) (x : Nat) :
    x ∈ epsTargetsFrom n L ↔ ∃ a ∈ L, (a, x) ∈ n.epsilons := by
  unfold epsTargetsFrom
  rw [List.mem_filterMap]
  constructor
  · intro ⟨e, he, hfe⟩
    by_cases hc : L.contains e.1
    · rw [if_pos hc] at hfe
      injection hfe with hfe
      subst hfe
      exact ⟨e.1, by simpa using hc, by simpa using he⟩
    · rw [if_neg hc] at hfe
      exact Option.noConfusion hfe
  · intro ⟨a, haL, hedge⟩
    refine ⟨(a, x), hedge, ?_⟩
    have : List.contains L a = true := by simpa using haL
    rw [if_pos this]

theorem subset_closureStep {S O : Type} (n : Ndfa S O) (L : List Nat) :
    L ⊆ closureStep n L := by
  intro x hx
  unfold closureStep
  rw [mem_sortedDedup]
  exact List.mem_append_left _ hx

theorem mem_closureStep {S O : Type} (n : Ndfa S O) (L : List Nat) (x : Nat) :
    x ∈ closureStep n L ↔ x ∈ L ∨ ∃ a ∈ L, (a, x) ∈ n.epsilons := by
  unfold closureStep
  rw [mem_sortedDedup, List.mem_append, mem_epsTargetsFrom]

theorem pairwise_closureStep {S O : Type} (n : Ndfa S O) (L : List Nat) :
    (closureStep n L).Pairwise (· < ·) :=
  pairwise_sortedDedup _

theorem subset_closureAux {S O : Type} (n : Ndfa S O) :
    ∀ (fuel : Nat) (L : List Nat), L ⊆ closureAux n fuel L := by
  intro fuel
  induction fuel with
  | zero => intro L; exact fun x hx => hx
  | succ fuel ih =>
    intro L
    simp only [closureAux]
    by_cases heq : closureStep n L = L
    · rw [if_pos heq]
      exact fun x hx => hx
    · rw [if_neg heq]
      exact fun x hx => ih (closureStep n L) (subset_closureStep n L hx)

theorem pairwise_closureAux {S O : Type} (n : Ndfa S O) :
    ∀ (fuel : Nat) (L : List Nat), L.Pairwise (· < ·) →
      (closureAux n fuel L).Pairwise (· < ·) := by
  intro fuel
  induction fuel with
  | zero => intro L h; exact h
  | succ fuel ih =>
    intro L h
    simp only [closureAux]
    by_cases heq : closureStep n L = L
    · rw [if_pos heq]; exact h
    · rw [if_neg heq]; exact ih _ (pairwise_closureStep n L)

theorem closureAux_sound {S O : Type} (n : Ndfa S O) (P : Nat → Prop)
    (hstep : ∀ a x, P a → (a, x) ∈ n.epsilons → P x) :
    ∀ (fuel : Nat) (L : List Nat), (∀ x ∈ L, P x) →
      ∀ x ∈ closureAux n fuel L, P x := by
  intro fuel
  induction fuel with
  | zero => intro L h; exact h
  | succ fuel ih =>
    intro L h
    simp only [closureAux]
    by_cases heq : closureStep n L = L
    · rw [if_pos heq]; exact h
    · rw [if_neg heq]
      refine ih _ ?_
      intro x hx
      rcases (mem_closureStep n L x).mp hx with h1 | ⟨a, haL, hedge⟩
      · exact h x h1
      · exact hstep a x (h a haL) hedge

theorem closureAux_fixpoint {S O : Type} (n : Ndfa S O) (U : List Nat)
    (hU : U.Pairwise (· < ·))
    (hTU : ∀ e ∈ n.epsilons, e.2 ∈ U) :
    ∀ (fuel : Nat) (L : List Nat), L.Pairwise (· < ·) → L ⊆ U →
      U.length < L.length + fuel →
      closureStep n (closureAux n fuel L) = closureAux n fuel L := by
  have hnodupU : U.Nodup := hU.imp (fun h => ne_of_lt h)
  intro fuel
  induction fuel with
  | zero =>
    intro L hL hLU hlen
    have hnd : L.Nodup := hL.imp (fun h => ne_of_lt h)
    have : L.length ≤ U.length := (hnd.subperm hLU).length_le
    omega
  | succ fuel ih =>
    intro L hL hLU hlen
    simp only [closureAux]
    by_cases heq : closureStep n L = L
    · rw [if_pos heq]
      exact heq
    · rw [if_neg heq]
      have hsub : closureStep n L ⊆ U := by
        intro x hx
        rcases (mem_closureStep n L x).mp hx with h1 | ⟨a, _, hedge⟩
        · exact hLU h1
        · exact hTU (a, x) hedge
      have hgrow : L.length < (closureStep n L).length := by
        have hndL : L.Nodup := hL.imp (fun h => ne_of_lt h)
        have hle : L.length ≤ (closureStep n L).length :=
          (hndL.subperm (subset_closureStep n L)).length_le
        rcases Nat.eq_or_lt_of_le hle with heq2 | hlt
        · exfalso
          apply heq
          apply sorted_nodup_ext _ _ (pairwise_closureStep n L) hL
          intro x
          constructor
          · intro hx
            by_contra hc
            have hsub2 : x :: L ⊆ closureStep n L := by
              intro y hy
              rcases List.mem_cons.mp hy with rfl | hy'
              · exact hx
              · exact subset_closureStep n L hy'
            have hnodup2 : (x :: L).Nodup := by
              refine List.Nodup.cons hc (hL.imp (fun h => ne_of_lt h))
            have := (hnodup2.subperm hsub2).length_le
            simp at this
            omega
          · intro hx
            exact subset_closureStep n L hx
        · exact hlt
      exact ih _ (pairwise_closureStep n L) hsub (by omega)

theorem closure_subset {S O : Type} (n : Ndfa S O) (A : List Nat) :
    ∀ x ∈ A, x ∈ n.closure A := by
  intro x hx
  unfold Ndfa.closure
  exact subset_closureAux n _ _ ((mem_sortedDedup x A).mpr hx)

theorem closure_pairwise {S O : Type} (n : Ndfa S O) (A : List Nat) :
    (n.closure A).Pairwise (· < ·) :=
  pairwise_closureAux n _ _ (pairwise_sortedDedup A)

theorem closure_closed {S O : Type} (n : Ndfa S O) (A : List Nat) :
    ∀ a ∈ n.closure A, ∀ b, (a, b) ∈ n.epsilons → b ∈ n.closure A := by
  have hfix : closureStep n (n.closure A) = n.closure A := by
    unfold Ndfa.closure
    refine closureAux_fixpoint n
      (sortedDedup (sortedDedup A ++ n.epsilons.map (fun e => e.2)))
      (pairwise_sortedDedup _) ?_ _ _ (pairwise_sortedDedup A) ?_ ?_
    · intro e he
      rw [mem_sortedDedup]
      refine List.mem_append_right _ ?_
      exact List.mem_map_of_mem _ he
    · intro x hx
      rw [mem_sortedDedup]
      exact List.mem_append_left _ hx
    · have hn : (sortedDedup (sortedDedup A ++ n.epsilons.map (fun e => e.2))).Nodup :=
        (pairwise_sortedDedup _).imp (fun h => ne_of_lt h)
      have hsub : sortedDedup (sortedDedup A ++ n.epsilons.map (fun e => e.2)) ⊆
          sortedDedup A ++ n.epsilons.map (fun e => e.2) := by
        intro x hx
        exact (mem_sortedDedup _ _).mp hx
      have := (hn.subperm hsub).length_le
      simp at this
      omega
  intro a ha b hedge
  rw [← hfix]
  rw [mem_closureStep]
  exact Or.inr ⟨a, ha, hedge⟩

theorem closure_mem {S O : Type} (n : Ndfa S O) (A : List Nat) (x : Nat) :
    x ∈ n.closure A ↔ ∃ a ∈ A, EpsReach n a x := by
  constructor
  · refine closureAux_sound n (fun x => ∃ a ∈ A, EpsReach n a x) ?_ _ _ ?_ x
    · intro a y ⟨a₀, ha₀, hreach⟩ hedge
      exact ⟨a₀, ha₀, hreach.trans (EpsReach.head hedge (EpsReach.refl y))⟩
    · intro y hy
      exact ⟨y, (mem_sortedDedup y A).mp hy, EpsReach.refl y⟩
  · intro ⟨a, haA, hreach⟩
    have ha : a ∈ n.closure A := closure_subset n A a haA
    clear haA
    induction hreach with
    | refl => exact ha
    | head hedge _ ih =>
      exact ih (closure_closed n A _ ha _ hedge)

/-- Word reachability in an NDFA: a path spelling `w`, mixing ε-steps with
range transitions. -/
inductive NReach {S O : Type} [LinearOrder S] (n : Ndfa S O) : Nat → List S → Nat → Prop where
  | nil (a : Nat) : NReach n a [] a
  | eps {a b x : Nat} {w : List S} :
      (a, b) ∈ n.epsilons → NReach n b w x → NReach n a w x
  | sym {a b x : Nat} {r : SymbolRange S} {c : S} {w : List S} :
      (a, r, b) ∈ n.transitions → r.containsSym c → NReach n b w x → NReach n a (c :: w) x

theorem NReach_nil_inv {S O : Type} [LinearOrder S] {n : Ndfa S O} {a x : Nat}
    (h : NReach n a [] x) : EpsReach n a x := by
  generalize hw : ([] : List S) = w0 at h
  induction h with
  | nil => exact EpsReach.refl _
  | eps hedge _ ih => exact EpsReach.head hedge (ih hw)
  | sym _ _ _ _ => exact absurd hw (by simp)

theorem NReach_cons_inv {S O : Type} [LinearOrder S] {n : Ndfa S O} {a x : Nat}
    {c : S} {w : List S} (h : NReach n a (c :: w) x) :
    ∃ a' r b, EpsReach n a a' ∧ (a', r, b) ∈ n.transitions ∧ r.containsSym c ∧
      NReach n b w x := by
  generalize hw : c :: w = w0 at h
  induction h with
  | nil => exact absurd hw (by simp)
  | eps hedge _ ih =>
    obtain ⟨a', r, b, hr, ht, hc, hrest⟩ := ih hw
    exact ⟨a', r, b, EpsReach.head hedge hr, ht, hc, hrest⟩
  | sym ht hc hrest _ =>
    injection hw with hw1 hw2
    subst hw1
    subst hw2
    exact ⟨_, _, _, EpsReach.refl _, ht, hc, hrest⟩

theorem EpsReach.toNReach {S O : Type} [LinearOrder S] {n : Ndfa S O} {a b x : Nat}
    {w : List S} (h : EpsReach n a b) (h2 : NReach n b w x) : NReach n a w x := by
  induction h with
  | refl => exact h2
  | head hedge _ ih => exact NReach.eps hedge (ih h2)

theorem NReach_append {S O : Type} [LinearOrder S] {n : Ndfa S O} {a b x : Nat}
    {u v : List S} (h1 : NReach n a u b) (h2 : NReach n b v x) :
    NReach n a (u ++ v) x := by
  induction h1 with
  | nil => exact h2
  | eps hedge _ ih => exact NReach.eps hedge (ih h2)
  | sym ht hc _ ih => exact NReach.sym ht hc (ih h2)

theorem mem_symTargets {S O : Type} [LinearOrder S] (n : Ndfa S O) (A : List Nat)
    (c : S) (x : Nat) :
    x ∈ symTargets n A c ↔
      ∃ a r, a ∈ A ∧ (a, r, x) ∈ n.transitions ∧ r.containsSym c := by
  unfold symTargets
  rw [List.mem_filterMap]
  constructor
  · intro ⟨t, ht, hft⟩
    by_cases hc : A.contains t.1 && decide (t.2.1.low ≤ c) && decide (c ≤ t.2.1.high)
    · rw [if_pos hc] at hft
      injection hft with hft
      subst hft
      simp only [Bool.and_eq_true, decide_eq_true_eq] at hc
      exact ⟨t.1, t.2.1, by simpa using hc.1.1, by simpa using ht, hc.1.2, hc.2⟩
    · rw [if_neg hc] at hft
      exact Option.noConfusion hft
  · intro ⟨a, r, haA, htrans, hcont⟩
    refine ⟨(a, r, x), htrans, ?_⟩
    have hc : ((A.contains a && decide (r.low ≤ c)) && decide (c ≤ r.high)) = true := by
      simp only [Bool.and_eq_true, decide_eq_true_eq]
      exact ⟨⟨by simpa using haA, hcont.1⟩, hcont.2⟩
    rw [if_pos hc]

/-- A state set closed under ε-transitions absorbs ε-reachability. -/
theorem closed_mem_of_epsReach {S O : Type} {n : Ndfa S O} {A : List Nat}
    (hcl : ∀ a ∈ A, ∀ b, (a, b) ∈ n.epsilons → b ∈ A) {a x : Nat}
    (ha : a ∈ A) (h : EpsReach n a x) : x ∈ A := by
  induction h with
  | refl => exact ha
  | head hedge _ ih => exact ih (hcl _ ha _ hedge)

/-- Running the subset-construction machine from an ε-closed state set tracks
exactly NDFA word reachability; the run sticks exactly when nothing is
reachable on the whole word. -/
theorem toMachine_stateAfter {S O : Type} [LinearOrder S] [LinearOrder O]
    (n : Ndfa S O) :
    ∀ (w : List S) (A : List Nat),
      (∀ a ∈ A, ∀ b, (a, b) ∈ n.epsilons → b ∈ A) →
      (match stateAfter n.toMachine A w with
       | some B => (∀ a ∈ B, ∀ b, (a, b) ∈ n.epsilons → b ∈ B) ∧
           (∀ x, x ∈ B ↔ ∃ a ∈ A, NReach n a w x)
       | none => ∀ x, ¬ ∃ a ∈ A, NReach n a w x) := by
  intro w
  induction w with
  | nil =>
    intro A hcl
    simp only [stateAfter]
    refine ⟨hcl, ?_⟩
    intro x
    constructor
    · intro hx
      exact ⟨x, hx, NReach.nil x⟩
    · intro ⟨a, haA, hr⟩
      exact closed_mem_of_epsReach hcl haA (NReach_nil_inv hr)
  | cons c w ih =>
    intro A hcl
    simp only [stateAfter]
    rw [show n.toMachine.step A c = (if (symTargets n A c).isEmpty then none
      else some (n.closure (symTargets n A c))) from rfl]
    by_cases hemp : (symTargets n A c).isEmpty
    · rw [if_pos hemp]
      show ∀ x, ¬ ∃ a ∈ A, NReach n a (c :: w) x
      intro x ⟨a, haA, hr⟩
      obtain ⟨a', r, b, hr', ht, hcont, _⟩ := NReach_cons_inv hr
      have ha' : a' ∈ A := closed_mem_of_epsReach hcl haA hr'
      have hb : b ∈ symTargets n A c := (mem_symTargets n A c b).mpr ⟨a', r, ha', ht, hcont⟩
      rw [List.isEmpty_iff] at hemp
      rw [hemp] at hb
      simp at hb
    · rw [if_neg hemp]
      have hclB : ∀ a ∈ n.closure (symTargets n A c), ∀ b, (a, b) ∈ n.epsilons →
          b ∈ n.closure (symTargets n A c) := closure_closed n _
      have hiff : ∀ x, (∃ b ∈ n.closure (symTargets n A c), NReach n b w x) ↔
          ∃ a ∈ A, NReach n a (c :: w) x := by
        intro x
        constructor
        · intro ⟨b, hbB, hr⟩
          obtain ⟨t, htT, hreach⟩ := (closure_mem n _ b).mp hbB
          obtain ⟨a, r, haA, htrans, hcont⟩ := (mem_symTargets n A c t).mp htT
          exact ⟨a, haA, NReach.sym htrans hcont (hreach.toNReach hr)⟩
        · intro ⟨a, haA, hr⟩
          obtain ⟨a', r, b, hr', ht, hcont, hrest⟩ := NReach_cons_inv hr
          have ha' : a' ∈ A := closed_mem_of_epsReach hcl haA hr'
          have hb : b ∈ symTargets n A c := (mem_symTargets n A c b).mpr ⟨a', r, ha', ht, hcont⟩
          exact ⟨b, closure_subset n _ b hb, hrest⟩
      have hrec := ih (n.closure (symTargets n A c)) hclB
      show (match stateAfter n.toMachine (n.closure (symTargets n A c)) w with
        | some B => (∀ a ∈ B, ∀ b, (a, b) ∈ n.epsilons → b ∈ B) ∧
            (∀ x, x ∈ B ↔ ∃ a ∈ A, NReach n a (c :: w) x)
        | none => ∀ x, ¬ ∃ a ∈ A, NReach n a (c :: w) x)
      cases hres : stateAfter n.toMachine (n.closure (symTargets n A c)) w with
      | none =>
        rw [hres] at hrec
        intro x hx
        exact hrec x ((hiff x).mpr hx)
      | some B =>
        rw [hres] at hrec
        refine ⟨hrec.1, ?_⟩
        intro x
        rw [hrec.2 x]
        exact hiff x

/-- The start state of the machine is ε-closed, so the characterization applies
to full runs. -/
theorem toMachine_start_closed {S O : Type} [LinearOrder S] [LinearOrder O]
    (n : Ndfa S O) :
    ∀ a ∈ (n.toMachine).start, ∀ b, (a, b) ∈ n.epsilons → b ∈ (n.toMachine).start :=
  closure_closed n [0]

theorem toMachine_start_mem {S O : Type} [LinearOrder S] [LinearOrder O]
    (n : Ndfa S O) (x : Nat) :
    x ∈ (n.toMachine).start ↔ EpsReach n 0 x := by
  show x ∈ n.closure [0] ↔ _
  rw [closure_mem]
  constructor
  · intro ⟨a, ha, hr⟩
    simp at ha
    subst ha
    exact hr
  · intro hr
    exact ⟨0, by simp, hr⟩

theorem fix_epsilons {S O : Type} [LinearOrder S] [CountableSym S] (n : Ndfa S O) :
    (n.fixOverlappingRanges).epsilons = n.epsilons := rfl

theorem fix_outputs {S O : Type} [LinearOrder S] [CountableSym S] (n : Ndfa S O) :
    (n.fixOverlappingRanges).outputs = n.outputs := rfl

theorem mem_fix_transitions {S O : Type} [LinearOrder S] [CountableSym S]
    (n : Ndfa S O) (q : Nat) (r' : SymbolRange S) (t : Nat) :
    (q, r', t) ∈ (n.fixOverlappingRanges).transitions ↔
      ∃ r, (q, r, t) ∈ n.transitions ∧ r' ∈ splitRange r (breakpointsFor n q) := by
  show (q, r', t) ∈ n.transitions.flatMap _ ↔ _
  rw [List.mem_flatMap]
  constructor
  · intro ⟨tr, htr, hx⟩
    rw [List.mem_map] at hx
    obtain ⟨piece, hpiece, heq⟩ := hx
    obtain ⟨h1, h2, h3⟩ : tr.1 = q ∧ piece = r' ∧ tr.2.2 = t := by
      refine ⟨congrArg Prod.fst heq, ?_, ?_⟩
      · have := congrArg (fun p => p.2.1) heq
        exact this
      · have := congrArg (fun p => p.2.2) heq
        exact this
    refine ⟨tr.2.1, ?_, ?_⟩
    · rw [← h1, ← h3]
      exact htr
    · rw [h1, h2] at hpiece
      exact hpiece
  · intro ⟨r, htr, hsp⟩
    exact ⟨(q, r, t), htr, List.mem_map.mpr ⟨r', hsp, rfl⟩⟩

theorem splitPieces_covers {S : Type} [LinearOrder S] [CountableSym S] :
    ∀ (cuts : List S) (lo hi : S), cuts.Pairwise (· < ·) →
      (∀ b ∈ cuts, lo < b ∧ b ≤ hi) → ∀ c : S,
      ((∃ piece ∈ splitPieces lo hi cuts, piece.containsSym c) ↔ (lo ≤ c ∧ c ≤ hi)) := by
  intro cuts
  induction cuts with
  | nil =>
    intro lo hi _ _ c
    simp [splitPieces, SymbolRange.containsSym]
  | cons c₀ rest ih =>
    intro lo hi hpw hin c
    obtain ⟨hlo, hhi⟩ := hin c₀ (List.mem_cons_self c₀ rest)
    rw [List.pairwise_cons] at hpw
    have hrest : ∀ b ∈ rest, c₀ < b ∧ b ≤ hi := by
      intro b hb
      exact ⟨hpw.1 b hb, (hin b (List.mem_cons_of_mem c₀ hb)).2⟩
    have hih := ih c₀ hi hpw.2 hrest c
    simp only [splitPieces]
    cases hpred : CountableSym.predOf c₀ with
    | none => exact absurd hlo (CountableSym.predOf_none c₀ hpred lo)
    | some c' =>
      have hps := CountableSym.predOf_spec c₀ c' hpred
      constructor
      · intro ⟨piece, hp, hc⟩
        rcases List.mem_cons.mp hp with rfl | hp'
        · obtain ⟨h1, h2⟩ := hc
          exact ⟨h1, le_trans (le_of_lt ((hps c).mpr h2)) hhi⟩
        · have h := hih.mp ⟨piece, hp', hc⟩
          exact ⟨le_trans (le_of_lt hlo) h.1, h.2⟩
      · intro ⟨h1, h2⟩
        by_cases hcc : c < c₀
        · exact ⟨⟨lo, c'⟩, List.mem_cons_self _ _, ⟨h1, (hps c).mp hcc⟩⟩
        · obtain ⟨piece, hp, hc⟩ := hih.mpr ⟨le_of_not_lt hcc, h2⟩
          exact ⟨piece, List.mem_cons_of_mem _ hp, hc⟩

theorem splitRange_covers {S : Type} [LinearOrder S] [CountableSym S]
    (r : SymbolRange S) (bs : List S) (hbs : bs.Pairwise (· < ·)) (c : S) :
    (∃ piece ∈ splitRange r bs, piece.containsSym c) ↔ r.containsSym c := by
  unfold splitRange
  rw [splitPieces_covers _ r.low r.high (hbs.filter _) ?_ c]
  · rfl
  · intro b hb
    rw [List.mem_filter] at hb
    have := hb.2
    simp only [Bool.and_eq_true, decide_eq_true_eq] at this
    exact this

theorem pairwise_breakpointsFor {S O : Type} [LinearOrder S] [CountableSym S]
    (n : Ndfa S O) (q : Nat) : (breakpointsFor n q).Pairwise (· < ·) :=
  pairwise_sortedDedup _

/-- Fixing overlapping ranges does not change word reachability (§4.E: "the
language of the NDFA is unchanged"). -/
theorem NReach_fix {S O : Type} [LinearOrder S] [CountableSym S] (n : Ndfa S O)
    (a x : Nat) (w : List S) :
    NReach n.fixOverlappingRanges a w x ↔ NReach n a w x := by
  constructor
  · intro h
    induction h with
    | nil => exact NReach.nil _
    | eps hedge _ ih =>
      rw [fix_epsilons] at hedge
      exact NReach.eps hedge ih
    | sym ht hc hrest ih =>
      rename_i a' b' x' r' cs w'
      obtain ⟨r, htr, hsp⟩ := (mem_fix_transitions n a' r' b').mp ht
      have hcont : r.containsSym cs :=
        (splitRange_covers r (breakpointsFor n a') (pairwise_breakpointsFor n a') cs).mp
          ⟨r', hsp, hc⟩
      exact NReach.sym htr hcont ih
  · intro h
    induction h with
    | nil => exact NReach.nil _
    | eps hedge _ ih =>
      rw [← fix_epsilons n] at hedge
      exact NReach.eps hedge ih
    | sym ht hc hrest ih =>
      rename_i a' b' x' r cs w'
      obtain ⟨piece, hp, hcp⟩ :=
        (splitRange_covers r (breakpointsFor n a') (pairwise_breakpointsFor n a') cs).mpr hc
      have htr : (a', piece, b') ∈ (n.fixOverlappingRanges).transitions :=
        (mem_fix_transitions n a' piece b').mpr ⟨r, ht, hp⟩
      exact NReach.sym htr hcp ih

/-- The denotational language of a pattern (§3): which words it matches.  A
repetition matches the concatenation of a list `ws` of component words whose
count lies between the bounds. -/
inductive PatMatches {S : Type} [LinearOrder S] : Pattern S → List S → Prop where
  | matchRange {lo hi c : S} : lo ≤ c → c ≤ hi → PatMatches (.matchRange lo hi) [c]
  | epsilon : PatMatches .epsilon []
  | concat {p q : Pattern S} {u v : List S} :
      PatMatches p u → PatMatches q v → PatMatches (.concat p q) (u ++ v)
  | altL {p q : Pattern S} {w : List S} : PatMatches p w → PatMatches (.alt p q) w
  | altR {p q : Pattern S} {w : List S} : PatMatches q w → PatMatches (.alt p q) w
  | rep {p : Pattern S} {mn : Nat} {mx : Option Nat} {ws : List (List S)} :
      mn ≤ ws.length → (∀ b, mx = some b → ws.length ≤ b) →
      (∀ u ∈ ws, PatMatches p u) → PatMatches (.rep p mn mx) ws.flatten
  | literal {syms : List S} : PatMatches (.literal syms) syms

/-- `k` concatenated copies of a pattern. -/
def PatPow {S : Type} [LinearOrder S] (p : Pattern S) (k : Nat) (w : List S) : Prop :=
  ∃ ws : List (List S), ws.length = k ∧ (∀ u ∈ ws, PatMatches p u) ∧ w = ws.flatten

theorem PatPow.zero {S : Type} [LinearOrder S] {p : Pattern S} : PatPow p 0 [] :=
  ⟨[], rfl, by simp, rfl⟩

theorem PatPow.succ {S : Type} [LinearOrder S] {p : Pattern S} {k : Nat}
    {u v : List S} (hm : PatMatches p u) (hp : PatPow p k v) :
    PatPow p (k + 1) (u ++ v) := by
  obtain ⟨ws, hlen, hall, rfl⟩ := hp
  refine ⟨u :: ws, by simp [hlen], ?_, by simp⟩
  intro x hx
  rcases List.mem_cons.mp hx with rfl | hx
  · exact hm
  · exact hall x hx

theorem PatPow_zero_inv {S : Type} [LinearOrder S] {p : Pattern S} {w : List S}
    (h : PatPow p 0 w) : w = [] := by
  obtain ⟨ws, hlen, _, rfl⟩ := h
  rw [List.length_eq_zero] at hlen
  subst hlen
  rfl

theorem PatPow_succ_inv {S : Type} [LinearOrder S] {p : Pattern S} {k : Nat}
    {w : List S} (h : PatPow p (k + 1) w) :
    ∃ u v, w = u ++ v ∧ PatMatches p u ∧ PatPow p k v := by
  obtain ⟨ws, hlen, hall, rfl⟩ := h
  cases ws with
  | nil => simp at hlen
  | cons u rest =>
    refine ⟨u, rest.flatten, by simp, hall u (List.mem_cons_self u rest), ?_⟩
    refine ⟨rest, by simpa using hlen, ?_, rfl⟩
    intro x hx
    exact hall x (List.mem_cons_of_mem u hx)

/-- Word reachability with a step count, for inductions that need a measure. -/
inductive NReachN {S O : Type} [LinearOrder S] (n : Ndfa S O) :
    Nat → Nat → List S → Nat → Prop where
  | nil (a : Nat) : NReachN n 0 a [] a
  | eps {k a b x : Nat} {w : List S} :
      (a, b) ∈ n.epsilons → NReachN n k b w x → NReachN n (k + 1) a w x
  | sym {k a b x : Nat} {r : SymbolRange S} {c : S} {w : List S} :
      (a, r, b) ∈ n.transitions → r.containsSym c → NReachN n k b w x →
      NReachN n (k + 1) a (c :: w) x

theorem nreach_iff_nreachN {S O : Type} [LinearOrder S] {n : Ndfa S O}
    {a x : Nat} {w : List S} : NReach n a w x ↔ ∃ k, NReachN n k a w x := by
  constructor
  · intro h
    induction h with
    | nil => exact ⟨0, NReachN.nil _⟩
    | eps hedge _ ih =>
      obtain ⟨k, hk⟩ := ih
      exact ⟨k + 1, NReachN.eps hedge hk⟩
    | sym ht hc _ ih =>
      obtain ⟨k, hk⟩ := ih
      exact ⟨k + 1, NReachN.sym ht hc hk⟩
  · intro ⟨k, hk⟩
    induction hk with
    | nil => exact NReach.nil _
    | eps hedge _ ih => exact NReach.eps hedge ih
    | sym ht hc _ ih => exact NReach.sym ht hc ih

/-- A state with no outgoing edges only reaches itself, on the empty word. -/
theorem reach_no_out {S O : Type} [LinearOrder S] {g : Ndfa S O} {y : Nat}
    (hnt : ∀ t ∈ g.transitions, t.1 ≠ y) (hne : ∀ t ∈ g.epsilons, t.1 ≠ y)
    {w : List S} {x : Nat} (h : NReach g y w x) : x = y ∧ w = [] := by
  cases h with
  | nil => exact ⟨rfl, rfl⟩
  | eps hedge _ => exact absurd rfl (hne _ hedge)
  | sym ht _ _ => exact absurd rfl (hnt _ ht)

/-- Restriction: a path whose states stay inside a forward-closed set `C` only
uses the edges that a smaller graph `g'` retains. -/
theorem reach_restrict {S O : Type} [LinearOrder S] (g g' : Ndfa S O)
    (C : Nat → Prop)
    (ht : ∀ t ∈ g.transitions, C t.1 → t ∈ g'.transitions ∧ C t.2.2)
    (he : ∀ t ∈ g.epsilons, C t.1 → t ∈ g'.epsilons ∧ C t.2) :
    ∀ {y : Nat} {w : List S} {x : Nat}, NReach g y w x → C y → NReach g' y w x := by
  intro y w x h
  induction h with
  | nil => intro _; exact NReach.nil _
  | eps hedge _ ih =>
    intro hy
    obtain ⟨hmem, hC⟩ := he _ hedge hy
    exact NReach.eps hmem (ih hC)
  | sym htr hc _ ih =>
    intro hy
    obtain ⟨hmem, hC⟩ := ht _ htr hy
    exact NReach.sym hmem hc (ih hC)

/-- Sequential decomposition: when the graph splits into a first part (sources
`entry` or `A`, targets in `A`, never leaving from `mid`) and a second part
(sources `mid` or `B`, targets `mid` or `B`), any path from `entry` to a state
in `B` crosses `mid` exactly once, splitting the word. -/
theorem seq_split {S O : Type} [LinearOrder S] (g g1 g2 : Ndfa S O)
    (A B : Nat → Prop) (entry mid x : Nat)
    (ht : ∀ t ∈ g.transitions, (t.1 = entry ∨ A t.1 ∨ t.1 = mid ∨ B t.1) →
      t ∈ g1.transitions ∨ t ∈ g2.transitions)
    (he : ∀ t ∈ g.epsilons, (t.1 = entry ∨ A t.1 ∨ t.1 = mid ∨ B t.1) →
      t ∈ g1.epsilons ∨ t ∈ g2.epsilons)
    (h1t : ∀ t ∈ g1.transitions, (t.1 = entry ∨ A t.1) ∧ t.1 ≠ mid ∧ A t.2.2)
    (h1e : ∀ t ∈ g1.epsilons, (t.1 = entry ∨ A t.1) ∧ t.1 ≠ mid ∧ A t.2)
    (h2t : ∀ t ∈ g2.transitions, (t.1 = mid ∨ B t.1) ∧ (t.2.2 = mid ∨ B t.2.2))
    (h2e : ∀ t ∈ g2.epsilons, (t.1 = mid ∨ B t.1) ∧ (t.2 = mid ∨ B t.2))
    (hAB : ∀ s, A s → B s → False)
    (hentryB : ¬ B entry) (hmidA : A mid) (hentrymid : entry ≠ mid)
    (hxB : B x) :
    ∀ {w : List S}, NReach g entry w x →
      ∃ u v, w = u ++ v ∧ NReach g1 entry u mid ∧ NReach g2 mid v x := by
  have hcontain : ∀ {y w z}, NReach g y w z → (y = mid ∨ B y) → NReach g2 y w z := by
    intro y w z h hy
    refine reach_restrict g g2 (fun s => s = mid ∨ B s) ?_ ?_ h hy
    · intro t htm hC
      have hcond : t.1 = entry ∨ A t.1 ∨ t.1 = mid ∨ B t.1 := by
        rcases hC with h | h
        · exact Or.inr (Or.inr (Or.inl h))
        · exact Or.inr (Or.inr (Or.inr h))
      rcases ht t htm hcond with h1 | h2
      · obtain ⟨hsrc, hnm, _⟩ := h1t t h1
        exfalso
        rcases hC with hC | hC
        · exact hnm hC
        · rcases hsrc with rfl | hA
          · exact hentryB hC
          · exact hAB _ hA hC
      · exact ⟨h2, (h2t t h2).2⟩
    · intro t htm hC
      have hcond : t.1 = entry ∨ A t.1 ∨ t.1 = mid ∨ B t.1 := by
        rcases hC with h | h
        · exact Or.inr (Or.inr (Or.inl h))
        · exact Or.inr (Or.inr (Or.inr h))
      rcases he t htm hcond with h1 | h2
      · obtain ⟨hsrc, hnm, _⟩ := h1e t h1
        exfalso
        rcases hC with hC | hC
        · exact hnm hC
        · rcases hsrc with rfl | hA
          · exact hentryB hC
          · exact hAB _ hA hC
      · exact ⟨h2, (h2e t h2).2⟩
  have aux : ∀ {y w z}, NReach g y w z → B z → (y = entry ∨ A y) →
      ∃ u v, w = u ++ v ∧ NReach g1 y u mid ∧ NReach g2 mid v z := by
    intro y w z h
    induction h with
    | nil =>
      intro hzB hy
      exfalso
      rcases hy with rfl | hA
      · exact hentryB hzB
      · exact hAB _ hA hzB
    | eps hedge hrest ih =>
      intro hzB hy
      rename_i a b z' w'
      have hcond : (a, b).1 = entry ∨ A (a, b).1 ∨ (a, b).1 = mid ∨ B (a, b).1 := by
        rcases hy with h | h
        · exact Or.inl h
        · exact Or.inr (Or.inl h)
      rcases he _ hedge hcond with h1 | h2
      · obtain ⟨_, _, hAb⟩ := h1e _ h1
        obtain ⟨u, v, rfl, hu, hv⟩ := ih hzB (Or.inr hAb)
        exact ⟨u, v, rfl, NReach.eps h1 hu, hv⟩
      · have hymid : a = mid := by
          obtain ⟨hsrc, _⟩ := h2e _ h2
          rcases hsrc with h | hB
          · exact h
          · exfalso
            rcases hy with rfl | hA
            · exact hentryB hB
            · exact hAB _ hA hB
        subst hymid
        exact ⟨[], w', rfl, NReach.nil _, hcontain (NReach.eps hedge hrest) (Or.inl rfl)⟩
    | sym htr hc hrest ih =>
      intro hzB hy
      rename_i a b z' r c w'
      have hcond : (a, r, b).1 = entry ∨ A (a, r, b).1 ∨ (a, r, b).1 = mid ∨ B (a, r, b).1 := by
        rcases hy with h | h
        · exact Or.inl h
        · exact Or.inr (Or.inl h)
      rcases ht _ htr hcond with h1 | h2
      · obtain ⟨_, _, hAb⟩ := h1t _ h1
        obtain ⟨u, v, huv, hu, hv⟩ := ih hzB (Or.inr hAb)
        subst huv
        exact ⟨c :: u, v, rfl, NReach.sym h1 hc hu, hv⟩
      · have hymid : a = mid := by
          obtain ⟨hsrc, _⟩ := h2t _ h2
          rcases hsrc with h | hB
          · exact h
          · exfalso
            rcases hy with rfl | hA
            · exact hentryB hB
            · exact hAB _ hA hB
        subst hymid
        exact ⟨[], c :: w', rfl, NReach.nil _, hcontain (NReach.sym htr hc hrest) (Or.inl rfl)⟩
  intro w h
  exact aux h hxB (Or.inl rfl)

/-- The graph holding only the edges one compilation step added; fragment
reachability is stated over it (outputs and state count are irrelevant). -/
def deltaG (S O : Type) (dT : List (Nat × SymbolRange S × Nat)) (dE : List (Nat × Nat)) :
    Ndfa S O :=
  { transitions := dT, epsilons := dE, outputs := [], numStates := 0 }

/-- Reachability is monotone under adding edges. -/
theorem NReach_mono {S O : Type} [LinearOrder S] {g g' : Ndfa S O}
    (hT : ∀ t ∈ g.transitions, t ∈ g'.transitions)
    (hE : ∀ e ∈ g.epsilons, e ∈ g'.epsilons)
    {y x : Nat} {w : List S} (h : NReach g y w x) : NReach g' y w x := by
  induction h with
  | nil => exact NReach.nil _
  | eps hedge _ ih => exact NReach.eps (hE _ hedge) ih
  | sym ht hc _ ih => exact NReach.sym (hT _ ht) hc ih

/-- In a graph without ε-edges, ε-reachability is trivial. -/
theorem epsReach_of_no_eps {S O : Type} {g : Ndfa S O} (hg : g.epsilons = [])
    {a x : Nat} (h : EpsReach g a x) : x = a := by
  cases h with
  | refl => rfl
  | head hedge _ =>
    rw [hg] at hedge
    exact absurd hedge (List.not_mem_nil _)

/-- In a graph with a single ε-edge and no transitions, every path is that edge
or nothing. -/
theorem reach_single_eps {S O : Type} [LinearOrder S] {a b : Nat} :
    ∀ {y x : Nat} {w : List S},
      NReach (deltaG S O [] [(a, b)]) y w x →
      w = [] ∧ (x = y ∨ (y = a ∧ x = b)) := by
  intro y x w h
  induction h with
  | nil => exact ⟨rfl, Or.inl rfl⟩
  | @eps y0 b0 x0 w0 hedge _ ih =>
    have heq : y0 = a ∧ b0 = b := by simpa [deltaG] using hedge
    obtain ⟨hw, hcase⟩ := ih
    refine ⟨hw, Or.inr ⟨heq.1, ?_⟩⟩
    rcases hcase with h1 | h2
    · exact h1.trans heq.2
    · exact h2.2
  | sym ht _ _ _ => exact absurd ht (List.not_mem_nil _)

/-- Powers of a pattern concatenate. -/
theorem PatPow_append {S : Type} [LinearOrder S] {p : Pattern S} {j k : Nat}
    {u v : List S} (hu : PatPow p j u) (hv : PatPow p k v) :
    PatPow p (j + k) (u ++ v) := by
  obtain ⟨ws1, h1, ha1, rfl⟩ := hu
  obtain ⟨ws2, h2, ha2, rfl⟩ := hv
  refine ⟨ws1 ++ ws2, by simp [h1, h2], ?_, by simp⟩
  intro x hx
  rcases List.mem_append.mp hx with h | h
  · exact ha1 x h
  · exact ha2 x h

/-- A power splits at any intermediate count. -/
theorem PatPow_split {S : Type} [LinearOrder S] {p : Pattern S} (j : Nat) {k : Nat}
    {w : List S} (h : PatPow p (j + k) w) :
    ∃ u v, w = u ++ v ∧ PatPow p j u ∧ PatPow p k v := by
  obtain ⟨ws, hlen, hall, rfl⟩ := h
  refine ⟨(ws.take j).flatten, (ws.drop j).flatten, ?_, ?_, ?_⟩
  · rw [← List.flatten_append, List.take_append_drop]
  · refine ⟨ws.take j, ?_, ?_, rfl⟩
    · rw [List.length_take, hlen]
      omega
    · intro x hx
      exact hall x (List.mem_of_mem_take hx)
  · refine ⟨ws.drop j, ?_, ?_, rfl⟩
    · rw [List.length_drop, hlen]
      omega
    · intro x hx
      exact hall x (List.mem_of_mem_drop hx)

/-- Dropping empty component words keeps the concatenation. -/
theorem flatten_filter_nonempty {α : Type} :
    ∀ ws : List (List α), (ws.filter (fun u => !u.isEmpty)).flatten = ws.flatten := by
  intro ws
  induction ws with
  | nil => rfl
  | cons u rest ih =>
    cases u with
    | nil => simpa using ih
    | cons a u' => simp [List.filter_cons, ih]

/-- Inversion for the empty pattern. -/
theorem patMatches_epsilon_inv {S : Type} [LinearOrder S] {w : List S}
    (h : PatMatches (Pattern.epsilon : Pattern S) w) : w = [] := by
  cases h
  rfl

/-- Inversion for literals. -/
theorem patMatches_literal_inv {S : Type} [LinearOrder S] {syms w : List S}
    (h : PatMatches (Pattern.literal syms) w) : w = syms := by
  cases h
  rfl

theorem PatPow_altE_lift {S : Type} [LinearOrder S] {p : Pattern S} {j : Nat}
    {w : List S} (hp : PatPow p j w) : PatPow (Pattern.alt p .epsilon) j w := by
  obtain ⟨ws, hlen, hall, rfl⟩ := hp
  exact ⟨ws, hlen, fun u hu => PatMatches.altL (hall u hu), rfl⟩

theorem PatPow_altE_pad {S : Type} [LinearOrder S] {p : Pattern S} :
    ∀ (cnt : Nat) {j : Nat} {w : List S}, j ≤ cnt →
      PatPow (Pattern.alt p .epsilon) j w → PatPow (Pattern.alt p .epsilon) cnt w := by
  intro cnt
  induction cnt with
  | zero =>
    intro j w hj h
    have hj0 : j = 0 := Nat.le_zero.mp hj
    subst hj0
    exact h
  | succ cnt ih =>
    intro j w hj h
    rcases Nat.lt_or_ge j (cnt + 1) with hlt | hge
    · have hj' : j ≤ cnt := Nat.lt_succ_iff.mp hlt
      have hc := ih hj' h
      have hstep := PatPow.succ (PatMatches.altR PatMatches.epsilon) hc
      simpa using hstep
    · have hje : j = cnt + 1 := Nat.le_antisymm hj hge
      subst hje
      exact h

/-- A power of `alt p ε` is a power of `p` of some smaller or equal count. -/
theorem PatPow_altE {S : Type} [LinearOrder S] {p : Pattern S} {cnt : Nat}
    {w : List S} :
    PatPow (Pattern.alt p .epsilon) cnt w ↔ ∃ j, j ≤ cnt ∧ PatPow p j w := by
  constructor
  · intro h
    obtain ⟨ws, hlen, hall, rfl⟩ := h
    refine ⟨(ws.filter (fun u => !u.isEmpty)).length, ?_, ?_⟩
    · rw [← hlen]
      exact List.length_filter_le _ _
    · refine ⟨ws.filter (fun u => !u.isEmpty), rfl, ?_, (flatten_filter_nonempty ws).symm⟩
      intro u hu
      rw [List.mem_filter] at hu
      have hne : u ≠ [] := by simpa using hu.2
      cases hall u hu.1 with
      | altL hpl => exact hpl
      | altR hpr => exact absurd (patMatches_epsilon_inv hpr) hne
  · intro ⟨j, hj, hp⟩
    exact PatPow_altE_pad cnt hj (PatPow_altE_lift hp)

/-- Well-formed patterns: bounded repetitions have an upper bound at least the
lower bound (as produced by the spec's `repeat_bounded(p, min, max)`). -/
def Pattern.wf {S : Type} : Pattern S → Prop
  | .matchRange _ _ => True
  | .epsilon => True
  | .concat p q => p.wf ∧ q.wf
  | .alt p q => p.wf ∧ q.wf
  | .rep p mn mx => p.wf ∧ (∀ b, mx = some b → mn ≤ b)
  | .literal _ => True

/-- Correctness data of one compiled fragment: the compilation extended the
graph by the edge lists `dT`/`dE` only, the accept state `f` is fresh, new
edges start at the entry `st` or at fresh states (never at `f`) and end at
fresh states, and the new edges alone connect `st` to `f` on exactly the words
the pattern matches. -/
structure FragOK {S O : Type} [LinearOrder S] (p : Pattern S) (st : Nat)
    (n n' : Ndfa S O) (f : Nat) (dT : List (Nat × SymbolRange S × Nat))
    (dE : List (Nat × Nat)) : Prop where
  hT : n'.transitions = n.transitions ++ dT
  hE : n'.epsilons = n.epsilons ++ dE
  hO : n'.outputs = n.outputs
  hns : n.numStates < n'.numStates
  hf1 : n.numStates ≤ f
  hf2 : f < n'.numStates
  hsT : ∀ t ∈ dT, (t.1 = st ∨ (n.numStates ≤ t.1 ∧ t.1 < n'.numStates)) ∧ t.1 ≠ f ∧
    n.numStates ≤ t.2.2 ∧ t.2.2 < n'.numStates
  hsE : ∀ e ∈ dE, (e.1 = st ∨ (n.numStates ≤ e.1 ∧ e.1 < n'.numStates)) ∧ e.1 ≠ f ∧
    n.numStates ≤ e.2 ∧ e.2 < n'.numStates
  hcomp : ∀ w, PatMatches p w → NReach (deltaG S O dT dE) st w f
  hsound : ∀ w, NReach (deltaG S O dT dE) st w f → PatMatches p w

/-- Correctness data of a chain of `cnt` compiled copies of a pattern: like
`FragOK` but the accept may coincide with the entry when the chain is empty,
and the words are the `cnt`-th powers of the pattern. -/
structure ChainOK {S O : Type} [LinearOrder S] (p : Pattern S) (cnt : Nat) (st : Nat)
    (n n' : Ndfa S O) (f : Nat) (dT : List (Nat × SymbolRange S × Nat))
    (dE : List (Nat × Nat)) : Prop where
  hT : n'.transitions = n.transitions ++ dT
  hE : n'.epsilons = n.epsilons ++ dE
  hO : n'.outputs = n.outputs
  hns : n.numStates ≤ n'.numStates
  hf : (cnt = 0 ∧ f = st ∧ n' = n ∧ dT = [] ∧ dE = []) ∨
    (n.numStates ≤ f ∧ f < n'.numStates)
  hsT : ∀ t ∈ dT, (t.1 = st ∨ (n.numStates ≤ t.1 ∧ t.1 < n'.numStates)) ∧ t.1 ≠ f ∧
    n.numStates ≤ t.2.2 ∧ t.2.2 < n'.numStates
  hsE : ∀ e ∈ dE, (e.1 = st ∨ (n.numStates ≤ e.1 ∧ e.1 < n'.numStates)) ∧ e.1 ≠ f ∧
    n.numStates ≤ e.2 ∧ e.2 < n'.numStates
  hcomp : ∀ w, PatPow p cnt w → NReach (deltaG S O dT dE) st w f
  hsound : ∀ w, NReach (deltaG S O dT dE) st w f → PatPow p cnt w

@[simp]
theorem deltaG_transitions {S O : Type} (dT : List (Nat × SymbolRange S × Nat))
    (dE : List (Nat × Nat)) : (deltaG S O dT dE).transitions = dT := rfl

@[simp]
theorem deltaG_epsilons {S O : Type} (dT : List (Nat × SymbolRange S × Nat))
    (dE : List (Nat × Nat)) : (deltaG S O dT dE).epsilons = dE := rfl

/-- Compilation of a pattern is correct from every graph and entry state. -/
def CompOK (S O : Type) [LinearOrder S] (p : Pattern S) : Prop :=
  ∀ (n : Ndfa S O) (st : Nat), st < n.numStates →
    ∃ dT dE, FragOK p st n (p.compile n st).1 (p.compile n st).2 dT dE

theorem compOK_matchRange {S O : Type} [LinearOrder S] (lo hi : S) :
    CompOK S O (Pattern.matchRange lo hi) := by
  intro n st hst
  refine ⟨[(st, ⟨lo, hi⟩, n.numStates)], [], rfl, (List.append_nil _).symm, rfl,
    Nat.lt_succ_self _, le_refl _, Nat.lt_succ_self _, ?_, ?_, ?_, ?_⟩
  · intro t ht
    rw [List.mem_singleton] at ht
    subst ht
    exact ⟨Or.inl rfl, Nat.ne_of_lt hst, le_refl _, Nat.lt_succ_self _⟩
  · intro e he
    exact absurd he (List.not_mem_nil _)
  · intro w hw
    cases hw with
    | matchRange h1 h2 =>
      have hmem : (st, (⟨lo, hi⟩ : SymbolRange S), n.numStates) ∈
          (deltaG S O [(st, ⟨lo, hi⟩, n.numStates)] []).transitions := by simp
      exact NReach.sym hmem ⟨h1, h2⟩ (NReach.nil _)
  · intro w h
    cases w with
    | nil =>
      have hfst := epsReach_of_no_eps rfl (NReach_nil_inv h)
      exact absurd hfst (Nat.ne_of_lt hst).symm
    | cons c rest =>
      obtain ⟨a', r, b, hr, htm, hcont, hrest⟩ := NReach_cons_inv h
      have ha' : a' = st := epsReach_of_no_eps rfl hr
      rw [ha'] at htm
      simp only [deltaG_transitions, List.mem_singleton, Prod.mk.injEq] at htm
      obtain ⟨-, hre, hb⟩ := htm
      subst hre
      subst hb
      have hnt : ∀ t ∈ (deltaG S O [(st, (⟨lo, hi⟩ : SymbolRange S), n.numStates)]
          []).transitions, t.1 ≠ n.numStates := by
        intro t ht
        rw [deltaG_transitions, List.mem_singleton] at ht
        subst ht
        exact Nat.ne_of_lt hst
      have hne : ∀ e ∈ (deltaG S O [(st, (⟨lo, hi⟩ : SymbolRange S), n.numStates)]
          []).epsilons, e.1 ≠ n.numStates := by
        intro e he
        exact absurd he (List.not_mem_nil _)
      have hout := reach_no_out hnt hne hrest
      rw [hout.2]
      exact PatMatches.matchRange hcont.1 hcont.2

theorem compOK_epsilon {S O : Type} [LinearOrder S] :
    CompOK S O (Pattern.epsilon : Pattern S) := by
  intro n st hst
  refine ⟨[], [(st, n.numStates)], (List.append_nil _).symm, rfl, rfl,
    Nat.lt_succ_self _, le_refl _, Nat.lt_succ_self _, ?_, ?_, ?_, ?_⟩
  · intro t ht
    exact absurd ht (List.not_mem_nil _)
  · intro e he
    rw [List.mem_singleton] at he
    subst he
    exact ⟨Or.inl rfl, Nat.ne_of_lt hst, le_refl _, Nat.lt_succ_self _⟩
  · intro w hw
    have hw0 := patMatches_epsilon_inv hw
    subst hw0
    have hmem : (st, n.numStates) ∈
        (deltaG S O ([] : List (Nat × SymbolRange S × Nat)) [(st, n.numStates)]).epsilons := by
      simp
    exact NReach.eps hmem (NReach.nil _)
  · intro w h
    cases w with
    | nil => exact PatMatches.epsilon
    | cons c rest =>
      obtain ⟨a', r, b, hr, htm, hcont, hrest⟩ := NReach_cons_inv h
      exact absurd htm (List.not_mem_nil _)

theorem compOK_concat {S O : Type} [LinearOrder S] {p q : Pattern S}
    (hp : CompOK S O p) (hq : CompOK S O q) : CompOK S O (Pattern.concat p q) := by
  intro n st hst
  obtain ⟨dTp, dEp, fp⟩ := hp n st hst
  obtain ⟨dTq, dEq, fq⟩ := hq (p.compile n st).1 (p.compile n st).2 fp.hf2
  have B2 : n.numStates < (p.compile n st).1.numStates := fp.hns
  have B3 : n.numStates ≤ (p.compile n st).2 := fp.hf1
  have B4 : (p.compile n st).2 < (p.compile n st).1.numStates := fp.hf2
  have B5 : (p.compile n st).1.numStates <
      (q.compile (p.compile n st).1 (p.compile n st).2).1.numStates := fq.hns
  have B6 : (p.compile n st).1.numStates ≤
      (q.compile (p.compile n st).1 (p.compile n st).2).2 := fq.hf1
  have B7 : (q.compile (p.compile n st).1 (p.compile n st).2).2 <
      (q.compile (p.compile n st).1 (p.compile n st).2).1.numStates := fq.hf2
  rw [show (Pattern.concat p q).compile n st =
    q.compile (p.compile n st).1 (p.compile n st).2 from rfl]
  refine ⟨dTp ++ dTq, dEp ++ dEq, ?_, ?_, ?_, ?_, ?_, ?_, ?_, ?_, ?_, ?_⟩
  · rw [fq.hT, fp.hT, List.append_assoc]
  · rw [fq.hE, fp.hE, List.append_assoc]
  · rw [fq.hO, fp.hO]
  · omega
  · omega
  · exact B7
  · intro t ht
    rcases List.mem_append.mp ht with hmem | hmem
    · obtain ⟨hsrc, hnf, h1, h2⟩ := fp.hsT t hmem
      rcases hsrc with h0 | h0
      · exact ⟨Or.inl h0, by omega, by omega, by omega⟩
      · exact ⟨Or.inr (by omega), by omega, by omega, by omega⟩
    · obtain ⟨hsrc, hnf, h1, h2⟩ := fq.hsT t hmem
      rcases hsrc with h0 | h0
      · exact ⟨Or.inr (by omega), hnf, by omega, by omega⟩
      · exact ⟨Or.inr (by omega), hnf, by omega, by omega⟩
  · intro e he
    rcases List.mem_append.mp he with hmem | hmem
    · obtain ⟨hsrc, hnf, h1, h2⟩ := fp.hsE e hmem
      rcases hsrc with h0 | h0
      · exact ⟨Or.inl h0, by omega, by omega, by omega⟩
      · exact ⟨Or.inr (by omega), by omega, by omega, by omega⟩
    · obtain ⟨hsrc, hnf, h1, h2⟩ := fq.hsE e hmem
      rcases hsrc with h0 | h0
      · exact ⟨Or.inr (by omega), hnf, by omega, by omega⟩
      · exact ⟨Or.inr (by omega), hnf, by omega, by omega⟩
  · intro w hw
    cases hw with
    | concat hu hv =>
      exact NReach_append
        (NReach_mono (fun t ht => List.mem_append_left _ ht)
          (fun e he => List.mem_append_left _ he) (fp.hcomp _ hu))
        (NReach_mono (fun t ht => List.mem_append_right _ ht)
          (fun e he => List.mem_append_right _ he) (fq.hcomp _ hv))
  · intro w h
    obtain ⟨u, v, rfl, hu, hv⟩ :=
      seq_split (deltaG S O (dTp ++ dTq) (dEp ++ dEq)) (deltaG S O dTp dEp)
        (deltaG S O dTq dEq)
        (fun s => n.numStates ≤ s ∧ s < (p.compile n st).1.numStates)
        (fun s => (p.compile n st).1.numStates ≤ s ∧
          s < (q.compile (p.compile n st).1 (p.compile n st).2).1.numStates)
        st (p.compile n st).2 (q.compile (p.compile n st).1 (p.compile n st).2).2
        (by
          intro t htm hcond
          rcases List.mem_append.mp htm with hmem | hmem
          · exact Or.inl hmem
          · exact Or.inr hmem)
        (by
          intro e hem hcond
          rcases List.mem_append.mp hem with hmem | hmem
          · exact Or.inl hmem
          · exact Or.inr hmem)
        (by
          intro t htm
          obtain ⟨hsrc, hnf, h1, h2⟩ := fp.hsT t htm
          exact ⟨hsrc, hnf, h1, h2⟩)
        (by
          intro e hem
          obtain ⟨hsrc, hnf, h1, h2⟩ := fp.hsE e hem
          exact ⟨hsrc, hnf, h1, h2⟩)
        (by
          intro t htm
          obtain ⟨hsrc, hnf, h1, h2⟩ := fq.hsT t htm
          exact ⟨hsrc, Or.inr ⟨h1, h2⟩⟩)
        (by
          intro e hem
          obtain ⟨hsrc, hnf, h1, h2⟩ := fq.hsE e hem
          exact ⟨hsrc, Or.inr ⟨h1, h2⟩⟩)
        (by
          intro s h1 h2
          obtain ⟨a1, a2⟩ := h1
          obtain ⟨b1, b2⟩ := h2
          omega)
        (by
          intro hB
          obtain ⟨b1, b2⟩ := hB
          omega)
        ⟨B3, B4⟩ (by omega) ⟨B6, B7⟩ h
    exact PatMatches.concat (fp.hsound u hu) (fq.hsound v hv)

@[simp]
theorem addState_fst_transitions {S O : Type} (n : Ndfa S O) :
    n.addState.1.transitions = n.transitions := rfl

@[simp]
theorem addState_fst_epsilons {S O : Type} (n : Ndfa S O) :
    n.addState.1.epsilons = n.epsilons := rfl

@[simp]
theorem addState_fst_outputs {S O : Type} (n : Ndfa S O) :
    n.addState.1.outputs = n.outputs := rfl

@[simp]
theorem addState_fst_numStates {S O : Type} (n : Ndfa S O) :
    n.addState.1.numStates = n.numStates + 1 := rfl

@[simp]
theorem addState_snd {S O : Type} (n : Ndfa S O) : n.addState.2 = n.numStates := rfl

@[simp]
theorem addEpsilon_transitions {S O : Type} (n : Ndfa S O) (a b : Nat) :
    (n.addEpsilon a b).transitions = n.transitions := rfl

@[simp]
theorem addEpsilon_epsilons {S O : Type} (n : Ndfa S O) (a b : Nat) :
    (n.addEpsilon a b).epsilons = n.epsilons ++ [(a, b)] := rfl

@[simp]
theorem addEpsilon_outputs {S O : Type} (n : Ndfa S O) (a b : Nat) :
    (n.addEpsilon a b).outputs = n.outputs := rfl

@[simp]
theorem addEpsilon_numStates {S O : Type} (n : Ndfa S O) (a b : Nat) :
    (n.addEpsilon a b).numStates = n.numStates := rfl

@[simp]
theorem addTransition_transitions {S O : Type} (n : Ndfa S O) (a : Nat)
    (r : SymbolRange S) (b : Nat) :
    (n.addTransition a r b).transitions = n.transitions ++ [(a, r, b)] := rfl

@[simp]
theorem addTransition_epsilons {S O : Type} (n : Ndfa S O) (a : Nat)
    (r : SymbolRange S) (b : Nat) : (n.addTransition a r b).epsilons = n.epsilons := rfl

@[simp]
theorem addTransition_outputs {S O : Type} (n : Ndfa S O) (a : Nat)
    (r : SymbolRange S) (b : Nat) : (n.addTransition a r b).outputs = n.outputs := rfl

@[simp]
theorem addTransition_numStates {S O : Type} (n : Ndfa S O) (a : Nat)
    (r : SymbolRange S) (b : Nat) : (n.addTransition a r b).numStates = n.numStates := rfl

@[simp]
theorem setOutput_transitions {S O : Type} (n : Ndfa S O) (s : Nat) (o : O) :
    (n.setOutput s o).transitions = n.transitions := rfl

@[simp]
theorem setOutput_epsilons {S O : Type} (n : Ndfa S O) (s : Nat) (o : O) :
    (n.setOutput s o).epsilons = n.epsilons := rfl

@[simp]
theorem setOutput_outputs {S O : Type} (n : Ndfa S O) (s : Nat) (o : O) :
    (n.setOutput s o).outputs = n.outputs ++ [(s, o)] := rfl

@[simp]
theorem setOutput_numStates {S O : Type} (n : Ndfa S O) (s : Nat) (o : O) :
    (n.setOutput s o).numStates = n.numStates := rfl

/-- Inversion on the first step of a path. -/
theorem NReach_step_inv {S O : Type} [LinearOrder S] {g : Ndfa S O} {y x : Nat}
    {w : List S} (h : NReach g y w x) :
    (x = y ∧ w = []) ∨
    (∃ b, (y, b) ∈ g.epsilons ∧ NReach g b w x) ∨
    (∃ r b c w', (y, r, b) ∈ g.transitions ∧ r.containsSym c ∧ w = c :: w' ∧
      NReach g b w' x) := by
  cases h with
  | nil => exact Or.inl ⟨rfl, rfl⟩
  | eps hedge hrest => exact Or.inr (Or.inl ⟨_, hedge, hrest⟩)
  | sym ht hc hrest => exact Or.inr (Or.inr ⟨_, _, _, _, ht, hc, rfl, hrest⟩)
/-- The compiled alternation fragment is correct, abstracted over the two
sub-fragments: an ε-fork from the entry into the two branch entries, and two
ε-joins from the branch accepts into a fresh accept. -/
theorem altFragOK {S O : Type} [LinearOrder S] {p q : Pattern S} {n np nq : Ndfa S O}
    {st f1 f2 : Nat} {dTp dTq : List (Nat × SymbolRange S × Nat)}
    {dEp dEq : List (Nat × Nat)}
    (hst : st < n.numStates)
    (fp : FragOK p n.numStates ((n.addState).1.addEpsilon st n.numStates) np f1 dTp dEp)
    (fq : FragOK q np.numStates ((np.addState).1.addEpsilon st np.numStates) nq f2 dTq dEq) :
    FragOK (Pattern.alt p q) st n
      (((nq.addState).1.addEpsilon f1 nq.numStates).addEpsilon f2 nq.numStates)
      nq.numStates (dTp ++ dTq)
      ((st, n.numStates) :: (dEp ++ ((st, np.numStates) :: (dEq ++
        [(f1, nq.numStates), (f2, nq.numStates)])))) := by
  have D1 : n.numStates + 1 < np.numStates := fp.hns
  have D2 : n.numStates + 1 ≤ f1 := fp.hf1
  have D3 : f1 < np.numStates := fp.hf2
  have D4 : np.numStates + 1 < nq.numStates := fq.hns
  have D5 : np.numStates + 1 ≤ f2 := fq.hf1
  have D6 : f2 < nq.numStates := fq.hf2
  have e1 : np.transitions = n.transitions ++ dTp := fp.hT
  have e2 : nq.transitions = np.transitions ++ dTq := fq.hT
  have e3 : np.epsilons = (n.epsilons ++ [(st, n.numStates)]) ++ dEp := fp.hE
  have e4 : nq.epsilons = (np.epsilons ++ [(st, np.numStates)]) ++ dEq := fq.hE
  have e5 : np.outputs = n.outputs := fp.hO
  have e6 : nq.outputs = np.outputs := fq.hO
  have hsTp : ∀ t ∈ dTp, (t.1 = n.numStates ∨
      (n.numStates + 1 ≤ t.1 ∧ t.1 < np.numStates)) ∧ t.1 ≠ f1 ∧
      n.numStates + 1 ≤ t.2.2 ∧ t.2.2 < np.numStates := fp.hsT
  have hsEp : ∀ e ∈ dEp, (e.1 = n.numStates ∨
      (n.numStates + 1 ≤ e.1 ∧ e.1 < np.numStates)) ∧ e.1 ≠ f1 ∧
      n.numStates + 1 ≤ e.2 ∧ e.2 < np.numStates := fp.hsE
  have hsTq : ∀ t ∈ dTq, (t.1 = np.numStates ∨
      (np.numStates + 1 ≤ t.1 ∧ t.1 < nq.numStates)) ∧ t.1 ≠ f2 ∧
      np.numStates + 1 ≤ t.2.2 ∧ t.2.2 < nq.numStates := fq.hsT
  have hsEq : ∀ e ∈ dEq, (e.1 = np.numStates ∨
      (np.numStates + 1 ≤ e.1 ∧ e.1 < nq.numStates)) ∧ e.1 ≠ f2 ∧
      np.numStates + 1 ≤ e.2 ∧ e.2 < nq.numStates := fq.hsE
  set dE0 := (st, n.numStates) :: (dEp ++ ((st, np.numStates) :: (dEq ++
    [(f1, nq.numStates), (f2, nq.numStates)]))) with hdE0
  have EN : (((nq.addState).1.addEpsilon f1 nq.numStates).addEpsilon f2
      nq.numStates).numStates = nq.numStates + 1 := rfl
  refine ⟨?_, ?_, ?_, ?_, ?_, ?_, ?_, ?_, ?_, ?_⟩
  · show nq.transitions = n.transitions ++ (dTp ++ dTq)
    rw [e2, e1, List.append_assoc]
  · show (nq.epsilons ++ [(f1, nq.numStates)]) ++ [(f2, nq.numStates)] =
      n.epsilons ++ dE0
    rw [e4, e3, hdE0]
    simp
  · show nq.outputs = n.outputs
    rw [e6, e5]
  · show n.numStates < nq.numStates + 1
    omega
  · show n.numStates ≤ nq.numStates
    omega
  · show nq.numStates < nq.numStates + 1
    omega
  · intro t ht
    rcases List.mem_append.mp ht with hmem | hmem
    · obtain ⟨hsrc, hnf, h1, h2⟩ := hsTp t hmem
      rcases hsrc with h0 | h0
      · exact ⟨Or.inr (by omega), by omega, by omega, by omega⟩
      · exact ⟨Or.inr (by omega), by omega, by omega, by omega⟩
    · obtain ⟨hsrc, hnf, h1, h2⟩ := hsTq t hmem
      rcases hsrc with h0 | h0
      · exact ⟨Or.inr (by omega), by omega, by omega, by omega⟩
      · exact ⟨Or.inr (by omega), by omega, by omega, by omega⟩
  · intro e he
    rw [hdE0] at he
    rcases List.mem_cons.mp he with rfl | he1
    · exact ⟨Or.inl rfl, by omega, by omega, by omega⟩
    rcases List.mem_append.mp he1 with hmem | he2
    · obtain ⟨hsrc, hnf, h1, h2⟩ := hsEp e hmem
      rcases hsrc with h0 | h0
      · exact ⟨Or.inr (by omega), by omega, by omega, by omega⟩
      · exact ⟨Or.inr (by omega), by omega, by omega, by omega⟩
    rcases List.mem_cons.mp he2 with rfl | he3
    · exact ⟨Or.inl rfl, by omega, by omega, by omega⟩
    rcases List.mem_append.mp he3 with hmem | he4
    · obtain ⟨hsrc, hnf, h1, h2⟩ := hsEq e hmem
      rcases hsrc with h0 | h0
      · exact ⟨Or.inr (by omega), by omega, by omega, by omega⟩
      · exact ⟨Or.inr (by omega), by omega, by omega, by omega⟩
    rcases List.mem_cons.mp he4 with rfl | he5
    · exact ⟨Or.inr (by omega), by omega, by omega, by omega⟩
    rcases List.mem_cons.mp he5 with rfl | he6
    · exact ⟨Or.inr (by omega), by omega, by omega, by omega⟩
    · exact absurd he6 (List.not_mem_nil _)
  · intro w hw
    have hsubT : ∀ t ∈ (deltaG S O dTp dEp).transitions,
        t ∈ (deltaG S O (dTp ++ dTq) dE0).transitions := by
      intro t ht
      exact List.mem_append_left _ ht
    have hsubE : ∀ e ∈ (deltaG S O dTp dEp).epsilons,
        e ∈ (deltaG S O (dTp ++ dTq) dE0).epsilons := by
      intro e he
      rw [deltaG_epsilons, hdE0]
      exact List.mem_cons_of_mem _ (List.mem_append_left _ he)
    have hsubT' : ∀ t ∈ (deltaG S O dTq dEq).transitions,
        t ∈ (deltaG S O (dTp ++ dTq) dE0).transitions := by
      intro t ht
      exact List.mem_append_right _ ht
    have hsubE' : ∀ e ∈ (deltaG S O dTq dEq).epsilons,
        e ∈ (deltaG S O (dTp ++ dTq) dE0).epsilons := by
      intro e he
      rw [deltaG_epsilons, hdE0]
      refine List.mem_cons_of_mem _ (List.mem_append_right _ ?_)
      exact List.mem_cons_of_mem _ (List.mem_append_left _ he)
    cases hw with
    | altL hu =>
      have h1 := NReach_mono hsubT hsubE (fp.hcomp w hu)
      have hm2 : (f1, nq.numStates) ∈ (deltaG S O (dTp ++ dTq) dE0).epsilons := by
        rw [deltaG_epsilons, hdE0]
        simp
      have h3 : NReach (deltaG S O (dTp ++ dTq) dE0) f1 [] nq.numStates :=
        NReach.eps hm2 (NReach.nil _)
      have hm1 : (st, n.numStates) ∈ (deltaG S O (dTp ++ dTq) dE0).epsilons := by
        rw [deltaG_epsilons, hdE0]
        simp
      have h5 := NReach.eps hm1 (NReach_append h1 h3)
      simpa using h5
    | altR hv =>
      have h1 := NReach_mono hsubT' hsubE' (fq.hcomp w hv)
      have hm2 : (f2, nq.numStates) ∈ (deltaG S O (dTp ++ dTq) dE0).epsilons := by
        rw [deltaG_epsilons, hdE0]
        simp
      have h3 : NReach (deltaG S O (dTp ++ dTq) dE0) f2 [] nq.numStates :=
        NReach.eps hm2 (NReach.nil _)
      have hm1 : (st, np.numStates) ∈ (deltaG S O (dTp ++ dTq) dE0).epsilons := by
        rw [deltaG_epsilons, hdE0]
        simp
      have h5 := NReach.eps hm1 (NReach_append h1 h3)
      simpa using h5
  · intro w h
    rcases NReach_step_inv h with ⟨heq, -⟩ | ⟨b, hedge, hrest⟩ | ⟨r, b, c, w', htr, -, -, -⟩
    · exact absurd heq (by omega)
    · replace hedge : (st, b) ∈ dE0 := hedge
      rw [hdE0] at hedge
      have hb : b = n.numStates ∨ b = np.numStates := by
        rcases List.mem_cons.mp hedge with hh | he1
        · rw [Prod.mk.injEq] at hh
          exact Or.inl hh.2
        rcases List.mem_append.mp he1 with hmem | he2
        · obtain ⟨hsrc, -, -, -⟩ := hsEp (st, b) hmem
          have hsrc' : st = n.numStates ∨
              (n.numStates + 1 ≤ st ∧ st < np.numStates) := hsrc
          exact absurd hsrc' (by omega)
        rcases List.mem_cons.mp he2 with hh | he3
        · rw [Prod.mk.injEq] at hh
          exact Or.inr hh.2
        rcases List.mem_append.mp he3 with hmem | he4
        · obtain ⟨hsrc, -, -, -⟩ := hsEq (st, b) hmem
          have hsrc' : st = np.numStates ∨
              (np.numStates + 1 ≤ st ∧ st < nq.numStates) := hsrc
          exact absurd hsrc' (by omega)
        rcases List.mem_cons.mp he4 with hh | he5
        · rw [Prod.mk.injEq] at hh
          exact absurd hh.1 (by omega)
        rcases List.mem_cons.mp he5 with hh | he6
        · rw [Prod.mk.injEq] at hh
          exact absurd hh.1 (by omega)
        · exact absurd he6 (List.not_mem_nil _)
      rcases hb with rfl | rfl
      · obtain ⟨u, v, rfl, hu, hv⟩ :=
          seq_split (deltaG S O (dTp ++ dTq) dE0) (deltaG S O dTp dEp)
            (deltaG S O ([] : List (Nat × SymbolRange S × Nat)) [(f1, nq.numStates)])
            (fun s => n.numStates + 1 ≤ s ∧ s < np.numStates)
            (fun s => nq.numStates ≤ s ∧ s < nq.numStates + 1)
            n.numStates f1 nq.numStates
            (by
              intro t htm hcond
              replace htm : t ∈ dTp ++ dTq := htm
              have hcond' : t.1 = n.numStates ∨
                  (n.numStates + 1 ≤ t.1 ∧ t.1 < np.numStates) ∨ t.1 = f1 ∨
                  (nq.numStates ≤ t.1 ∧ t.1 < nq.numStates + 1) := hcond
              rcases List.mem_append.mp htm with hmem | hmem
              · exact Or.inl hmem
              · obtain ⟨hsrc, -, -, -⟩ := hsTq t hmem
                exfalso
                rcases hsrc with h5 | h5 <;> rcases hcond' with h0 | h0 | h0 | h0 <;> omega)
            (by
              intro e hem hcond
              replace hem : e ∈ dE0 := hem
              rw [hdE0] at hem
              have hcond' : e.1 = n.numStates ∨
                  (n.numStates + 1 ≤ e.1 ∧ e.1 < np.numStates) ∨ e.1 = f1 ∨
                  (nq.numStates ≤ e.1 ∧ e.1 < nq.numStates + 1) := hcond
              rcases List.mem_cons.mp hem with rfl | he1
              · have hcond2 : st = n.numStates ∨
                    (n.numStates + 1 ≤ st ∧ st < np.numStates) ∨ st = f1 ∨
                    (nq.numStates ≤ st ∧ st < nq.numStates + 1) := hcond'
                exfalso
                rcases hcond2 with h0 | h0 | h0 | h0 <;> omega
              rcases List.mem_append.mp he1 with hmem | he2
              · exact Or.inl hmem
              rcases List.mem_cons.mp he2 with rfl | he3
              · have hcond2 : st = n.numStates ∨
                    (n.numStates + 1 ≤ st ∧ st < np.numStates) ∨ st = f1 ∨
                    (nq.numStates ≤ st ∧ st < nq.numStates + 1) := hcond'
                exfalso
                rcases hcond2 with h0 | h0 | h0 | h0 <;> omega
              rcases List.mem_append.mp he3 with hmem | he4
              · obtain ⟨hsrc, -, -, -⟩ := hsEq e hmem
                exfalso
                rcases hsrc with h5 | h5 <;> rcases hcond' with h0 | h0 | h0 | h0 <;> omega
              rcases List.mem_cons.mp he4 with rfl | he5
              · exact Or.inr (by simp)
              rcases List.mem_cons.mp he5 with rfl | he6
              · have hcond2 : f2 = n.numStates ∨
                    (n.numStates + 1 ≤ f2 ∧ f2 < np.numStates) ∨ f2 = f1 ∨
                    (nq.numStates ≤ f2 ∧ f2 < nq.numStates + 1) := hcond'
                exfalso
                rcases hcond2 with h0 | h0 | h0 | h0 <;> omega
              · exact absurd he6 (List.not_mem_nil _))
            (by
              intro t htm
              obtain ⟨hsrc, hnf, h1, h2⟩ := hsTp t htm
              exact ⟨hsrc, hnf, h1, h2⟩)
            (by
              intro e hem
              obtain ⟨hsrc, hnf, h1, h2⟩ := hsEp e hem
              exact ⟨hsrc, hnf, h1, h2⟩)
            (by
              intro t htm
              exact absurd htm (List.not_mem_nil _))
            (by
              intro e hem
              replace hem : e ∈ [(f1, nq.numStates)] := hem
              rw [List.mem_singleton] at hem
              subst hem
              exact ⟨Or.inl rfl, Or.inr ⟨le_refl _, Nat.lt_succ_self _⟩⟩)
            (by
              intro s h1 h2
              obtain ⟨a1, a2⟩ := h1
              obtain ⟨b1, b2⟩ := h2
              omega)
            (by
              intro hB
              obtain ⟨b1, b2⟩ := hB
              omega)
            ⟨D2, D3⟩ (by omega) ⟨le_refl _, Nat.lt_succ_self _⟩ hrest
        have hv0 := (reach_single_eps hv).1
        subst hv0
        rw [List.append_nil]
        exact PatMatches.altL (fp.hsound u hu)
      · obtain ⟨u, v, rfl, hu, hv⟩ :=
          seq_split (deltaG S O (dTp ++ dTq) dE0) (deltaG S O dTq dEq)
            (deltaG S O ([] : List (Nat × SymbolRange S × Nat)) [(f2, nq.numStates)])
            (fun s => np.numStates + 1 ≤ s ∧ s < nq.numStates)
            (fun s => nq.numStates ≤ s ∧ s < nq.numStates + 1)
            np.numStates f2 nq.numStates
            (by
              intro t htm hcond
              replace htm : t ∈ dTp ++ dTq := htm
              have hcond' : t.1 = np.numStates ∨
                  (np.numStates + 1 ≤ t.1 ∧ t.1 < nq.numStates) ∨ t.1 = f2 ∨
                  (nq.numStates ≤ t.1 ∧ t.1 < nq.numStates + 1) := hcond
              rcases List.mem_append.mp htm with hmem | hmem
              · obtain ⟨hsrc, -, -, -⟩ := hsTp t hmem
                exfalso
                rcases hsrc with h5 | h5 <;> rcases hcond' with h0 | h0 | h0 | h0 <;> omega
              · exact Or.inl hmem)
            (by
              intro e hem hcond
              replace hem : e ∈ dE0 := hem
              rw [hdE0] at hem
              have hcond' : e.1 = np.numStates ∨
                  (np.numStates + 1 ≤ e.1 ∧ e.1 < nq.numStates) ∨ e.1 = f2 ∨
                  (nq.numStates ≤ e.1 ∧ e.1 < nq.numStates + 1) := hcond
              rcases List.mem_cons.mp hem with rfl | he1
              · have hcond2 : st = np.numStates ∨
                    (np.numStates + 1 ≤ st ∧ st < nq.numStates) ∨ st = f2 ∨
                    (nq.numStates ≤ st ∧ st < nq.numStates + 1) := hcond'
                exfalso
                rcases hcond2 with h0 | h0 | h0 | h0 <;> omega
              rcases List.mem_append.mp he1 with hmem | he2
              · obtain ⟨hsrc, -, -, -⟩ := hsEp e hmem
                exfalso
                rcases hsrc with h5 | h5 <;> rcases hcond' with h0 | h0 | h0 | h0 <;> omega
              rcases List.mem_cons.mp he2 with rfl | he3
              · have hcond2 : st = np.numStates ∨
                    (np.numStates + 1 ≤ st ∧ st < nq.numStates) ∨ st = f2 ∨
                    (nq.numStates ≤ st ∧ st < nq.numStates + 1) := hcond'
                exfalso
                rcases hcond2 with h0 | h0 | h0 | h0 <;> omega
              rcases List.mem_append.mp he3 with hmem | he4
              · exact Or.inl hmem
              rcases List.mem_cons.mp he4 with rfl | he5
              · have hcond2 : f1 = np.numStates ∨
                    (np.numStates + 1 ≤ f1 ∧ f1 < nq.numStates) ∨ f1 = f2 ∨
                    (nq.numStates ≤ f1 ∧ f1 < nq.numStates + 1) := hcond'
                exfalso
                rcases hcond2 with h0 | h0 | h0 | h0 <;> omega
              rcases List.mem_cons.mp he5 with rfl | he6
              · exact Or.inr (by simp)
              · exact absurd he6 (List.not_mem_nil _))
            (by
              intro t htm
              obtain ⟨hsrc, hnf, h1, h2⟩ := hsTq t htm
              exact ⟨hsrc, hnf, h1, h2⟩)
            (by
              intro e hem
              obtain ⟨hsrc, hnf, h1, h2⟩ := hsEq e hem
              exact ⟨hsrc, hnf, h1, h2⟩)
            (by
              intro t htm
              exact absurd htm (List.not_mem_nil _))
            (by
              intro e hem
              replace hem : e ∈ [(f2, nq.numStates)] := hem
              rw [List.mem_singleton] at hem
              subst hem
              exact ⟨Or.inl rfl, Or.inr ⟨le_refl _, Nat.lt_succ_self _⟩⟩)
            (by
              intro s h1 h2
              obtain ⟨a1, a2⟩ := h1
              obtain ⟨b1, b2⟩ := h2
              omega)
            (by
              intro hB
              obtain ⟨b1, b2⟩ := hB
              omega)
            ⟨D5, D6⟩ (by omega) ⟨le_refl _, Nat.lt_succ_self _⟩ hrest
        have hv0 := (reach_single_eps hv).1
        subst hv0
        rw [List.append_nil]
        exact PatMatches.altR (fq.hsound u hu)
    · replace htr : (st, r, b) ∈ dTp ++ dTq := htr
      rcases List.mem_append.mp htr with hmem | hmem
      · obtain ⟨hsrc, -, -, -⟩ := hsTp (st, r, b) hmem
        have hsrc' : st = n.numStates ∨
            (n.numStates + 1 ≤ st ∧ st < np.numStates) := hsrc
        exact absurd hsrc' (by omega)
      · obtain ⟨hsrc, -, -, -⟩ := hsTq (st, r, b) hmem
        have hsrc' : st = np.numStates ∨
            (np.numStates + 1 ≤ st ∧ st < nq.numStates) := hsrc
        exact absurd hsrc' (by omega)

theorem compOK_alt {S O : Type} [LinearOrder S] {p q : Pattern S}
    (hp : CompOK S O p) (hq : CompOK S O q) : CompOK S O (Pattern.alt p q) := by
  intro n st hst
  obtain ⟨dTp, dEp, fp⟩ := hp ((n.addState).1.addEpsilon st n.numStates) n.numStates
    (by simp)
  obtain ⟨dTq, dEq, fq⟩ :=
    hq (((p.compile ((n.addState).1.addEpsilon st n.numStates) n.numStates).1.addState).1.addEpsilon
        st (p.compile ((n.addState).1.addEpsilon st n.numStates) n.numStates).1.numStates)
      (p.compile ((n.addState).1.addEpsilon st n.numStates) n.numStates).1.numStates
      (by simp)
  exact ⟨_, _, altFragOK hst fp fq⟩

/-- One step of the literal chain: a fresh state reached from the current
accept on the single-symbol range. -/
def litStep {S O : Type} (acc : Ndfa S O × Nat) (c : S) : Ndfa S O × Nat :=
  ((acc.1.addState).1.addTransition acc.2 ⟨c, c⟩ (acc.1.addState).2, (acc.1.addState).2)

/-- The fold in the literal case of `compile` builds a simple chain accepting
exactly the literal word. -/
theorem lit_chain {S O : Type} [LinearOrder S] :
    ∀ (rest : List S) (c : S) (n : Ndfa S O) (st : Nat), st < n.numStates →
      ∃ dT, ((c :: rest).foldl litStep (n, st)).1.transitions = n.transitions ++ dT ∧
        ((c :: rest).foldl litStep (n, st)).1.epsilons = n.epsilons ∧
        ((c :: rest).foldl litStep (n, st)).1.outputs = n.outputs ∧
        ((c :: rest).foldl litStep (n, st)).1.numStates =
          n.numStates + (c :: rest).length ∧
        ((c :: rest).foldl litStep (n, st)).2 = n.numStates + rest.length ∧
        (∀ t ∈ dT, (t.1 = st ∨ (n.numStates ≤ t.1 ∧
          t.1 < n.numStates + (c :: rest).length)) ∧
          t.1 ≠ ((c :: rest).foldl litStep (n, st)).2 ∧
          n.numStates ≤ t.2.2 ∧ t.2.2 < n.numStates + (c :: rest).length) ∧
        (∀ w, NReach (deltaG S O dT []) st w (((c :: rest).foldl litStep (n, st)).2) ↔
          w = c :: rest) := by
  intro rest
  induction rest with
  | nil =>
    intro c n st hst
    have hFeq : ((c :: ([] : List S)).foldl litStep (n, st)).2 = n.numStates := rfl
    refine ⟨[(st, ⟨c, c⟩, n.numStates)], rfl, rfl, rfl, rfl, rfl, ?_, ?_⟩
    · intro t ht
      rw [List.mem_singleton] at ht
      subst ht
      have hcomb : (st = st ∨ (n.numStates ≤ st ∧ st < n.numStates + 1)) ∧
          st ≠ n.numStates ∧ n.numStates ≤ n.numStates ∧
          n.numStates < n.numStates + 1 := ⟨Or.inl rfl, by omega, by omega, by omega⟩
      exact hcomb
    · intro w
      constructor
      · intro h
        cases w with
        | nil =>
          have hfe : n.numStates = st := epsReach_of_no_eps rfl (NReach_nil_inv h)
          omega
        | cons ch rest' =>
          obtain ⟨a', r, b, hr, htm, hcont, hrest⟩ := NReach_cons_inv h
          have ha' : a' = st := epsReach_of_no_eps rfl hr
          rw [ha'] at htm
          simp only [deltaG_transitions, List.mem_singleton, Prod.mk.injEq] at htm
          obtain ⟨-, hre, hb⟩ := htm
          subst hre
          subst hb
          have hnt : ∀ t ∈ (deltaG S O [(st, (⟨c, c⟩ : SymbolRange S), n.numStates)]
              []).transitions, t.1 ≠ n.numStates := by
            intro t ht
            rw [deltaG_transitions, List.mem_singleton] at ht
            subst ht
            exact Nat.ne_of_lt hst
          have hne : ∀ e ∈ (deltaG S O [(st, (⟨c, c⟩ : SymbolRange S), n.numStates)]
              []).epsilons, e.1 ≠ n.numStates := by
            intro e he
            exact absurd he (List.not_mem_nil _)
          have hout := reach_no_out hnt hne hrest
          rw [hout.2]
          have hceq : ch = c := le_antisymm hcont.2 hcont.1
          rw [hceq]
      · intro hw
        subst hw
        have hmem : (st, (⟨c, c⟩ : SymbolRange S), n.numStates) ∈
            (deltaG S O [(st, ⟨c, c⟩, n.numStates)] []).transitions := by simp
        exact NReach.sym hmem ⟨le_refl c, le_refl c⟩ (NReach.nil _)
  | cons c2 rest2 ih =>
    intro c n st hst
    obtain ⟨dTr, hT, hEp, hOu, hNs, hF, hSh, hIff⟩ :=
      ih c2 (litStep (n, st) c).1 (litStep (n, st) c).2 (by
        show n.numStates < n.numStates + 1
        omega)
    have L1 : (litStep (n, st) c).1.transitions =
        n.transitions ++ [(st, ⟨c, c⟩, n.numStates)] := rfl
    have hT' : ((c2 :: rest2).foldl litStep (litStep (n, st) c)).1.transitions =
        (n.transitions ++ [(st, ⟨c, c⟩, n.numStates)]) ++ dTr := by
      rw [← L1]
      exact hT
    have hEp' : ((c2 :: rest2).foldl litStep (litStep (n, st) c)).1.epsilons =
        n.epsilons := hEp
    have hOu' : ((c2 :: rest2).foldl litStep (litStep (n, st) c)).1.outputs =
        n.outputs := hOu
    have hNs' : ((c2 :: rest2).foldl litStep (litStep (n, st) c)).1.numStates =
        (n.numStates + 1) + (c2 :: rest2).length := hNs
    have hF' : ((c2 :: rest2).foldl litStep (litStep (n, st) c)).2 =
        (n.numStates + 1) + rest2.length := hF
    have hSh' : ∀ t ∈ dTr, (t.1 = n.numStates ∨ (n.numStates + 1 ≤ t.1 ∧
        t.1 < (n.numStates + 1) + (c2 :: rest2).length)) ∧
        t.1 ≠ ((c2 :: rest2).foldl litStep (litStep (n, st) c)).2 ∧
        n.numStates + 1 ≤ t.2.2 ∧
        t.2.2 < (n.numStates + 1) + (c2 :: rest2).length := hSh
    have hIff' : ∀ w, NReach (deltaG S O dTr []) n.numStates w
        (((c2 :: rest2).foldl litStep (litStep (n, st) c)).2) ↔ w = c2 :: rest2 := hIff
    refine ⟨(st, ⟨c, c⟩, n.numStates) :: dTr, ?_, hEp', hOu', ?_, ?_, ?_, ?_⟩
    · show ((c2 :: rest2).foldl litStep (litStep (n, st) c)).1.transitions =
        n.transitions ++ ((st, ⟨c, c⟩, n.numStates) :: dTr)
      rw [hT']
      simp
    · show ((c2 :: rest2).foldl litStep (litStep (n, st) c)).1.numStates =
        n.numStates + (c :: c2 :: rest2).length
      rw [hNs']
      simp only [List.length_cons]
      omega
    · show ((c2 :: rest2).foldl litStep (litStep (n, st) c)).2 =
        n.numStates + (c2 :: rest2).length
      rw [hF']
      simp only [List.length_cons]
      omega
    · intro t ht
      simp only [List.length_cons]
      rcases List.mem_cons.mp ht with rfl | hmem
      · have hcomb : (st = st ∨ (n.numStates ≤ st ∧
            st < n.numStates + (rest2.length + 1 + 1))) ∧
            st ≠ ((c2 :: rest2).foldl litStep (litStep (n, st) c)).2 ∧
            n.numStates ≤ n.numStates ∧
            n.numStates < n.numStates + (rest2.length + 1 + 1) :=
          ⟨Or.inl rfl, by omega, by omega, by omega⟩
        exact hcomb
      · obtain ⟨hsrc, hnf, h1, h2⟩ := hSh' t hmem
        simp only [List.length_cons] at hsrc h2
        refine ⟨Or.inr (by omega), ?_, by omega, by omega⟩
        show t.1 ≠ ((c2 :: rest2).foldl litStep (litStep (n, st) c)).2
        exact hnf
    · intro w
      constructor
      · intro h
        cases w with
        | nil =>
          have hfe := epsReach_of_no_eps rfl (NReach_nil_inv h)
          have hfe' : ((c2 :: rest2).foldl litStep (litStep (n, st) c)).2 = st := hfe
          omega
        | cons ch w' =>
          obtain ⟨a', r, b, hr, htm, hcont, hrest⟩ := NReach_cons_inv h
          have ha' : a' = st := epsReach_of_no_eps rfl hr
          rw [ha'] at htm
          replace htm : (st, r, b) ∈ (st, (⟨c, c⟩ : SymbolRange S), n.numStates) :: dTr :=
            htm
          rcases List.mem_cons.mp htm with hh | hmem
          · rw [Prod.mk.injEq] at hh
            obtain ⟨-, hh2⟩ := hh
            rw [Prod.mk.injEq] at hh2
            obtain ⟨hre, hb⟩ := hh2
            subst hre
            subst hb
            have hceq : c = ch := le_antisymm hcont.1 hcont.2
            have hres : NReach (deltaG S O dTr []) n.numStates w'
                (((c2 :: rest2)).foldl litStep (litStep (n, st) c)).2 := by
              refine reach_restrict _ _ (fun s => n.numStates ≤ s) ?_ ?_ hrest (le_refl _)
              · intro t htt hc
                replace htt : t ∈ (st, (⟨c, c⟩ : SymbolRange S), n.numStates) :: dTr := htt
                rcases List.mem_cons.mp htt with rfl | hmem2
                · exfalso
                  have hc' : n.numStates ≤ st := hc
                  omega
                · obtain ⟨-, -, h1, -⟩ := hSh' t hmem2
                  exact ⟨hmem2, by omega⟩
              · intro e hee hc
                exact absurd hee (List.not_mem_nil _)
            have hw' := (hIff' w').mp hres
            rw [hw', ← hceq]
          · obtain ⟨hsrc, -, -, -⟩ := hSh' (st, r, b) hmem
            have hsrc' : st = n.numStates ∨ (n.numStates + 1 ≤ st ∧
                st < (n.numStates + 1) + (c2 :: rest2).length) := hsrc
            exact absurd hsrc' (by omega)
      · intro hw
        subst hw
        have hmem : (st, (⟨c, c⟩ : SymbolRange S), n.numStates) ∈
            (deltaG S O ((st, ⟨c, c⟩, n.numStates) :: dTr) []).transitions := by
          simp
        refine NReach.sym hmem ⟨le_refl c, le_refl c⟩ ?_
        have hbase := (hIff' (c2 :: rest2)).mpr rfl
        exact NReach_mono (fun t ht => List.mem_cons_of_mem _ ht)
          (fun e he => absurd he (List.not_mem_nil _)) hbase

theorem compOK_literal {S O : Type} [LinearOrder S] (syms : List S) :
    CompOK S O (Pattern.literal syms) := by
  intro n st hst
  cases syms with
  | nil =>
    refine ⟨[], [(st, n.numStates)], (List.append_nil _).symm, rfl, rfl,
      Nat.lt_succ_self _, le_refl _, Nat.lt_succ_self _, ?_, ?_, ?_, ?_⟩
    · intro t ht
      exact absurd ht (List.not_mem_nil _)
    · intro e he
      rw [List.mem_singleton] at he
      subst he
      exact ⟨Or.inl rfl, Nat.ne_of_lt hst, le_refl _, Nat.lt_succ_self _⟩
    · intro w hw
      have hw0 := patMatches_literal_inv hw
      subst hw0
      have hmem : (st, n.numStates) ∈
          (deltaG S O ([] : List (Nat × SymbolRange S × Nat))
            [(st, n.numStates)]).epsilons := by
        simp
      exact NReach.eps hmem (NReach.nil _)
    · intro w h
      cases w with
      | nil => exact PatMatches.literal
      | cons c rest =>
        obtain ⟨a', r, b, hr, htm, hcont, hrest⟩ := NReach_cons_inv h
        exact absurd htm (List.not_mem_nil _)
  | cons c rest =>
    obtain ⟨dT, hT, hEp, hOu, hNs, hF, hSh, hIff⟩ := lit_chain rest c n st hst
    rw [show (Pattern.literal (c :: rest)).compile n st =
      (c :: rest).foldl litStep (n, st) from rfl]
    refine ⟨dT, [], ?_, ?_, hOu, ?_, ?_, ?_, ?_, ?_, ?_, ?_⟩
    · exact hT
    · rw [hEp]
      exact (List.append_nil _).symm
    · show ((c :: rest).foldl litStep (n, st)).1.numStates > n.numStates
      rw [hNs]
      simp only [List.length_cons]
      omega
    · show n.numStates ≤ ((c :: rest).foldl litStep (n, st)).2
      rw [hF]
      omega
    · show ((c :: rest).foldl litStep (n, st)).2 <
        ((c :: rest).foldl litStep (n, st)).1.numStates
      rw [hF, hNs]
      simp only [List.length_cons]
      omega
    · intro t ht
      obtain ⟨hsrc, hnf, h1, h2⟩ := hSh t ht
      refine ⟨?_, hnf, ?_, ?_⟩
      · rcases hsrc with h0 | h0
        · exact Or.inl h0
        · refine Or.inr ⟨h0.1, ?_⟩
          rw [hNs]
          exact h0.2
      · exact h1
      · rw [hNs]
        exact h2
    · intro e he
      exact absurd he (List.not_mem_nil _)
    · intro w hw
      have hw0 := patMatches_literal_inv hw
      subst hw0
      exact (hIff _).mpr rfl
    · intro w h
      have hw := (hIff w).mp h
      rw [hw]
      exact PatMatches.literal

/-- Iterated compilation of `cnt` copies of a pattern forms a correct chain. -/
theorem iter_chainOK {S O : Type} [LinearOrder S] {p : Pattern S} (hp : CompOK S O p) :
    ∀ (cnt : Nat) (n : Ndfa S O) (st : Nat), st < n.numStates →
      ∃ dT dE, ChainOK p cnt st n
        (iterCompile (fun acc => p.compile acc.1 acc.2) cnt (n, st)).1
        (iterCompile (fun acc => p.compile acc.1 acc.2) cnt (n, st)).2 dT dE := by
  intro cnt
  induction cnt with
  | zero =>
    intro n st hst
    refine ⟨[], [], (List.append_nil _).symm, (List.append_nil _).symm, rfl, le_refl _,
      Or.inl ⟨rfl, rfl, rfl, rfl, rfl⟩, ?_, ?_, ?_, ?_⟩
    · intro t ht
      exact absurd ht (List.not_mem_nil _)
    · intro e he
      exact absurd he (List.not_mem_nil _)
    · intro w hw
      have h0 := PatPow_zero_inv hw
      subst h0
      exact NReach.nil _
    · intro w h
      have hout := reach_no_out (fun t ht => absurd ht (List.not_mem_nil _))
        (fun e he => absurd he (List.not_mem_nil _)) h
      rw [hout.2]
      exact PatPow.zero
  | succ cnt ih =>
    intro n st hst
    obtain ⟨dT1, dE1, f1ok⟩ := hp n st hst
    obtain ⟨dTc, dEc, cok⟩ := ih (p.compile n st).1 (p.compile n st).2 f1ok.hf2
    have D1 : n.numStates < (p.compile n st).1.numStates := f1ok.hns
    have D2 : n.numStates ≤ (p.compile n st).2 := f1ok.hf1
    have D3 : (p.compile n st).2 < (p.compile n st).1.numStates := f1ok.hf2
    have EQ1 : (iterCompile (fun acc => p.compile acc.1 acc.2) (cnt + 1)
        (n, st)).1.numStates = (iterCompile (fun acc => p.compile acc.1 acc.2) cnt
        (p.compile n st)).1.numStates := rfl
    have EQ2 : (iterCompile (fun acc => p.compile acc.1 acc.2) (cnt + 1) (n, st)).2 =
        (iterCompile (fun acc => p.compile acc.1 acc.2) cnt (p.compile n st)).2 := rfl
    have C1 : (iterCompile (fun acc => p.compile acc.1 acc.2) cnt
        (p.compile n st)).1.transitions = (p.compile n st).1.transitions ++ dTc := cok.hT
    have C2 : (iterCompile (fun acc => p.compile acc.1 acc.2) cnt
        (p.compile n st)).1.epsilons = (p.compile n st).1.epsilons ++ dEc := cok.hE
    have C3 : (iterCompile (fun acc => p.compile acc.1 acc.2) cnt
        (p.compile n st)).1.outputs = (p.compile n st).1.outputs := cok.hO
    have C4 : (p.compile n st).1.numStates ≤ (iterCompile (fun acc =>
        p.compile acc.1 acc.2) cnt (p.compile n st)).1.numStates := cok.hns
    have C5 : (cnt = 0 ∧ (iterCompile (fun acc => p.compile acc.1 acc.2) cnt
          (p.compile n st)).2 = (p.compile n st).2 ∧
        (iterCompile (fun acc => p.compile acc.1 acc.2) cnt
          (p.compile n st)).1 = (p.compile n st).1 ∧ dTc = [] ∧ dEc = []) ∨
        ((p.compile n st).1.numStates ≤ (iterCompile (fun acc =>
          p.compile acc.1 acc.2) cnt (p.compile n st)).2 ∧
        (iterCompile (fun acc => p.compile acc.1 acc.2) cnt (p.compile n st)).2 <
        (iterCompile (fun acc => p.compile acc.1 acc.2) cnt
          (p.compile n st)).1.numStates) := cok.hf
    have CsT : ∀ t ∈ dTc, (t.1 = (p.compile n st).2 ∨
        ((p.compile n st).1.numStates ≤ t.1 ∧ t.1 < (iterCompile (fun acc =>
          p.compile acc.1 acc.2) cnt (p.compile n st)).1.numStates)) ∧
        t.1 ≠ (iterCompile (fun acc => p.compile acc.1 acc.2) cnt
          (p.compile n st)).2 ∧
        (p.compile n st).1.numStates ≤ t.2.2 ∧ t.2.2 < (iterCompile (fun acc =>
          p.compile acc.1 acc.2) cnt (p.compile n st)).1.numStates := cok.hsT
    have CsE : ∀ e ∈ dEc, (e.1 = (p.compile n st).2 ∨
        ((p.compile n st).1.numStates ≤ e.1 ∧ e.1 < (iterCompile (fun acc =>
          p.compile acc.1 acc.2) cnt (p.compile n st)).1.numStates)) ∧
        e.1 ≠ (iterCompile (fun acc => p.compile acc.1 acc.2) cnt
          (p.compile n st)).2 ∧
        (p.compile n st).1.numStates ≤ e.2 ∧ e.2 < (iterCompile (fun acc =>
          p.compile acc.1 acc.2) cnt (p.compile n st)).1.numStates := cok.hsE
    refine ⟨dT1 ++ dTc, dE1 ++ dEc, ?_, ?_, ?_, ?_, ?_, ?_, ?_, ?_, ?_⟩
    · show (iterCompile (fun acc => p.compile acc.1 acc.2) cnt
        (p.compile n st)).1.transitions = n.transitions ++ (dT1 ++ dTc)
      rw [C1, f1ok.hT, List.append_assoc]
    · show (iterCompile (fun acc => p.compile acc.1 acc.2) cnt
        (p.compile n st)).1.epsilons = n.epsilons ++ (dE1 ++ dEc)
      rw [C2, f1ok.hE, List.append_assoc]
    · show (iterCompile (fun acc => p.compile acc.1 acc.2) cnt
        (p.compile n st)).1.outputs = n.outputs
      rw [C3, f1ok.hO]
    · show n.numStates ≤ (iterCompile (fun acc => p.compile acc.1 acc.2) cnt
        (p.compile n st)).1.numStates
      omega
    · refine Or.inr ?_
      show n.numStates ≤ (iterCompile (fun acc => p.compile acc.1 acc.2) cnt
          (p.compile n st)).2 ∧
        (iterCompile (fun acc => p.compile acc.1 acc.2) cnt (p.compile n st)).2 <
        (iterCompile (fun acc => p.compile acc.1 acc.2) cnt
          (p.compile n st)).1.numStates
      rcases C5 with ⟨-, hfc, hgr, -, -⟩ | ⟨h1, h2⟩
      · have hns2 := congrArg Ndfa.numStates hgr
        omega
      · omega
    · intro t ht
      rcases List.mem_append.mp ht with hmem | hmem
      · obtain ⟨hsrc, hnf, h1, h2⟩ := f1ok.hsT t hmem
        rcases C5 with ⟨-, hfc, hgr, -, -⟩ | ⟨g1, g2⟩
        · have hns2 := congrArg Ndfa.numStates hgr
          rcases hsrc with h0 | h0
          · exact ⟨Or.inl h0, by omega, by omega, by omega⟩
          · exact ⟨Or.inr (by omega), by omega, by omega, by omega⟩
        · rcases hsrc with h0 | h0
          · exact ⟨Or.inl h0, by omega, by omega, by omega⟩
          · exact ⟨Or.inr (by omega), by omega, by omega, by omega⟩
      · obtain ⟨hsrc, hnf, h1, h2⟩ := CsT t hmem
        rcases hsrc with h0 | h0
        · exact ⟨Or.inr (by omega), hnf, by omega, by omega⟩
        · exact ⟨Or.inr (by omega), hnf, by omega, by omega⟩
    · intro e he
      rcases List.mem_append.mp he with hmem | hmem
      · obtain ⟨hsrc, hnf, h1, h2⟩ := f1ok.hsE e hmem
        rcases C5 with ⟨-, hfc, hgr, -, -⟩ | ⟨g1, g2⟩
        · have hns2 := congrArg Ndfa.numStates hgr
          rcases hsrc with h0 | h0
          · exact ⟨Or.inl h0, by omega, by omega, by omega⟩
          · exact ⟨Or.inr (by omega), by omega, by omega, by omega⟩
        · rcases hsrc with h0 | h0
          · exact ⟨Or.inl h0, by omega, by omega, by omega⟩
          · exact ⟨Or.inr (by omega), by omega, by omega, by omega⟩
      · obtain ⟨hsrc, hnf, h1, h2⟩ := CsE e hmem
        rcases hsrc with h0 | h0
        · exact ⟨Or.inr (by omega), hnf, by omega, by omega⟩
        · exact ⟨Or.inr (by omega), hnf, by omega, by omega⟩
    · intro w hw
      obtain ⟨u, v, rfl, hm, hpow⟩ := PatPow_succ_inv hw
      have h1 : NReach (deltaG S O (dT1 ++ dTc) (dE1 ++ dEc)) st u
          (p.compile n st).2 :=
        NReach_mono (fun t ht => List.mem_append_left _ ht)
          (fun e he => List.mem_append_left _ he) (f1ok.hcomp u hm)
      have h2 : NReach (deltaG S O (dT1 ++ dTc) (dE1 ++ dEc)) (p.compile n st).2 v
          ((iterCompile (fun acc => p.compile acc.1 acc.2) cnt (p.compile n st)).2) :=
        NReach_mono (fun t ht => List.mem_append_right _ ht)
          (fun e he => List.mem_append_right _ he) (cok.hcomp v hpow)
      exact NReach_append h1 h2
    · intro w h
      rcases C5 with ⟨hc0, hfc, hgr, hdt, hde⟩ | ⟨g1, g2⟩
      · subst hc0
        subst hdt
        subst hde
        simp only [List.append_nil] at h
        have h' : NReach (deltaG S O dT1 dE1) st w (p.compile n st).2 := by
          rw [← hfc]
          exact h
        have hm := f1ok.hsound w h'
        have := PatPow.succ hm PatPow.zero
        simpa using this
      · obtain ⟨u, v, rfl, hu, hv⟩ :=
          seq_split (deltaG S O (dT1 ++ dTc) (dE1 ++ dEc)) (deltaG S O dT1 dE1)
            (deltaG S O dTc dEc)
            (fun s => n.numStates ≤ s ∧ s < (p.compile n st).1.numStates)
            (fun s => (p.compile n st).1.numStates ≤ s ∧ s < (iterCompile (fun acc =>
              p.compile acc.1 acc.2) cnt (p.compile n st)).1.numStates)
            st (p.compile n st).2
            (iterCompile (fun acc => p.compile acc.1 acc.2) cnt (p.compile n st)).2
            (by
              intro t htm hcond
              replace htm : t ∈ dT1 ++ dTc := htm
              rcases List.mem_append.mp htm with hmem | hmem
              · exact Or.inl hmem
              · exact Or.inr hmem)
            (by
              intro e hem hcond
              replace hem : e ∈ dE1 ++ dEc := hem
              rcases List.mem_append.mp hem with hmem | hmem
              · exact Or.inl hmem
              · exact Or.inr hmem)
            (by
              intro t htm
              obtain ⟨hsrc, hnf, h1, h2⟩ := f1ok.hsT t htm
              exact ⟨hsrc, hnf, h1, h2⟩)
            (by
              intro e hem
              obtain ⟨hsrc, hnf, h1, h2⟩ := f1ok.hsE e hem
              exact ⟨hsrc, hnf, h1, h2⟩)
            (by
              intro t htm
              obtain ⟨hsrc, hnf, h1, h2⟩ := CsT t htm
              exact ⟨hsrc, Or.inr ⟨h1, h2⟩⟩)
            (by
              intro e hem
              obtain ⟨hsrc, hnf, h1, h2⟩ := CsE e hem
              exact ⟨hsrc, Or.inr ⟨h1, h2⟩⟩)
            (by
              intro s h1 h2
              obtain ⟨a1, a2⟩ := h1
              obtain ⟨b1, b2⟩ := h2
              omega)
            (by
              intro hB
              obtain ⟨b1, b2⟩ := hB
              omega)
            ⟨D2, D3⟩ (by omega) ⟨g1, g2⟩ h
        exact PatPow.succ (f1ok.hsound u hu) (cok.hsound v hv)

/-- Inversion on the first step of a counted path. -/
theorem NReachN_step_inv {S O : Type} [LinearOrder S] {g : Ndfa S O} {cnt y x : Nat}
    {w : List S} (h : NReachN g cnt y w x) :
    (cnt = 0 ∧ x = y ∧ w = []) ∨
    (∃ k b, cnt = k + 1 ∧ (y, b) ∈ g.epsilons ∧ NReachN g k b w x) ∨
    (∃ k r b c w', cnt = k + 1 ∧ (y, r, b) ∈ g.transitions ∧ r.containsSym c ∧
      w = c :: w' ∧ NReachN g k b w' x) := by
  cases h with
  | nil => exact Or.inl ⟨rfl, rfl, rfl⟩
  | eps hedge hrest => exact Or.inr (Or.inl ⟨_, _, rfl, hedge, hrest⟩)
  | sym ht hc hrest => exact Or.inr (Or.inr ⟨_, _, _, _, _, rfl, ht, hc, rfl, hrest⟩)

/-- First passage through the loop body: a counted path from a body state to
the final accept must first reach the body accept and take the back-edge. -/
theorem loop_first_passage {S O : Type} [LinearOrder S]
    {dTl : List (Nat × SymbolRange S × Nat)} {dEl : List (Nat × Nat)}
    {m h fl f NS2 : Nat}
    (hh1 : m < h) (hf : f = NS2) (hfl1 : h + 1 ≤ fl) (hfl2 : fl < NS2)
    (hsT : ∀ t ∈ dTl, (t.1 = h ∨ (h + 1 ≤ t.1 ∧ t.1 < NS2)) ∧ t.1 ≠ fl ∧
      h + 1 ≤ t.2.2 ∧ t.2.2 < NS2)
    (hsE : ∀ e ∈ dEl, (e.1 = h ∨ (h + 1 ≤ e.1 ∧ e.1 < NS2)) ∧ e.1 ≠ fl ∧
      h + 1 ≤ e.2 ∧ e.2 < NS2) :
    ∀ cnt : Nat, (∀ y x : Nat, ∀ w : List S, h + 1 ≤ y → y < NS2 →
      NReachN (deltaG S O dTl ((m, h) :: (dEl ++ [(fl, h), (h, f)]))) cnt y w x →
      x = f →
      ∃ u v c2, w = u ++ v ∧ NReach (deltaG S O dTl dEl) y u fl ∧ c2 < cnt ∧
        NReachN (deltaG S O dTl ((m, h) :: (dEl ++ [(fl, h), (h, f)]))) c2 h v x) := by
  intro cnt
  induction cnt using Nat.strong_induction_on with
  | _ cnt ih =>
    intro y x w hy1 hy2 hr hx
    rcases NReachN_step_inv hr with ⟨-, hxy, -⟩ | ⟨k, b, hck, hedge, hrest⟩ |
      ⟨k, r, b, cc, w', hck, ht, hc, hw, hrest⟩
    · exfalso
      omega
    · subst hck
      replace hedge : (y, b) ∈ (m, h) :: (dEl ++ [(fl, h), (h, f)]) := hedge
      rcases List.mem_cons.mp hedge with hh | he1
      · rw [Prod.mk.injEq] at hh
        exact absurd hh.1 (by omega)
      rcases List.mem_append.mp he1 with hmem | he2
      · obtain ⟨-, -, hb1, hb2⟩ := hsE (y, b) hmem
        have hb1' : h + 1 ≤ b := hb1
        have hb2' : b < NS2 := hb2
        obtain ⟨u, v, c2, rfl, hu, hc2, hrest2⟩ := ih k (by omega) b x w hb1' hb2'
          hrest hx
        exact ⟨u, v, c2, rfl, NReach.eps hmem hu, by omega, hrest2⟩
      rcases List.mem_cons.mp he2 with hh | he3
      · rw [Prod.mk.injEq] at hh
        obtain ⟨hy, hb⟩ := hh
        subst hy
        subst hb
        exact ⟨[], w, k, rfl, NReach.nil _, by omega, hrest⟩
      rcases List.mem_cons.mp he3 with hh | he4
      · rw [Prod.mk.injEq] at hh
        exact absurd hh.1 (by omega)
      · exact absurd he4 (List.not_mem_nil _)
    · subst hck
      subst hw
      replace ht : (y, r, b) ∈ dTl := ht
      obtain ⟨-, -, hb1, hb2⟩ := hsT (y, r, b) ht
      have hb1' : h + 1 ≤ b := hb1
      have hb2' : b < NS2 := hb2
      obtain ⟨u, v, c2, rfl, hu, hc2, hrest2⟩ := ih k (by omega) b x w' hb1' hb2'
        hrest hx
      exact ⟨cc :: u, v, c2, rfl, NReach.sym ht hc hu, by omega, hrest2⟩

/-- Soundness of the loop part: every counted path from the hub state to the
final accept spells some number of repetitions of the body pattern. -/
theorem loop_aux_sound {S O : Type} [LinearOrder S] {p : Pattern S}
    {dTl : List (Nat × SymbolRange S × Nat)} {dEl : List (Nat × Nat)}
    {m h fl f NS2 : Nat}
    (hh1 : m < h) (hh2 : h < NS2) (hf : f = NS2) (hfl1 : h + 1 ≤ fl) (hfl2 : fl < NS2)
    (hsT : ∀ t ∈ dTl, (t.1 = h ∨ (h + 1 ≤ t.1 ∧ t.1 < NS2)) ∧ t.1 ≠ fl ∧
      h + 1 ≤ t.2.2 ∧ t.2.2 < NS2)
    (hsE : ∀ e ∈ dEl, (e.1 = h ∨ (h + 1 ≤ e.1 ∧ e.1 < NS2)) ∧ e.1 ≠ fl ∧
      h + 1 ≤ e.2 ∧ e.2 < NS2)
    (hsound : ∀ w, NReach (deltaG S O dTl dEl) h w fl → PatMatches p w) :
    ∀ cnt : Nat, (∀ w : List S,
      NReachN (deltaG S O dTl ((m, h) :: (dEl ++ [(fl, h), (h, f)]))) cnt h w f →
      ∃ j, PatPow p j w) := by
  intro cnt
  induction cnt using Nat.strong_induction_on with
  | _ cnt ih =>
    intro w hr
    rcases NReachN_step_inv hr with ⟨-, hxy, -⟩ | ⟨k, b, hck, hedge, hrest⟩ |
      ⟨k, r, b, cc, w', hck, ht, hc, hw, hrest⟩
    · exfalso
      omega
    · subst hck
      replace hedge : (h, b) ∈ (m, h) :: (dEl ++ [(fl, h), (h, f)]) := hedge
      rcases List.mem_cons.mp hedge with hh | he1
      · rw [Prod.mk.injEq] at hh
        exact absurd hh.1 (by omega)
      rcases List.mem_append.mp he1 with hmem | he2
      · obtain ⟨-, -, hb1, hb2⟩ := hsE (h, b) hmem
        have hb1' : h + 1 ≤ b := hb1
        have hb2' : b < NS2 := hb2
        obtain ⟨u, v, c2, rfl, hu, hc2, hrest2⟩ :=
          loop_first_passage hh1 hf hfl1 hfl2 hsT hsE k b f w hb1' hb2' hrest rfl
        have hmu : PatMatches p u := hsound u (NReach.eps hmem hu)
        obtain ⟨j, hj⟩ := ih c2 (by omega) v hrest2
        exact ⟨j + 1, PatPow.succ hmu hj⟩
      rcases List.mem_cons.mp he2 with hh | he3
      · rw [Prod.mk.injEq] at hh
        exact absurd hh.1 (by omega)
      rcases List.mem_cons.mp he3 with hh | he4
      · rw [Prod.mk.injEq] at hh
        obtain ⟨-, hb⟩ := hh
        rw [hb] at hrest
        rcases NReachN_step_inv hrest with ⟨-, -, hwnil⟩ | ⟨k2, b2, -, hedge2, -⟩ |
          ⟨k2, r2, b2, cc2, w2, -, ht2, -, -, -⟩
        · subst hwnil
          exact ⟨0, PatPow.zero⟩
        · replace hedge2 : (f, b2) ∈ (m, h) :: (dEl ++ [(fl, h), (h, f)]) := hedge2
          exfalso
          rcases List.mem_cons.mp hedge2 with hh2 | he21
          · rw [Prod.mk.injEq] at hh2
            omega
          rcases List.mem_append.mp he21 with hmem2 | he22
          · obtain ⟨hsrc, -, -, -⟩ := hsE (f, b2) hmem2
            have hsrc' : f = h ∨ (h + 1 ≤ f ∧ f < NS2) := hsrc
            omega
          rcases List.mem_cons.mp he22 with hh2 | he23
          · rw [Prod.mk.injEq] at hh2
            omega
          rcases List.mem_cons.mp he23 with hh2 | he24
          · rw [Prod.mk.injEq] at hh2
            omega
          · exact absurd he24 (List.not_mem_nil _)
        · replace ht2 : (f, r2, b2) ∈ dTl := ht2
          obtain ⟨hsrc, -, -, -⟩ := hsT (f, r2, b2) ht2
          have hsrc' : f = h ∨ (h + 1 ≤ f ∧ f < NS2) := hsrc
          exact absurd hsrc' (by omega)
      · exact absurd he4 (List.not_mem_nil _)
    · subst hck
      subst hw
      replace ht : (h, r, b) ∈ dTl := ht
      obtain ⟨-, -, hb1, hb2⟩ := hsT (h, r, b) ht
      have hb1' : h + 1 ≤ b := hb1
      have hb2' : b < NS2 := hb2
      obtain ⟨u, v, c2, rfl, hu, hc2, hrest2⟩ :=
        loop_first_passage hh1 hf hfl1 hfl2 hsT hsE k b f w' hb1' hb2' hrest rfl
      have hmu : PatMatches p (cc :: u) := hsound _ (NReach.sym ht hc hu)
      obtain ⟨j, hj⟩ := ih c2 (by omega) v hrest2
      exact ⟨j + 1, PatPow.succ hmu hj⟩

/-- Completeness of the loop part: any number of repetitions of the body is
spelled by a path from the hub to the final accept. -/
theorem loop_complete {S O : Type} [LinearOrder S] {p : Pattern S}
    {dTl : List (Nat × SymbolRange S × Nat)} {dEl : List (Nat × Nat)}
    {m h fl f : Nat}
    (hcomp : ∀ w, PatMatches p w → NReach (deltaG S O dTl dEl) h w fl) :
    ∀ (j : Nat) (v : List S), PatPow p j v →
      NReach (deltaG S O dTl ((m, h) :: (dEl ++ [(fl, h), (h, f)]))) h v f := by
  have hsubT : ∀ t ∈ (deltaG S O dTl dEl).transitions,
      t ∈ (deltaG S O dTl ((m, h) :: (dEl ++ [(fl, h), (h, f)]))).transitions :=
    fun t ht => ht
  have hsubE : ∀ e ∈ (deltaG S O dTl dEl).epsilons,
      e ∈ (deltaG S O dTl ((m, h) :: (dEl ++ [(fl, h), (h, f)]))).epsilons := by
    intro e he
    exact List.mem_cons_of_mem _ (List.mem_append_left _ he)
  have hmf : ((h, f) : Nat × Nat) ∈
      (deltaG S O dTl ((m, h) :: (dEl ++ [(fl, h), (h, f)]))).epsilons := by
    rw [deltaG_epsilons]
    simp
  have hmb : ((fl, h) : Nat × Nat) ∈
      (deltaG S O dTl ((m, h) :: (dEl ++ [(fl, h), (h, f)]))).epsilons := by
    rw [deltaG_epsilons]
    simp
  intro j
  induction j with
  | zero =>
    intro v hv
    have hv0 := PatPow_zero_inv hv
    subst hv0
    exact NReach.eps hmf (NReach.nil _)
  | succ j ihj =>
    intro v hv
    obtain ⟨u, v', rfl, hm, hp2⟩ := PatPow_succ_inv hv
    have h1 := NReach_mono hsubT hsubE (hcomp u hm)
    have h2 : NReach (deltaG S O dTl ((m, h) :: (dEl ++ [(fl, h), (h, f)]))) fl v' f :=
      NReach.eps hmb (ihj v' hp2)
    exact NReach_append h1 h2

/-- Soundness of the loop part from its entry `m`. -/
theorem loop_sound {S O : Type} [LinearOrder S] {p : Pattern S}
    {dTl : List (Nat × SymbolRange S × Nat)} {dEl : List (Nat × Nat)}
    {m h fl f NS2 : Nat}
    (hh1 : m < h) (hh2 : h < NS2) (hf : f = NS2) (hfl1 : h + 1 ≤ fl) (hfl2 : fl < NS2)
    (hsT : ∀ t ∈ dTl, (t.1 = h ∨ (h + 1 ≤ t.1 ∧ t.1 < NS2)) ∧ t.1 ≠ fl ∧
      h + 1 ≤ t.2.2 ∧ t.2.2 < NS2)
    (hsE : ∀ e ∈ dEl, (e.1 = h ∨ (h + 1 ≤ e.1 ∧ e.1 < NS2)) ∧ e.1 ≠ fl ∧
      h + 1 ≤ e.2 ∧ e.2 < NS2)
    (hsound : ∀ w, NReach (deltaG S O dTl dEl) h w fl → PatMatches p w) :
    ∀ w : List S,
      NReach (deltaG S O dTl ((m, h) :: (dEl ++ [(fl, h), (h, f)]))) m w f →
      ∃ j, PatPow p j w := by
  intro w h0
  rcases NReach_step_inv h0 with ⟨heq, -⟩ | ⟨b, hedge, hrest⟩ |
    ⟨r, b, cc, w', ht, -, -, -⟩
  · exfalso
    omega
  · replace hedge : (m, b) ∈ (m, h) :: (dEl ++ [(fl, h), (h, f)]) := hedge
    have hbh : b = h := by
      rcases List.mem_cons.mp hedge with hh | he1
      · rw [Prod.mk.injEq] at hh
        exact hh.2
      rcases List.mem_append.mp he1 with hmem | he2
      · obtain ⟨hsrc, -, -, -⟩ := hsE (m, b) hmem
        have hsrc' : m = h ∨ (h + 1 ≤ m ∧ m < NS2) := hsrc
        exact absurd hsrc' (by omega)
      rcases List.mem_cons.mp he2 with hh | he3
      · rw [Prod.mk.injEq] at hh
        exact absurd hh.1 (by omega)
      rcases List.mem_cons.mp he3 with hh | he4
      · rw [Prod.mk.injEq] at hh
        exact absurd hh.1 (by omega)
      · exact absurd he4 (List.not_mem_nil _)
    subst hbh
    obtain ⟨cnt, hcnt⟩ := nreach_iff_nreachN.mp hrest
    exact loop_aux_sound hh1 hh2 hf hfl1 hfl2 hsT hsE hsound cnt w hcnt
  · replace ht : (m, r, b) ∈ dTl := ht
    obtain ⟨hsrc, -, -, -⟩ := hsT (m, r, b) ht
    have hsrc' : m = h ∨ (h + 1 ≤ m ∧ m < NS2) := hsrc
    exact absurd hsrc' (by omega)

/-- The repetition language as powers of the body. -/
theorem patMatches_rep_iff {S : Type} [LinearOrder S] {p : Pattern S} {mn : Nat}
    {mx : Option Nat} {w : List S} :
    PatMatches (Pattern.rep p mn mx) w ↔
      ∃ jj, mn ≤ jj ∧ (∀ b, mx = some b → jj ≤ b) ∧ PatPow p jj w := by
  constructor
  · intro h
    cases h with
    | rep h1 h2 hall =>
      rename_i ws
      exact ⟨ws.length, h1, h2, ws, rfl, hall, rfl⟩
  · intro ⟨jj, h1, h2, ws, hlen, hall, hflat⟩
    subst hflat
    subst hlen
    exact PatMatches.rep h1 h2 hall

/-- The compiled unbounded-repetition fragment is correct, abstracted over the
mandatory chain and the loop copy: the chain accept feeds a fresh hub by an
ε-edge, one more copy loops from the hub back to itself, and the hub exits by
an ε-edge into a fresh accept. -/
theorem repNoneFragOK {S O : Type} [LinearOrder S] {p : Pattern S} {mn : Nat}
    {n nb nl : Ndfa S O} {st m fl : Nat}
    {dTb dTl : List (Nat × SymbolRange S × Nat)} {dEb dEl : List (Nat × Nat)}
    (hst : st < n.numStates)
    (cb : ChainOK p mn st n nb m dTb dEb)
    (flok : FragOK p nb.numStates ((nb.addState).1.addEpsilon m nb.numStates) nl fl
      dTl dEl) :
    FragOK (Pattern.rep p mn none) st n
      ((((nl.addEpsilon fl nb.numStates).addState).1).addEpsilon nb.numStates
        nl.numStates)
      nl.numStates (dTb ++ dTl)
      (dEb ++ ((m, nb.numStates) :: (dEl ++
        [(fl, nb.numStates), (nb.numStates, nl.numStates)]))) := by
  have B1 : n.numStates ≤ nb.numStates := cb.hns
  have D1 : nb.numStates + 1 < nl.numStates := flok.hns
  have D2 : nb.numStates + 1 ≤ fl := flok.hf1
  have D3 : fl < nl.numStates := flok.hf2
  have hm_lt : m < nb.numStates := by
    rcases cb.hf with ⟨-, hm0, hg, -, -⟩ | ⟨h1, h2⟩
    · have hgn := congrArg Ndfa.numStates hg
      omega
    · omega
  have e1 : nb.transitions = n.transitions ++ dTb := cb.hT
  have e2 : nl.transitions = nb.transitions ++ dTl := flok.hT
  have e3 : nb.epsilons = n.epsilons ++ dEb := cb.hE
  have e4 : nl.epsilons = (nb.epsilons ++ [(m, nb.numStates)]) ++ dEl := flok.hE
  have e5 : nb.outputs = n.outputs := cb.hO
  have e6 : nl.outputs = nb.outputs := flok.hO
  have hsTl : ∀ t ∈ dTl, (t.1 = nb.numStates ∨ (nb.numStates + 1 ≤ t.1 ∧
      t.1 < nl.numStates)) ∧ t.1 ≠ fl ∧ nb.numStates + 1 ≤ t.2.2 ∧
      t.2.2 < nl.numStates := flok.hsT
  have hsEl : ∀ e ∈ dEl, (e.1 = nb.numStates ∨ (nb.numStates + 1 ≤ e.1 ∧
      e.1 < nl.numStates)) ∧ e.1 ≠ fl ∧ nb.numStates + 1 ≤ e.2 ∧
      e.2 < nl.numStates := flok.hsE
  have hsoundl : ∀ w, NReach (deltaG S O dTl dEl) nb.numStates w fl →
      PatMatches p w := flok.hsound
  have hcompl : ∀ w, PatMatches p w →
      NReach (deltaG S O dTl dEl) nb.numStates w fl := flok.hcomp
  set dE0 := dEb ++ ((m, nb.numStates) :: (dEl ++
    [(fl, nb.numStates), (nb.numStates, nl.numStates)])) with hdE0
  have EN : (((((nl.addEpsilon fl nb.numStates).addState).1).addEpsilon nb.numStates
      nl.numStates)).numStates = nl.numStates + 1 := rfl
  refine ⟨?_, ?_, ?_, ?_, ?_, ?_, ?_, ?_, ?_, ?_⟩
  · show nl.transitions = n.transitions ++ (dTb ++ dTl)
    rw [e2, e1, List.append_assoc]
  · show (nl.epsilons ++ [(fl, nb.numStates)]) ++ [(nb.numStates, nl.numStates)] =
      n.epsilons ++ dE0
    rw [e4, e3, hdE0]
    simp
  · show nl.outputs = n.outputs
    rw [e6, e5]
  · show n.numStates < nl.numStates + 1
    omega
  · show n.numStates ≤ nl.numStates
    omega
  · show nl.numStates < nl.numStates + 1
    omega
  · intro t ht
    rcases List.mem_append.mp ht with hmem | hmem
    · obtain ⟨hsrc, hnf, h1, h2⟩ := cb.hsT t hmem
      rcases hsrc with h0 | h0
      · exact ⟨Or.inl h0, by omega, by omega, by omega⟩
      · exact ⟨Or.inr (by omega), by omega, by omega, by omega⟩
    · obtain ⟨hsrc, hnf, h1, h2⟩ := hsTl t hmem
      rcases hsrc with h0 | h0
      · exact ⟨Or.inr (by omega), by omega, by omega, by omega⟩
      · exact ⟨Or.inr (by omega), by omega, by omega, by omega⟩
  · intro e he
    rw [hdE0] at he
    rcases List.mem_append.mp he with hmem | he1
    · obtain ⟨hsrc, hnf, h1, h2⟩ := cb.hsE e hmem
      rcases hsrc with h0 | h0
      · exact ⟨Or.inl h0, by omega, by omega, by omega⟩
      · exact ⟨Or.inr (by omega), by omega, by omega, by omega⟩
    rcases List.mem_cons.mp he1 with rfl | he2
    · have hcomb : (m = st ∨ (n.numStates ≤ m ∧ m < nl.numStates + 1)) ∧
          m ≠ nl.numStates ∧ n.numStates ≤ nb.numStates ∧
          nb.numStates < nl.numStates + 1 := by
        refine ⟨?_, by omega, by omega, by omega⟩
        rcases cb.hf with ⟨-, hm0, -, -, -⟩ | ⟨h1, h2⟩
        · exact Or.inl hm0
        · exact Or.inr ⟨h1, by omega⟩
      exact hcomb
    rcases List.mem_append.mp he2 with hmem | he3
    · obtain ⟨hsrc, hnf, h1, h2⟩ := hsEl e hmem
      rcases hsrc with h0 | h0
      · exact ⟨Or.inr (by omega), by omega, by omega, by omega⟩
      · exact ⟨Or.inr (by omega), by omega, by omega, by omega⟩
    rcases List.mem_cons.mp he3 with rfl | he4
    · exact ⟨Or.inr (by omega), by omega, by omega, by omega⟩
    rcases List.mem_cons.mp he4 with rfl | he5
    · exact ⟨Or.inr (by omega), by omega, by omega, by omega⟩
    · exact absurd he5 (List.not_mem_nil _)
  · intro w hw
    obtain ⟨jj, hj1, -, hpw⟩ := patMatches_rep_iff.mp hw
    have hpw' : PatPow p (mn + (jj - mn)) w := by
      rw [Nat.add_sub_cancel' hj1]
      exact hpw
    obtain ⟨u, v, rfl, hu, hv⟩ := PatPow_split mn hpw'
    have hp1 : NReach (deltaG S O (dTb ++ dTl) dE0) st u m :=
      NReach_mono (fun t ht => List.mem_append_left _ ht)
        (fun e he => by
          rw [deltaG_epsilons, hdE0]
          exact List.mem_append_left _ he) (cb.hcomp u hu)
    have hmmem : ((m, nb.numStates) : Nat × Nat) ∈
        (deltaG S O (dTb ++ dTl) dE0).epsilons := by
      rw [deltaG_epsilons, hdE0]
      simp
    have hlp : NReach (deltaG S O dTl ((m, nb.numStates) :: (dEl ++
        [(fl, nb.numStates), (nb.numStates, nl.numStates)]))) nb.numStates v
        nl.numStates := loop_complete hcompl (jj - mn) v hv
    have hlp' : NReach (deltaG S O (dTb ++ dTl) dE0) nb.numStates v nl.numStates :=
      NReach_mono (fun t ht => List.mem_append_right _ ht)
        (fun e he => by
          rw [deltaG_epsilons, hdE0]
          exact List.mem_append_right _ he) hlp
    exact NReach_append hp1 (NReach.eps hmmem hlp')
  · intro w h
    rcases cb.hf with ⟨hmn0, hmst, hgr, hdtb, hdeb⟩ | ⟨g1m, g2m⟩
    · subst hmn0
      subst hdtb
      subst hdeb
      have hgn := congrArg Ndfa.numStates hgr
      replace h : NReach (deltaG S O dTl ((m, nb.numStates) :: (dEl ++
          [(fl, nb.numStates), (nb.numStates, nl.numStates)]))) st w nl.numStates := by
        simp only [List.nil_append] at h
        rw [hdE0] at h
        simp only [List.nil_append] at h
        exact h
      rw [← hmst] at h
      obtain ⟨j, hj⟩ := loop_sound hm_lt (by omega) rfl D2 D3 hsTl hsEl hsoundl w h
      exact patMatches_rep_iff.mpr ⟨j, by omega, fun b hb => Option.noConfusion hb, hj⟩
    · obtain ⟨u, v, rfl, hu, hv⟩ :=
        seq_split (deltaG S O (dTb ++ dTl) dE0) (deltaG S O dTb dEb)
          (deltaG S O dTl ((m, nb.numStates) :: (dEl ++
            [(fl, nb.numStates), (nb.numStates, nl.numStates)])))
          (fun s => n.numStates ≤ s ∧ s < nb.numStates)
          (fun s => nb.numStates ≤ s ∧ s < nl.numStates + 1)
          st m nl.numStates
          (by
            intro t htm hcond
            replace htm : t ∈ dTb ++ dTl := htm
            rcases List.mem_append.mp htm with hmem | hmem
            · exact Or.inl hmem
            · exact Or.inr hmem)
          (by
            intro e hem hcond
            replace hem : e ∈ dE0 := hem
            rw [hdE0] at hem
            rcases List.mem_append.mp hem with hmem | hmem
            · exact Or.inl hmem
            · exact Or.inr hmem)
          (by
            intro t htm
            obtain ⟨hsrc, hnf, h1, h2⟩ := cb.hsT t htm
            exact ⟨hsrc, hnf, h1, h2⟩)
          (by
            intro e hem
            obtain ⟨hsrc, hnf, h1, h2⟩ := cb.hsE e hem
            exact ⟨hsrc, hnf, h1, h2⟩)
          (by
            intro t htm
            obtain ⟨hsrc, hnf, h1, h2⟩ := hsTl t htm
            refine ⟨Or.inr ?_, Or.inr ?_⟩
            · rcases hsrc with h0 | h0 <;> exact ⟨by omega, by omega⟩
            · exact ⟨by omega, by omega⟩)
          (by
            intro e hem
            replace hem : e ∈ (m, nb.numStates) :: (dEl ++
              [(fl, nb.numStates), (nb.numStates, nl.numStates)]) := hem
            rcases List.mem_cons.mp hem with rfl | he1
            · have hcomb : (m = m ∨ (nb.numStates ≤ m ∧ m < nl.numStates + 1)) ∧
                  (nb.numStates = m ∨ (nb.numStates ≤ nb.numStates ∧
                    nb.numStates < nl.numStates + 1)) :=
                ⟨Or.inl rfl, Or.inr ⟨le_refl _, by omega⟩⟩
              exact hcomb
            rcases List.mem_append.mp he1 with hmem | he2
            · obtain ⟨hsrc, hnf, h1, h2⟩ := hsEl e hmem
              refine ⟨Or.inr ?_, Or.inr ?_⟩
              · rcases hsrc with h0 | h0 <;> exact ⟨by omega, by omega⟩
              · exact ⟨by omega, by omega⟩
            rcases List.mem_cons.mp he2 with rfl | he3
            · have hcomb : (fl = m ∨ (nb.numStates ≤ fl ∧ fl < nl.numStates + 1)) ∧
                  (nb.numStates = m ∨ (nb.numStates ≤ nb.numStates ∧
                    nb.numStates < nl.numStates + 1)) :=
                ⟨Or.inr ⟨by omega, by omega⟩, Or.inr ⟨le_refl _, by omega⟩⟩
              exact hcomb
            rcases List.mem_cons.mp he3 with rfl | he4
            · have hcomb : (nb.numStates = m ∨ (nb.numStates ≤ nb.numStates ∧
                  nb.numStates < nl.numStates + 1)) ∧
                  (nl.numStates = m ∨ (nb.numStates ≤ nl.numStates ∧
                    nl.numStates < nl.numStates + 1)) :=
                ⟨Or.inr ⟨le_refl _, by omega⟩, Or.inr ⟨by omega, by omega⟩⟩
              exact hcomb
            · exact absurd he4 (List.not_mem_nil _))
          (by
            intro s h1 h2
            obtain ⟨a1, a2⟩ := h1
            obtain ⟨b1, b2⟩ := h2
            omega)
          (by
            intro hB
            obtain ⟨b1, b2⟩ := hB
            omega)
          ⟨g1m, g2m⟩ (by omega) ⟨by omega, by omega⟩ h
      have hupow := cb.hsound u hu
      obtain ⟨j, hj⟩ := loop_sound hm_lt (by omega) rfl D2 D3 hsTl hsEl hsoundl v hv
      exact patMatches_rep_iff.mpr ⟨mn + j, by omega,
        fun b hb => Option.noConfusion hb, PatPow_append hupow hj⟩

/-- The compiled bounded-repetition fragment is correct, abstracted over the
mandatory chain and the optional chain: `k - mn` optional copies follow the
`mn` mandatory ones, and an ε-edge closes into a fresh accept. -/
theorem repSomeFragOK {S O : Type} [LinearOrder S] {p : Pattern S} {mn k : Nat}
    {n nb no : Ndfa S O} {st m mo : Nat}
    {dTb dTo : List (Nat × SymbolRange S × Nat)} {dEb dEo : List (Nat × Nat)}
    (hst : st < n.numStates) (hwfk : mn ≤ k)
    (cb : ChainOK p mn st n nb m dTb dEb)
    (co : ChainOK (Pattern.alt p Pattern.epsilon) (k - mn) m nb no mo dTo dEo) :
    FragOK (Pattern.rep p mn (some k)) st n
      ((no.addState).1.addEpsilon mo no.numStates) no.numStates
      (dTb ++ dTo) ((dEb ++ dEo) ++ [(mo, no.numStates)]) := by
  have B1 : n.numStates ≤ nb.numStates := cb.hns
  have B2 : nb.numStates ≤ no.numStates := co.hns
  have hm_facts : m = st ∨ (n.numStates ≤ m ∧ m < nb.numStates) := by
    rcases cb.hf with ⟨-, hm0, -, -, -⟩ | ⟨h1, h2⟩
    · exact Or.inl hm0
    · exact Or.inr ⟨h1, h2⟩
  have hmo_facts : mo = m ∨ (nb.numStates ≤ mo ∧ mo < no.numStates) := by
    rcases co.hf with ⟨-, hm0, -, -, -⟩ | ⟨h1, h2⟩
    · exact Or.inl hm0
    · exact Or.inr ⟨h1, h2⟩
  have e1 : nb.transitions = n.transitions ++ dTb := cb.hT
  have e2 : no.transitions = nb.transitions ++ dTo := co.hT
  have e3 : nb.epsilons = n.epsilons ++ dEb := cb.hE
  have e4 : no.epsilons = nb.epsilons ++ dEo := co.hE
  have e5 : nb.outputs = n.outputs := cb.hO
  have e6 : no.outputs = nb.outputs := co.hO
  have EN : (((no.addState).1).addEpsilon mo no.numStates).numStates =
      no.numStates + 1 := rfl
  have hmlt : m < nb.numStates ∨ (m = st ∧ nb = n) := by
    rcases cb.hf with ⟨-, hm0, hg, -, -⟩ | ⟨h1, h2⟩
    · exact Or.inr ⟨hm0, hg⟩
    · exact Or.inl h2
  have hm_lt : m < nb.numStates := by
    rcases hmlt with h0 | ⟨hm0, hg⟩
    · exact h0
    · have hgn := congrArg Ndfa.numStates hg
      omega
  refine ⟨?_, ?_, ?_, ?_, ?_, ?_, ?_, ?_, ?_, ?_⟩
  · show no.transitions = n.transitions ++ (dTb ++ dTo)
    rw [e2, e1, List.append_assoc]
  · show no.epsilons ++ [(mo, no.numStates)] =
      n.epsilons ++ ((dEb ++ dEo) ++ [(mo, no.numStates)])
    rw [e4, e3]
    simp
  · show no.outputs = n.outputs
    rw [e6, e5]
  · show n.numStates < no.numStates + 1
    omega
  · show n.numStates ≤ no.numStates
    omega
  · show no.numStates < no.numStates + 1
    omega
  · intro t ht
    rcases List.mem_append.mp ht with hmem | hmem
    · obtain ⟨hsrc, hnf, h1, h2⟩ := cb.hsT t hmem
      rcases hsrc with h0 | h0
      · exact ⟨Or.inl h0, by omega, by omega, by omega⟩
      · exact ⟨Or.inr (by omega), by omega, by omega, by omega⟩
    · obtain ⟨hsrc, hnf, h1, h2⟩ := co.hsT t hmem
      rcases hsrc with h0 | h0
      · rcases hm_facts with hm0 | hm0
        · exact ⟨Or.inl (h0.trans hm0), by omega, by omega, by omega⟩
        · exact ⟨Or.inr (by omega), by omega, by omega, by omega⟩
      · exact ⟨Or.inr (by omega), by omega, by omega, by omega⟩
  · intro e he
    rcases List.mem_append.mp he with he1 | he2
    · rcases List.mem_append.mp he1 with hmem | hmem
      · obtain ⟨hsrc, hnf, h1, h2⟩ := cb.hsE e hmem
        rcases hsrc with h0 | h0
        · exact ⟨Or.inl h0, by omega, by omega, by omega⟩
        · exact ⟨Or.inr (by omega), by omega, by omega, by omega⟩
      · obtain ⟨hsrc, hnf, h1, h2⟩ := co.hsE e hmem
        rcases hsrc with h0 | h0
        · rcases hm_facts with hm0 | hm0
          · exact ⟨Or.inl (h0.trans hm0), by omega, by omega, by omega⟩
          · exact ⟨Or.inr (by omega), by omega, by omega, by omega⟩
        · exact ⟨Or.inr (by omega), by omega, by omega, by omega⟩
    · rw [List.mem_singleton] at he2
      subst he2
      have hcomb : (mo = st ∨ (n.numStates ≤ mo ∧ mo < no.numStates + 1)) ∧
          mo ≠ no.numStates ∧ n.numStates ≤ no.numStates ∧
          no.numStates < no.numStates + 1 := by
        refine ⟨?_, ?_, by omega, by omega⟩
        · rcases hmo_facts with h0 | h0
          · rcases hm_facts with hm0 | hm0
            · exact Or.inl (h0.trans hm0)
            · exact Or.inr ⟨by omega, by omega⟩
          · exact Or.inr ⟨by omega, by omega⟩
        · rcases hmo_facts with h0 | h0
          · omega
          · omega
      exact hcomb
  · intro w hw
    obtain ⟨jj, hj1, hj2, hpw⟩ := patMatches_rep_iff.mp hw
    have hjk : jj ≤ k := hj2 k rfl
    have hpw' : PatPow p (mn + (jj - mn)) w := by
      rw [Nat.add_sub_cancel' hj1]
      exact hpw
    obtain ⟨u, v, rfl, hu, hv⟩ := PatPow_split mn hpw'
    have hvE : PatPow (Pattern.alt p Pattern.epsilon) (k - mn) v :=
      PatPow_altE.mpr ⟨jj - mn, by omega, hv⟩
    have hp1 : NReach (deltaG S O (dTb ++ dTo)
        ((dEb ++ dEo) ++ [(mo, no.numStates)])) st u m :=
      NReach_mono (fun t ht => List.mem_append_left _ ht)
        (fun e he => List.mem_append_left _ (List.mem_append_left _ he))
        (cb.hcomp u hu)
    have hp2 : NReach (deltaG S O (dTb ++ dTo)
        ((dEb ++ dEo) ++ [(mo, no.numStates)])) m v mo :=
      NReach_mono (fun t ht => List.mem_append_right _ ht)
        (fun e he => List.mem_append_left _ (List.mem_append_right _ he))
        (co.hcomp v hvE)
    have hmmem : ((mo, no.numStates) : Nat × Nat) ∈
        (deltaG S O (dTb ++ dTo) ((dEb ++ dEo) ++ [(mo, no.numStates)])).epsilons := by
      rw [deltaG_epsilons]
      simp
    have hfin := NReach_append hp1 (NReach_append hp2
      (NReach.eps hmmem (NReach.nil no.numStates)))
    simpa using hfin
  · intro w h
    rcases co.hf with ⟨hcnt0, hmo0, hgro, hdto, hdeo⟩ | ⟨g1o, g2o⟩
    · subst hdto
      subst hdeo
      rcases cb.hf with ⟨hmn0, hm0, hgr, hdtb, hdeb⟩ | ⟨g1m, g2m⟩
      · subst hdtb
        subst hdeb
        replace h : NReach (deltaG S O ([] : List (Nat × SymbolRange S × Nat))
            [(mo, no.numStates)]) st w no.numStates := by
          simp only [List.append_nil, List.nil_append] at h
          exact h
        obtain ⟨hwnil, hcases⟩ := reach_single_eps h
        subst hwnil
        refine patMatches_rep_iff.mpr ⟨mn, le_refl _, fun b hb => ?_, ?_⟩
        · injection hb with hb2
          omega
        · rw [hmn0]
          exact PatPow.zero
      · replace h : NReach (deltaG S O (dTb ++ []) ((dEb ++ []) ++
            [(mo, no.numStates)])) st w no.numStates := h
        simp only [List.append_nil] at h
        obtain ⟨u, v, rfl, hu, hv⟩ :=
          seq_split (deltaG S O dTb (dEb ++ [(mo, no.numStates)]))
            (deltaG S O dTb dEb)
            (deltaG S O ([] : List (Nat × SymbolRange S × Nat)) [(mo, no.numStates)])
            (fun s => n.numStates ≤ s ∧ s < nb.numStates)
            (fun s => no.numStates ≤ s ∧ s < no.numStates + 1)
            st m no.numStates
            (by
              intro t htm hcond
              exact Or.inl htm)
            (by
              intro e hem hcond
              replace hem : e ∈ dEb ++ [(mo, no.numStates)] := hem
              rcases List.mem_append.mp hem with hmem | hmem
              · exact Or.inl hmem
              · exact Or.inr hmem)
            (by
              intro t htm
              obtain ⟨hsrc, hnf, h1, h2⟩ := cb.hsT t htm
              exact ⟨hsrc, hnf, h1, h2⟩)
            (by
              intro e hem
              obtain ⟨hsrc, hnf, h1, h2⟩ := cb.hsE e hem
              exact ⟨hsrc, hnf, h1, h2⟩)
            (by
              intro t htm
              exact absurd htm (List.not_mem_nil _))
            (by
              intro e hem
              replace hem : e ∈ [(mo, no.numStates)] := hem
              rw [List.mem_singleton] at hem
              subst hem
              have hgn := congrArg Ndfa.numStates hgro
              have hcomb : (mo = m ∨ (no.numStates ≤ mo ∧ mo < no.numStates + 1)) ∧
                  (no.numStates = m ∨ (no.numStates ≤ no.numStates ∧
                    no.numStates < no.numStates + 1)) :=
                ⟨Or.inl hmo0, Or.inr ⟨le_refl _, by omega⟩⟩
              exact hcomb)
            (by
              intro s h1 h2
              obtain ⟨a1, a2⟩ := h1
              obtain ⟨b1, b2⟩ := h2
              have hgn := congrArg Ndfa.numStates hgro
              omega)
            (by
              intro hB
              obtain ⟨b1, b2⟩ := hB
              omega)
            ⟨g1m, g2m⟩ (by omega) ⟨le_refl _, by omega⟩ h
        obtain ⟨hvnil, -⟩ := reach_single_eps hv
        subst hvnil
        rw [List.append_nil]
        exact patMatches_rep_iff.mpr ⟨mn, le_refl _,
          fun b hb => by injection hb with hb2; omega, cb.hsound u hu⟩
    · obtain ⟨u, v, rfl, hu, hv⟩ :=
        seq_split (deltaG S O (dTb ++ dTo) ((dEb ++ dEo) ++ [(mo, no.numStates)]))
          (deltaG S O (dTb ++ dTo) (dEb ++ dEo))
          (deltaG S O ([] : List (Nat × SymbolRange S × Nat)) [(mo, no.numStates)])
          (fun s => n.numStates ≤ s ∧ s < no.numStates)
          (fun s => no.numStates ≤ s ∧ s < no.numStates + 1)
          st mo no.numStates
          (by
            intro t htm hcond
            exact Or.inl htm)
          (by
            intro e hem hcond
            replace hem : e ∈ (dEb ++ dEo) ++ [(mo, no.numStates)] := hem
            rcases List.mem_append.mp hem with hmem | hmem
            · exact Or.inl hmem
            · exact Or.inr hmem)
          (by
            intro t htm
            replace htm : t ∈ dTb ++ dTo := htm
            rcases List.mem_append.mp htm with hmem | hmem
            · obtain ⟨hsrc, hnf, h1, h2⟩ := cb.hsT t hmem
              rcases hsrc with h0 | h0
              · exact ⟨Or.inl h0, by omega, by omega, by omega⟩
              · exact ⟨Or.inr ⟨by omega, by omega⟩, by omega, by omega, by omega⟩
            · obtain ⟨hsrc, hnf, h1, h2⟩ := co.hsT t hmem
              rcases hsrc with h0 | h0
              · rcases hm_facts with hm0 | hm0
                · exact ⟨Or.inl (h0.trans hm0), by omega, by omega, by omega⟩
                · exact ⟨Or.inr ⟨by omega, by omega⟩, by omega, by omega, by omega⟩
              · exact ⟨Or.inr ⟨by omega, by omega⟩, by omega, by omega, by omega⟩)
          (by
            intro e hem
            replace hem : e ∈ dEb ++ dEo := hem
            rcases List.mem_append.mp hem with hmem | hmem
            · obtain ⟨hsrc, hnf, h1, h2⟩ := cb.hsE e hmem
              rcases hsrc with h0 | h0
              · exact ⟨Or.inl h0, by omega, by omega, by omega⟩
              · exact ⟨Or.inr ⟨by omega, by omega⟩, by omega, by omega, by omega⟩
            · obtain ⟨hsrc, hnf, h1, h2⟩ := co.hsE e hmem
              rcases hsrc with h0 | h0
              · rcases hm_facts with hm0 | hm0
                · exact ⟨Or.inl (h0.trans hm0), by omega, by omega, by omega⟩
                · exact ⟨Or.inr ⟨by omega, by omega⟩, by omega, by omega, by omega⟩
              · exact ⟨Or.inr ⟨by omega, by omega⟩, by omega, by omega, by omega⟩)
          (by
            intro t htm
            exact absurd htm (List.not_mem_nil _))
          (by
            intro e hem
            replace hem : e ∈ [(mo, no.numStates)] := hem
            rw [List.mem_singleton] at hem
            subst hem
            exact ⟨Or.inl rfl, Or.inr ⟨le_refl _, by omega⟩⟩)
          (by
            intro s h1 h2
            obtain ⟨a1, a2⟩ := h1
            obtain ⟨b1, b2⟩ := h2
            omega)
          (by
            intro hB
            obtain ⟨b1, b2⟩ := hB
            omega)
          ⟨by omega, by omega⟩ (by omega) ⟨le_refl _, by omega⟩ h
      obtain ⟨hvnil, -⟩ := reach_single_eps hv
      subst hvnil
      rw [List.append_nil]
      rcases cb.hf with ⟨hmn0, hm0, hgr, hdtb, hdeb⟩ | ⟨g1m, g2m⟩
      · subst hdtb
        subst hdeb
        replace hu : NReach (deltaG S O dTo dEo) m u mo := by
          simp only [List.nil_append] at hu
          rw [← hm0] at hu
          exact hu
        obtain ⟨j, hjle, hjp⟩ := PatPow_altE.mp (co.hsound u hu)
        exact patMatches_rep_iff.mpr ⟨j, by omega,
          fun b hb => by injection hb with hb2; omega, hjp⟩
      · obtain ⟨u1, u2, rfl, hu1, hu2⟩ :=
          seq_split (deltaG S O (dTb ++ dTo) (dEb ++ dEo)) (deltaG S O dTb dEb)
            (deltaG S O dTo dEo)
            (fun s => n.numStates ≤ s ∧ s < nb.numStates)
            (fun s => nb.numStates ≤ s ∧ s < no.numStates)
            st m mo
            (by
              intro t htm hcond
              replace htm : t ∈ dTb ++ dTo := htm
              rcases List.mem_append.mp htm with hmem | hmem
              · exact Or.inl hmem
              · exact Or.inr hmem)
            (by
              intro e hem hcond
              replace hem : e ∈ dEb ++ dEo := hem
              rcases List.mem_append.mp hem with hmem | hmem
              · exact Or.inl hmem
              · exact Or.inr hmem)
            (by
              intro t htm
              obtain ⟨hsrc, hnf, h1, h2⟩ := cb.hsT t htm
              exact ⟨hsrc, hnf, h1, h2⟩)
            (by
              intro e hem
              obtain ⟨hsrc, hnf, h1, h2⟩ := cb.hsE e hem
              exact ⟨hsrc, hnf, h1, h2⟩)
            (by
              intro t htm
              obtain ⟨hsrc, hnf, h1, h2⟩ := co.hsT t htm
              exact ⟨hsrc, Or.inr ⟨h1, h2⟩⟩)
            (by
              intro e hem
              obtain ⟨hsrc, hnf, h1, h2⟩ := co.hsE e hem
              exact ⟨hsrc, Or.inr ⟨h1, h2⟩⟩)
            (by
              intro s h1 h2
              obtain ⟨a1, a2⟩ := h1
              obtain ⟨b1, b2⟩ := h2
              omega)
            (by
              intro hB
              obtain ⟨b1, b2⟩ := hB
              omega)
            ⟨g1m, g2m⟩ (by omega) ⟨g1o, g2o⟩ hu
        obtain ⟨j, hjle, hjp⟩ := PatPow_altE.mp (co.hsound u2 hu2)
        exact patMatches_rep_iff.mpr ⟨mn + j, by omega,
          fun b hb => by injection hb with hb2; omega,
          PatPow_append (cb.hsound u1 hu1) hjp⟩

/-- Compilation is correct for every well-formed pattern: the added edges
connect the entry to the fresh accept on exactly the words the pattern
matches. -/
theorem compile_ok {S O : Type} [LinearOrder S] :
    ∀ p : Pattern S, p.wf → CompOK S O p := by
  intro p
  induction p with
  | matchRange lo hi =>
    intro hw
    exact compOK_matchRange lo hi
  | epsilon =>
    intro hw
    exact compOK_epsilon
  | concat p q ihp ihq =>
    intro hwf
    exact compOK_concat (ihp hwf.1) (ihq hwf.2)
  | alt p q ihp ihq =>
    intro hwf
    exact compOK_alt (ihp hwf.1) (ihq hwf.2)
  | rep p mn mx ihp =>
    intro hwf
    intro n st hst
    obtain ⟨dTb, dEb, cb⟩ := iter_chainOK (ihp hwf.1) mn n st hst
    cases mx with
    | none =>
      obtain ⟨dTl, dEl, flok⟩ := ihp hwf.1
        (((iterCompile (fun acc => p.compile acc.1 acc.2) mn
            (n, st)).1.addState).1.addEpsilon
          (iterCompile (fun acc => p.compile acc.1 acc.2) mn (n, st)).2
          (iterCompile (fun acc => p.compile acc.1 acc.2) mn (n, st)).1.numStates)
        (iterCompile (fun acc => p.compile acc.1 acc.2) mn (n, st)).1.numStates
        (by
          show (iterCompile (fun acc => p.compile acc.1 acc.2) mn
            (n, st)).1.numStates < (iterCompile (fun acc => p.compile acc.1 acc.2) mn
            (n, st)).1.numStates + 1
          omega)
      exact ⟨_, _, repNoneFragOK hst cb flok⟩
    | some k =>
      have hk : mn ≤ k := hwf.2 k rfl
      have hstart : (iterCompile (fun acc => p.compile acc.1 acc.2) mn (n, st)).2 <
          (iterCompile (fun acc => p.compile acc.1 acc.2) mn (n, st)).1.numStates := by
        rcases cb.hf with ⟨-, hm0, hgr, -, -⟩ | ⟨h1, h2⟩
        · have hgn := congrArg Ndfa.numStates hgr
          omega
        · exact h2
      obtain ⟨dTo, dEo, co⟩ :=
        iter_chainOK (compOK_alt (ihp hwf.1) compOK_epsilon) (k - mn)
          (iterCompile (fun acc => p.compile acc.1 acc.2) mn (n, st)).1
          (iterCompile (fun acc => p.compile acc.1 acc.2) mn (n, st)).2 hstart
      exact ⟨_, _, repSomeFragOK hst hk cb co⟩
  | literal syms =>
    intro hw
    exact compOK_literal syms

/-- One step of `Tokenizer::to_ndfa`: compile a pattern from the shared start
state 0 and set its accept state's output. -/
def buildStep {S O : Type} [LinearOrder S] (n : Ndfa S O) (po : Pattern S × O) :
    Ndfa S O :=
  (po.1.compile n 0).1.setOutput (po.1.compile n 0).2 po.2

/-- Invariant of the graphs arising while building a tokenizer NDFA: state 0
exists, all edges stay below the state count and never come back to 0, and all
outputs sit on states other than 0. -/
def BInv {S O : Type} (g : Ndfa S O) : Prop :=
  0 < g.numStates ∧
  (∀ t ∈ g.transitions, t.1 < g.numStates ∧ 1 ≤ t.2.2 ∧ t.2.2 < g.numStates) ∧
  (∀ e ∈ g.epsilons, e.1 < g.numStates ∧ 1 ≤ e.2 ∧ e.2 < g.numStates) ∧
  (∀ so ∈ g.outputs, 1 ≤ so.1 ∧ so.1 < g.numStates)

theorem BInv_new (S O : Type) : BInv (Ndfa.new S O) := by
  refine ⟨Nat.one_pos, ?_, ?_, ?_⟩ <;>
    (intro x hx; exact absurd hx (List.not_mem_nil _))

/-- `output_symbol_for_state` only reports recorded outputs. -/
theorem outputFor_mem {S O : Type} (g : Ndfa S O) (x : Nat) (o : O)
    (h : g.outputFor x = some o) : (x, o) ∈ g.outputs := by
  unfold Ndfa.outputFor at h
  cases hf : g.outputs.reverse.find? (fun q => q.1 == x) with
  | none =>
    rw [hf] at h
    exact Option.noConfusion h
  | some q =>
    rw [hf] at h
    have hq1 := List.find?_some hf
    have hq2 : q ∈ g.outputs.reverse := List.mem_of_find?_eq_some hf
    have hq1' : q.1 = x := by simpa using hq1
    have hq3 : q.2 = o := by
      injection h with h2
    have hq : q = (x, o) := by
      rw [← hq1', ← hq3]
    rw [← hq]
    exact List.mem_reverse.mp hq2

/-- Appending outputs for other states does not change a lookup. -/
theorem outputFor_append_ne {S O : Type} {g g' : Ndfa S O} {extra : List (Nat × O)}
    (hout : g'.outputs = g.outputs ++ extra) {x : Nat}
    (hx : ∀ so ∈ extra, so.1 ≠ x) : g'.outputFor x = g.outputFor x := by
  unfold Ndfa.outputFor
  rw [hout, List.reverse_append, List.find?_append]
  have h1 : extra.reverse.find? (fun q => q.1 == x) = none := by
    rw [List.find?_eq_none]
    intro q hq
    have := hx q (List.mem_reverse.mp hq)
    simpa using this
  rw [h1]
  rfl

/-- The lookup finds the last recorded output when every later record is for
another state. -/
theorem outputFor_of_append {S O : Type} {g' : Ndfa S O} {pre post : List (Nat × O)}
    {f : Nat} {o : O} (hout : g'.outputs = (pre ++ [(f, o)]) ++ post)
    (hpost : ∀ so ∈ post, so.1 ≠ f) : g'.outputFor f = some o := by
  unfold Ndfa.outputFor
  rw [hout, List.reverse_append, List.find?_append]
  have h1 : post.reverse.find? (fun q => q.1 == f) = none := by
    rw [List.find?_eq_none]
    intro q hq
    have := hpost q (List.mem_reverse.mp hq)
    simpa using this
  rw [h1]
  rw [List.reverse_append]
  have h2 : ([(f, o)] : List (Nat × O)).reverse = [(f, o)] := rfl
  rw [h2]
  have h3 : ((f, o) :: pre.reverse).find? (fun q => q.1 == f) = some (f, o) := by
    simp
  have h4 : ([(f, o)] ++ pre.reverse).find? (fun q => q.1 == f) = some (f, o) := h3
  rw [h4]
  rfl

/-- Targets of a graph constrain where paths can end. -/
theorem reach_endpoint {S O : Type} [LinearOrder S] {g : Ndfa S O} (C : Nat → Prop)
    (ht : ∀ t ∈ g.transitions, C t.2.2) (he : ∀ e ∈ g.epsilons, C e.2)
    {y x : Nat} {w : List S} (h : NReach g y w x) (hy : C y) : C x := by
  induction h with
  | nil => exact hy
  | eps hedge _ ih => exact ih (he _ hedge)
  | sym htr _ _ ih => exact ih (ht _ htr)

/-- One build step preserves the invariant. -/
theorem BInv_step {S O : Type} [LinearOrder S] {g : Ndfa S O} (hi : BInv g)
    {p : Pattern S} (hw : p.wf) (o : O) : BInv (buildStep g (p, o)) := by
  obtain ⟨dT, dE, fok⟩ := compile_ok p hw g 0 hi.1
  have hT : (buildStep g (p, o)).transitions = g.transitions ++ dT := fok.hT
  have hE : (buildStep g (p, o)).epsilons = g.epsilons ++ dE := fok.hE
  have hO : (buildStep g (p, o)).outputs =
      g.outputs ++ [((p.compile g 0).2, o)] := by
    show ((p.compile g 0).1.setOutput (p.compile g 0).2 o).outputs = _
    rw [setOutput_outputs, fok.hO]
  have hN : (buildStep g (p, o)).numStates = (p.compile g 0).1.numStates := rfl
  have D1 : g.numStates < (p.compile g 0).1.numStates := fok.hns
  have D2 : g.numStates ≤ (p.compile g 0).2 := fok.hf1
  have D3 : (p.compile g 0).2 < (p.compile g 0).1.numStates := fok.hf2
  obtain ⟨hi0, hiT, hiE, hiO⟩ := hi
  refine ⟨by omega, ?_, ?_, ?_⟩
  · intro t htm
    rw [hT] at htm
    rw [hN]
    rcases List.mem_append.mp htm with hmem | hmem
    · obtain ⟨a1, a2, a3⟩ := hiT t hmem
      exact ⟨by omega, by omega, by omega⟩
    · obtain ⟨hsrc, -, h1, h2⟩ := fok.hsT t hmem
      rcases hsrc with h0 | h0
      · exact ⟨by omega, by omega, by omega⟩
      · exact ⟨by omega, by omega, by omega⟩
  · intro e hem
    rw [hE] at hem
    rw [hN]
    rcases List.mem_append.mp hem with hmem | hmem
    · obtain ⟨a1, a2, a3⟩ := hiE e hmem
      exact ⟨by omega, by omega, by omega⟩
    · obtain ⟨hsrc, -, h1, h2⟩ := fok.hsE e hmem
      rcases hsrc with h0 | h0
      · exact ⟨by omega, by omega, by omega⟩
      · exact ⟨by omega, by omega, by omega⟩
  · intro so hso
    rw [hO] at hso
    rw [hN]
    rcases List.mem_append.mp hso with hmem | hmem
    · obtain ⟨a1, a2⟩ := hiO so hmem
      exact ⟨by omega, by omega⟩
    · rw [List.mem_singleton] at hmem
      subst hmem
      exact ⟨by omega, by omega⟩

/-- The whole build extends the graph, keeps the invariant, and only adds
outputs on fresh states. -/
theorem fold_facts {S O : Type} [LinearOrder S] :
    ∀ (ps : List (Pattern S × O)) (g : Ndfa S O), BInv g → (∀ po ∈ ps, po.1.wf) →
      (∃ tl el ol, (ps.foldl buildStep g).transitions = g.transitions ++ tl ∧
        (ps.foldl buildStep g).epsilons = g.epsilons ++ el ∧
        (ps.foldl buildStep g).outputs = g.outputs ++ ol ∧
        g.numStates ≤ (ps.foldl buildStep g).numStates ∧
        (∀ so ∈ ol, g.numStates ≤ so.1)) ∧ BInv (ps.foldl buildStep g) := by
  intro ps
  induction ps with
  | nil =>
    intro g hi hwf
    exact ⟨⟨[], [], [], (List.append_nil _).symm, (List.append_nil _).symm,
      (List.append_nil _).symm, le_refl _,
      fun so hso => absurd hso (List.not_mem_nil _)⟩, hi⟩
  | cons po0 rest ih =>
    intro g hi hwf
    have hw0 : po0.1.wf := hwf po0 (List.mem_cons_self _ _)
    have hi1 : BInv (buildStep g po0) := by
      have := BInv_step hi hw0 po0.2
      exact this
    obtain ⟨dT, dE, fok⟩ := compile_ok po0.1 hw0 g 0 hi.1
    have hT1 : (buildStep g po0).transitions = g.transitions ++ dT := fok.hT
    have hE1 : (buildStep g po0).epsilons = g.epsilons ++ dE := fok.hE
    have hO1 : (buildStep g po0).outputs =
        g.outputs ++ [((po0.1.compile g 0).2, po0.2)] := by
      show ((po0.1.compile g 0).1.setOutput (po0.1.compile g 0).2 po0.2).outputs = _
      rw [setOutput_outputs, fok.hO]
    have hN1 : (buildStep g po0).numStates = (po0.1.compile g 0).1.numStates := rfl
    have D1 : g.numStates < (po0.1.compile g 0).1.numStates := fok.hns
    have D2 : g.numStates ≤ (po0.1.compile g 0).2 := fok.hf1
    obtain ⟨⟨tl, el, ol, h1, h2, h3, h4, h5⟩, hinv⟩ := ih (buildStep g po0) hi1
      (fun po hpo => hwf po (List.mem_cons_of_mem _ hpo))
    refine ⟨⟨dT ++ tl, dE ++ el, ((po0.1.compile g 0).2, po0.2) :: ol, ?_, ?_, ?_,
      ?_, ?_⟩, hinv⟩
    · show (rest.foldl buildStep (buildStep g po0)).transitions =
        g.transitions ++ (dT ++ tl)
      rw [h1, hT1, List.append_assoc]
    · show (rest.foldl buildStep (buildStep g po0)).epsilons =
        g.epsilons ++ (dE ++ el)
      rw [h2, hE1, List.append_assoc]
    · show (rest.foldl buildStep (buildStep g po0)).outputs =
        g.outputs ++ (((po0.1.compile g 0).2, po0.2) :: ol)
      rw [h3, hO1]
      simp
    · show g.numStates ≤ (rest.foldl buildStep (buildStep g po0)).numStates
      have hN1' : (buildStep g po0).numStates = (po0.1.compile g 0).1.numStates := rfl
      omega
    · intro so hso
      rcases List.mem_cons.mp hso with rfl | hso2
      · exact D2
      · have := h5 so hso2
        have hN1' : g.numStates < (buildStep g po0).numStates := by
          rw [hN1]
          exact D1
        omega

/-- Completeness of the build: every pattern of the list reaches, on each word
it matches, a state whose recorded output is that pattern's output. -/
theorem build_complete {S O : Type} [LinearOrder S] :
    ∀ (ps : List (Pattern S × O)) (g : Ndfa S O), BInv g → (∀ po ∈ ps, po.1.wf) →
      ∀ po ∈ ps, ∀ w, PatMatches po.1 w →
        ∃ x, NReach (ps.foldl buildStep g) 0 w x ∧
          (ps.foldl buildStep g).outputFor x = some po.2 := by
  intro ps
  induction ps with
  | nil =>
    intro g hi hwf po hpo
    exact absurd hpo (List.not_mem_nil _)
  | cons po0 rest ih =>
    intro g hi hwf po hpo w hw
    have hw0 : po0.1.wf := hwf po0 (List.mem_cons_self _ _)
    have hi1 : BInv (buildStep g po0) := BInv_step hi hw0 po0.2
    rcases List.mem_cons.mp hpo with rfl | hpo2
    · obtain ⟨dT, dE, fok⟩ := compile_ok po.1 hw0 g 0 hi.1
      have hpath := fok.hcomp w hw
      have hT1 : (buildStep g po).transitions = g.transitions ++ dT := fok.hT
      have hE1 : (buildStep g po).epsilons = g.epsilons ++ dE := fok.hE
      have hO1 : (buildStep g po).outputs =
          g.outputs ++ [((po.1.compile g 0).2, po.2)] := by
        show ((po.1.compile g 0).1.setOutput (po.1.compile g 0).2 po.2).outputs = _
        rw [setOutput_outputs, fok.hO]
      obtain ⟨⟨tl, el, ol, h1, h2, h3, h4, h5⟩, -⟩ := fold_facts rest (buildStep g po)
        hi1 (fun q hq => hwf q (List.mem_cons_of_mem _ hq))
      refine ⟨(po.1.compile g 0).2, ?_, ?_⟩
      · refine NReach_mono ?_ ?_ hpath
        · intro t ht
          show t ∈ (rest.foldl buildStep (buildStep g po)).transitions
          rw [h1, hT1]
          exact List.mem_append_left _ (List.mem_append_right _ ht)
        · intro e he
          show e ∈ (rest.foldl buildStep (buildStep g po)).epsilons
          rw [h2, hE1]
          exact List.mem_append_left _ (List.mem_append_right _ he)
      · show (rest.foldl buildStep (buildStep g po)).outputFor
          (po.1.compile g 0).2 = some po.2
        have hout : (rest.foldl buildStep (buildStep g po)).outputs =
            (g.outputs ++ [((po.1.compile g 0).2, po.2)]) ++ ol := by
          rw [h3, hO1]
        refine outputFor_of_append hout ?_
        intro so hso
        have hhi := h5 so hso
        have hflt : (po.1.compile g 0).2 < (buildStep g po).numStates := fok.hf2
        omega
    · exact ih (buildStep g po0) hi1 (fun q hq => hwf q (List.mem_cons_of_mem _ hq))
        po hpo2 w hw

/-- Soundness of the build: a state reachable on `w` whose recorded output is
`o` belongs to some pattern of the list that matches `w` with output `o`,
unless both the path and the output already lived in the base graph. -/
theorem build_sound {S O : Type} [LinearOrder S] :
    ∀ (ps : List (Pattern S × O)) (g : Ndfa S O), BInv g → (∀ po ∈ ps, po.1.wf) →
      ∀ w x o, NReach (ps.foldl buildStep g) 0 w x →
        (ps.foldl buildStep g).outputFor x = some o →
        (NReach g 0 w x ∧ g.outputFor x = some o) ∨
        ∃ po ∈ ps, PatMatches po.1 w ∧ po.2 = o := by
  intro ps
  induction ps with
  | nil =>
    intro g hi hwf w x o hre hout
    exact Or.inl ⟨hre, hout⟩
  | cons po0 rest ih =>
    intro g hi hwf w x o hre hout
    have hw0 : po0.1.wf := hwf po0 (List.mem_cons_self _ _)
    have hi1 : BInv (buildStep g po0) := BInv_step hi hw0 po0.2
    have hre' : NReach (rest.foldl buildStep (buildStep g po0)) 0 w x := hre
    have hout' : (rest.foldl buildStep (buildStep g po0)).outputFor x = some o := hout
    rcases ih (buildStep g po0) hi1 (fun q hq => hwf q (List.mem_cons_of_mem _ hq))
      w x o hre' hout' with ⟨hr1, ho1⟩ | ⟨po, hpo, hm, hoe⟩
    · obtain ⟨dT, dE, fok⟩ := compile_ok po0.1 hw0 g 0 hi.1
      have hT1 : (buildStep g po0).transitions = g.transitions ++ dT := fok.hT
      have hE1 : (buildStep g po0).epsilons = g.epsilons ++ dE := fok.hE
      have hO1 : (buildStep g po0).outputs =
          g.outputs ++ [((po0.1.compile g 0).2, po0.2)] := by
        show ((po0.1.compile g 0).1.setOutput (po0.1.compile g 0).2 po0.2).outputs = _
        rw [setOutput_outputs, fok.hO]
      have D1 : g.numStates < (po0.1.compile g 0).1.numStates := fok.hns
      have D2 : g.numStates ≤ (po0.1.compile g 0).2 := fok.hf1
      have D3 : (po0.1.compile g 0).2 < (po0.1.compile g 0).1.numStates := fok.hf2
      obtain ⟨hi0, hiT, hiE, hiO⟩ := hi
      rcases NReach_step_inv hr1 with ⟨hx0, hwnil⟩ | ⟨b, hedge, hrest⟩ |
        ⟨r, b, c, w', htr, hcont, hwc, hrest⟩
      · exfalso
        subst hx0
        have hmem := outputFor_mem _ _ _ ho1
        rw [hO1] at hmem
        rcases List.mem_append.mp hmem with hmm | hmm
        · have h01 : 1 ≤ (0 : Nat) := (hiO _ hmm).1
          omega
        · rw [List.mem_singleton] at hmm
          have h0f := congrArg Prod.fst hmm
          have h0f' : (0 : Nat) = (po0.1.compile g 0).2 := h0f
          omega
      · rw [hE1] at hedge
        rcases List.mem_append.mp hedge with hmemg | hmemd
        · left
          have hCb : 1 ≤ b ∧ b < g.numStates := (hiE _ hmemg).2
          have hrest' : NReach g b w x := by
            refine reach_restrict (buildStep g po0) g
              (fun s => 1 ≤ s ∧ s < g.numStates) ?_ ?_ hrest hCb
            · intro t htm hc
              rw [hT1] at htm
              rcases List.mem_append.mp htm with hmm | hmm
              · exact ⟨hmm, (hiT t hmm).2⟩
              · exfalso
                obtain ⟨hsrc, -, -, -⟩ := fok.hsT t hmm
                obtain ⟨hc1, hc2⟩ := hc
                rcases hsrc with h0 | h0 <;> omega
            · intro e hem hc
              rw [hE1] at hem
              rcases List.mem_append.mp hem with hmm | hmm
              · exact ⟨hmm, (hiE e hmm).2⟩
              · exfalso
                obtain ⟨hsrc, -, -, -⟩ := fok.hsE e hmm
                obtain ⟨hc1, hc2⟩ := hc
                rcases hsrc with h0 | h0 <;> omega
          have hxb : 1 ≤ x ∧ x < g.numStates :=
            reach_endpoint (fun s => 1 ≤ s ∧ s < g.numStates)
              (fun t htm => (hiT t htm).2) (fun e hem => (hiE e hem).2) hrest' hCb
          have hne : ∀ so ∈ [((po0.1.compile g 0).2, po0.2)], so.1 ≠ x := by
            intro so hso
            rw [List.mem_singleton] at hso
            subst hso
            show (po0.1.compile g 0).2 ≠ x
            omega
          have hof := outputFor_append_ne hO1 hne
          rw [hof] at ho1
          exact ⟨NReach.eps hmemg hrest', ho1⟩
        · have hb : g.numStates ≤ b ∧ b < (po0.1.compile g 0).1.numStates := by
            obtain ⟨-, -, h1, h2⟩ := fok.hsE (0, b) hmemd
            exact ⟨h1, h2⟩
          have hrest' : NReach (deltaG S O dT dE) b w x := by
            refine reach_restrict (buildStep g po0) (deltaG S O dT dE)
              (fun s => g.numStates ≤ s ∧ s < (po0.1.compile g 0).1.numStates)
              ?_ ?_ hrest hb
            · intro t htm hc
              rw [hT1] at htm
              rcases List.mem_append.mp htm with hmm | hmm
              · exfalso
                have hlt := (hiT t hmm).1
                obtain ⟨hc1, hc2⟩ := hc
                omega
              · obtain ⟨-, -, h1, h2⟩ := fok.hsT t hmm
                exact ⟨hmm, h1, h2⟩
            · intro e hem hc
              rw [hE1] at hem
              rcases List.mem_append.mp hem with hmm | hmm
              · exfalso
                have hlt := (hiE e hmm).1
                obtain ⟨hc1, hc2⟩ := hc
                omega
              · obtain ⟨-, -, h1, h2⟩ := fok.hsE e hmm
                exact ⟨hmm, h1, h2⟩
          have hxb : g.numStates ≤ x ∧ x < (po0.1.compile g 0).1.numStates := by
            refine reach_endpoint (fun s => g.numStates ≤ s ∧
              s < (po0.1.compile g 0).1.numStates) ?_ ?_ hrest' hb
            · intro t htm
              obtain ⟨-, -, h1, h2⟩ := fok.hsT t htm
              exact ⟨h1, h2⟩
            · intro e hem
              obtain ⟨-, -, h1, h2⟩ := fok.hsE e hem
              exact ⟨h1, h2⟩
          by_cases hxf : x = (po0.1.compile g 0).2
          · subst hxf
            have hpath : NReach (deltaG S O dT dE) 0 w (po0.1.compile g 0).2 :=
              NReach.eps hmemd hrest'
            have hmw := fok.hsound w hpath
            have hO1' : (buildStep g po0).outputs =
                (g.outputs ++ [((po0.1.compile g 0).2, po0.2)]) ++ [] := by
              rw [hO1, List.append_nil]
            have hofx : (buildStep g po0).outputFor (po0.1.compile g 0).2 =
                some po0.2 :=
              outputFor_of_append hO1' (fun so hso => absurd hso (List.not_mem_nil _))
            rw [ho1] at hofx
            injection hofx with hoeq
            exact Or.inr ⟨po0, List.mem_cons_self _ _, hmw, hoeq.symm⟩
          · exfalso
            have hne : ∀ so ∈ [((po0.1.compile g 0).2, po0.2)], so.1 ≠ x := by
              intro so hso
              rw [List.mem_singleton] at hso
              subst hso
              show (po0.1.compile g 0).2 ≠ x
              intro hcc
              exact hxf hcc.symm
            have hof := outputFor_append_ne hO1 hne
            rw [hof] at ho1
            have hmem := outputFor_mem _ _ _ ho1
            have hdom := (hiO _ hmem).2
            omega
      · subst hwc
        rw [hT1] at htr
        rcases List.mem_append.mp htr with hmemg | hmemd
        · left
          have hCb : 1 ≤ b ∧ b < g.numStates := (hiT _ hmemg).2
          have hrest' : NReach g b w' x := by
            refine reach_restrict (buildStep g po0) g
              (fun s => 1 ≤ s ∧ s < g.numStates) ?_ ?_ hrest hCb
            · intro t htm hc
              rw [hT1] at htm
              rcases List.mem_append.mp htm with hmm | hmm
              · exact ⟨hmm, (hiT t hmm).2⟩
              · exfalso
                obtain ⟨hsrc, -, -, -⟩ := fok.hsT t hmm
                obtain ⟨hc1, hc2⟩ := hc
                rcases hsrc with h0 | h0 <;> omega
            · intro e hem hc
              rw [hE1] at hem
              rcases List.mem_append.mp hem with hmm | hmm
              · exact ⟨hmm, (hiE e hmm).2⟩
              · exfalso
                obtain ⟨hsrc, -, -, -⟩ := fok.hsE e hmm
                obtain ⟨hc1, hc2⟩ := hc
                rcases hsrc with h0 | h0 <;> omega
          have hxb : 1 ≤ x ∧ x < g.numStates :=
            reach_endpoint (fun s => 1 ≤ s ∧ s < g.numStates)
              (fun t htm => (hiT t htm).2) (fun e hem => (hiE e hem).2) hrest' hCb
          have hne : ∀ so ∈ [((po0.1.compile g 0).2, po0.2)], so.1 ≠ x := by
            intro so hso
            rw [List.mem_singleton] at hso
            subst hso
            show (po0.1.compile g 0).2 ≠ x
            omega
          have hof := outputFor_append_ne hO1 hne
          rw [hof] at ho1
          exact ⟨NReach.sym hmemg hcont hrest', ho1⟩
        · have hb : g.numStates ≤ b ∧ b < (po0.1.compile g 0).1.numStates := by
            obtain ⟨-, -, h1, h2⟩ := fok.hsT (0, r, b) hmemd
            exact ⟨h1, h2⟩
          have hrest' : NReach (deltaG S O dT dE) b w' x := by
            refine reach_restrict (buildStep g po0) (deltaG S O dT dE)
              (fun s => g.numStates ≤ s ∧ s < (po0.1.compile g 0).1.numStates)
              ?_ ?_ hrest hb
            · intro t htm hc
              rw [hT1] at htm
              rcases List.mem_append.mp htm with hmm | hmm
              · exfalso
                have hlt := (hiT t hmm).1
                obtain ⟨hc1, hc2⟩ := hc
                omega
              · obtain ⟨-, -, h1, h2⟩ := fok.hsT t hmm
                exact ⟨hmm, h1, h2⟩
            · intro e hem hc
              rw [hE1] at hem
              rcases List.mem_append.mp hem with hmm | hmm
              · exfalso
                have hlt := (hiE e hmm).1
                obtain ⟨hc1, hc2⟩ := hc
                omega
              · obtain ⟨-, -, h1, h2⟩ := fok.hsE e hmm
                exact ⟨hmm, h1, h2⟩
          have hxb : g.numStates ≤ x ∧ x < (po0.1.compile g 0).1.numStates := by
            refine reach_endpoint (fun s => g.numStates ≤ s ∧
              s < (po0.1.compile g 0).1.numStates) ?_ ?_ hrest' hb
            · intro t htm
              obtain ⟨-, -, h1, h2⟩ := fok.hsT t htm
              exact ⟨h1, h2⟩
            · intro e hem
              obtain ⟨-, -, h1, h2⟩ := fok.hsE e hem
              exact ⟨h1, h2⟩
          by_cases hxf : x = (po0.1.compile g 0).2
          · subst hxf
            have hpath : NReach (deltaG S O dT dE) 0 (c :: w') (po0.1.compile g 0).2 :=
              NReach.sym hmemd hcont hrest'
            have hmw := fok.hsound _ hpath
            have hO1' : (buildStep g po0).outputs =
                (g.outputs ++ [((po0.1.compile g 0).2, po0.2)]) ++ [] := by
              rw [hO1, List.append_nil]
            have hofx : (buildStep g po0).outputFor (po0.1.compile g 0).2 =
                some po0.2 :=
              outputFor_of_append hO1' (fun so hso => absurd hso (List.not_mem_nil _))
            rw [ho1] at hofx
            injection hofx with hoeq
            exact Or.inr ⟨po0, List.mem_cons_self _ _, hmw, hoeq.symm⟩
          · exfalso
            have hne : ∀ so ∈ [((po0.1.compile g 0).2, po0.2)], so.1 ≠ x := by
              intro so hso
              rw [List.mem_singleton] at hso
              subst hso
              show (po0.1.compile g 0).2 ≠ x
              intro hcc
              exact hxf hcc.symm
            have hof := outputFor_append_ne hO1 hne
            rw [hof] at ho1
            have hmem := outputFor_mem _ _ _ ho1
            have hdom := (hiO _ hmem).2
            omega
    · exact Or.inr ⟨po, List.mem_cons_of_mem _ hpo, hm, hoe⟩

/--
**C2.** When the matcher produced from a tokenizer reports a match `(n, o)` on
an input, the consumed prefix `input.take n` is matched by some pattern of the
tokenizer whose output is `o`, and `o` is the minimum — under the total order
on the output type — of the outputs of all the tokenizer's patterns that match
that same prefix of that same maximal length.  (Patterns are required
well-formed: bounded repetitions have `min ≤ max`, which `repeat_bounded`
guarantees.)
-/
theorem tokenizer_priority {S O : Type} [LinearOrder S] [CountableSym S]
    [LinearOrder O] (tk : Tokenizer S O) (input : List S) (n : Nat) (o : O)
    (hwf : ∀ po ∈ tk.patterns, po.1.wf)
    (hrun : runMatcher tk.prepare input = some (n, o)) :
    (∃ po ∈ tk.patterns, PatMatches po.1 (input.take n) ∧ po.2 = o) ∧
    (∀ po ∈ tk.patterns, PatMatches po.1 (input.take n) → o ≤ po.2) := by
  obtain ⟨hlen, hout⟩ := runMatcher_some_facts tk.prepare input n o hrun
  have hout' : outFrom (tk.toNdfa.toMachine) (tk.toNdfa.toMachine).start
      (input.take n) = some o := hout
  cases hsa : stateAfter (tk.toNdfa.toMachine) (tk.toNdfa.toMachine).start
      (input.take n) with
  | none => simp [outFrom, hsa] at hout'
  | some A =>
    simp only [outFrom, hsa] at hout'
    have hmin : (A.filterMap (tk.toNdfa).outputFor).min? = some o := hout'
    have hchar := toMachine_stateAfter (tk.toNdfa) (input.take n)
      (tk.toNdfa.toMachine).start (toMachine_start_closed (tk.toNdfa))
    rw [hsa] at hchar
    have hchar' : (∀ a ∈ A, ∀ b, (a, b) ∈ (tk.toNdfa).epsilons → b ∈ A) ∧
        (∀ x, x ∈ A ↔ ∃ a ∈ (tk.toNdfa.toMachine).start,
          NReach (tk.toNdfa) a (input.take n) x) := hchar
    have hmemA : ∀ x, x ∈ A ↔
        NReach (tk.patterns.foldl buildStep (Ndfa.new S O)) 0 (input.take n) x := by
      intro x
      rw [hchar'.2 x]
      constructor
      · intro ⟨a, ha, hr⟩
        have ha' : EpsReach (tk.toNdfa) 0 a := (toMachine_start_mem _ a).mp ha
        have hr0 : NReach (tk.toNdfa) 0 (input.take n) x := ha'.toNReach hr
        exact (NReach_fix (tk.patterns.foldl buildStep (Ndfa.new S O)) 0 x
          (input.take n)).mp hr0
      · intro hr
        refine ⟨0, (toMachine_start_mem _ 0).mpr (EpsReach.refl 0), ?_⟩
        exact (NReach_fix (tk.patterns.foldl buildStep (Ndfa.new S O)) 0 x
          (input.take n)).mpr hr
    have homem : o ∈ A.filterMap (tk.toNdfa).outputFor :=
      List.min?_mem (fun a b => min_choice a b) hmin
    have hole : ∀ b ∈ A.filterMap (tk.toNdfa).outputFor, o ≤ b := by
      intro b hb
      exact (List.le_min?_iff (fun a b c => le_min_iff) hmin).1 (le_refl o) b hb
    obtain ⟨x, hxA, hxo⟩ := List.mem_filterMap.mp homem
    have hreach : NReach (tk.patterns.foldl buildStep (Ndfa.new S O)) 0
        (input.take n) x := (hmemA x).mp hxA
    have hxo' : (tk.patterns.foldl buildStep (Ndfa.new S O)).outputFor x =
        some o := hxo
    rcases build_sound tk.patterns (Ndfa.new S O) (BInv_new S O) hwf
        (input.take n) x o hreach hxo' with ⟨-, hno⟩ | hfound
    · have hne : (Ndfa.new S O).outputFor x = none := rfl
      rw [hne] at hno
      exact Option.noConfusion hno
    · refine ⟨hfound, ?_⟩
      intro po hpo hm
      obtain ⟨y, hyr, hyo⟩ := build_complete tk.patterns (Ndfa.new S O)
        (BInv_new S O) hwf po hpo (input.take n) hm
      have hyA : y ∈ A := (hmemA y).mpr hyr
      have hyo' : (tk.toNdfa).outputFor y = some po.2 := hyo
      exact hole po.2 (List.mem_filterMap.mpr ⟨y, hyA, hyo'⟩)

/-- A totally ordered, successor/predecessor-equipped symbol type for concrete
runs: the natural numbers. -/
instance : CountableSym Nat where
  succOf a := some (a + 1)
  predOf a := match a with | 0 => none | b + 1 => some b
  succOf_spec := by
    intro a b h c
    injection h with h
    omega
  predOf_spec := by
    intro a b h c
    cases a with
    | zero => exact Option.noConfusion h
    | succ a' =>
      injection h with h
      omega
  predOf_none := by
    intro a h c
    cases a with
    | zero => omega
    | succ a' => exact Option.noConfusion h

theorem tokenizer_priority_witness :
    (∃ po ∈ ({ patterns := [(Pattern.literal [1], 5), (Pattern.literal [1], 3)] } :
        Tokenizer Nat Nat).patterns, PatMatches po.1 ([1].take 1) ∧ po.2 = 3) ∧
    (∀ po ∈ ({ patterns := [(Pattern.literal [1], 5), (Pattern.literal [1], 3)] } :
        Tokenizer Nat Nat).patterns, PatMatches po.1 ([1].take 1) → 3 ≤ po.2) :=
  tokenizer_priority
    ({ patterns := [(Pattern.literal [1], 5), (Pattern.literal [1], 3)] } :
      Tokenizer Nat Nat) [1] 1 3
    (by
      intro po hpo
      rcases List.mem_cons.mp hpo with rfl | hpo
      · exact trivial
      rcases List.mem_cons.mp hpo with rfl | hpo
      · exact trivial
      · exact absurd hpo (List.not_mem_nil _))
    (by rfl)

end RustNdfa
